import Mathlib

/-!
# Huffman compressor: shallow embedding and verification

Embedding of `heap.c`, `huffman.c` and `io.c`.

Conventions of the embedding.
* A value of C type `Noeud*` is a value of the inductive type `Noeud`: either the
  null pointer `Noeud.null` or a node carrying the five fields of `struct Noeud`.
* `unsigned long` and `uint64_t` are natural numbers reduced modulo `2^64` wherever
  the C arithmetic can wrap; `unsigned char` is a natural number reduced modulo `256`.
  A frequency table is a function read at the indices `0..255`; a byte of a file is a
  natural number below `256`.
* The array `Noeud **tab` of a heap is a function from indices to node pointers; the
  `int` fields `taille` and `capacite` are natural numbers (heaps hold at most 256
  entries in this program, far from the range where `2*i+2` leaves `int`).
* Memory allocation and file operations are assumed to succeed; a file is the list
  of its bytes. A function that returns the status `-1` returns `none`, or the status
  itself when the source passes it on.
* Loops are structural recursions on an explicit iteration budget; the lemmas
  `entasser_boucle_stable`, `inserer_boucle_stable`, `boucle_fusion_regle` and
  `decode_boucle_stable` show that the budgets used are never exhausted before the
  loop exits.

The first part of the file holds the definitions, the second part the theorems.
-/

set_option autoImplicit false
set_option linter.constructorNameAsVariable false

namespace Huffman

/-! ## Nodes (`huffman.h`) -/

/-- A pointer to a `struct Noeud`: null, or the fields `c`, `freq`, `left`, `right`, `leaf`. -/
inductive Noeud where
  | null : Noeud
  | mk (c : Nat) (freq : Nat) (left : Noeud) (right : Noeud) (leaf : Nat) : Noeud
  deriving DecidableEq

namespace Noeud

/-- Field `c` (the default at the null pointer is never used by the program). -/
def c : Noeud → Nat
  | null => 0
  | mk c _ _ _ _ => c

/-- Field `freq`. -/
def freq : Noeud → Nat
  | null => 0
  | mk _ f _ _ _ => f

/-- Field `left`. -/
def left : Noeud → Noeud
  | null => null
  | mk _ _ l _ _ => l

/-- Field `right`. -/
def right : Noeud → Noeud
  | null => null
  | mk _ _ _ r _ => r

/-- Field `leaf`. -/
def leaf : Noeud → Nat
  | null => 0
  | mk _ _ _ _ lf => lf

end Noeud

/-- Source `creer_noeud`: the symbol is stored as an `unsigned char`, the leaf flag is
`1` exactly when both children are null. -/
def creer_noeud (c : Nat) (freq : Nat) (left right : Noeud) : Noeud :=
  Noeud.mk (c % 256) freq left right (if left = Noeud.null ∧ right = Noeud.null then 1 else 0)

/-! ## Min-heap (`heap.c`) -/

/-- The struct `TasMin`. -/
structure TasMin where
  taille : Nat
  capacite : Nat
  tab : Nat → Noeud

/-- Source `swap_noeuds`, applied to the cells `tab[i]` and `tab[j]`. -/
def swap_noeuds (tab : Nat → Noeud) (i j : Nat) : Nat → Noeud :=
  fun k => if k = i then tab j else if k = j then tab i else tab k

/-- Source `agrandir_tas` (the reallocation succeeds and keeps the contents). -/
def agrandir_tas (tas : TasMin) : TasMin :=
  { tas with capacite := if tas.capacite = 0 then 4 else tas.capacite * 2 }

/-- Source `parent_idx`. -/
def parent_idx (i : Nat) : Nat := (i - 1) / 2

/-- Source `gauche_idx`. -/
def gauche_idx (i : Nat) : Nat := 2 * i + 1

/-- Source `droite_idx`. -/
def droite_idx (i : Nat) : Nat := 2 * i + 2

/-- Source `creer_tas_min`; the fresh cells hold no node. -/
def creer_tas_min (capacite_initiale : Nat) : TasMin :=
  { taille := 0
    capacite := if capacite_initiale > 0 then capacite_initiale else 4
    tab := fun _ => Noeud.null }

/-- Source `taille_tas`. -/
def taille_tas (tas : TasMin) : Nat := tas.taille

/-- The index `plus_petit` computed by one pass of the body of the `for (;;)` loop of
`entasser_min`: `i`, or the child of `i` that holds a strictly smaller frequency. -/
def plus_petit_de (tas : TasMin) (i : Nat) : Nat :=
  let n := tas.taille
  let g := gauche_idx i
  let d := droite_idx i
  let plus_petit := i
  let plus_petit :=
    if g < n ∧ (tas.tab g).freq < (tas.tab plus_petit).freq then g else plus_petit
  let plus_petit :=
    if d < n ∧ (tas.tab d).freq < (tas.tab plus_petit).freq then d else plus_petit
  plus_petit

/-- The `for (;;)` loop of `entasser_min`, with an iteration budget. -/
def entasser_boucle : Nat → TasMin → Nat → TasMin
  | 0, tas, _ => tas
  | fuel + 1, tas, i =>
    let plus_petit := plus_petit_de tas i
    if plus_petit ≠ i then
      entasser_boucle fuel { tas with tab := swap_noeuds tas.tab i plus_petit } plus_petit
    else tas

/-- Source `entasser_min`: sift down from index `i`. -/
def entasser_min (tas : TasMin) (i : Nat) : TasMin :=
  entasser_boucle tas.taille tas i

/-- The `while (idx > 0)` loop of `inserer_tas`, with an iteration budget. -/
def inserer_boucle : Nat → (Nat → Noeud) → Nat → (Nat → Noeud)
  | 0, tab, _ => tab
  | fuel + 1, tab, idx =>
    if idx > 0 then
      let p := parent_idx idx
      if (tab p).freq > (tab idx).freq then
        inserer_boucle fuel (swap_noeuds tab p idx) p
      else tab
    else tab

/-- Source `inserer_tas`: returns the status (`0`, or `-1` for a null node) and the heap. -/
def inserer_tas (tas : TasMin) (n : Noeud) : Int × TasMin :=
  if n = Noeud.null then (-1, tas)
  else
    let tas := if tas.taille ≥ tas.capacite then agrandir_tas tas else tas
    let idx := tas.taille
    let tab := fun k => if k = idx then n else tas.tab k
    (0, { tas with taille := tas.taille + 1, tab := inserer_boucle idx tab idx })

/-- Source `extraire_min`: returns the extracted pointer (null on an empty heap) and the heap. -/
def extraire_min (tas : TasMin) : Noeud × TasMin :=
  if tas.taille = 0 then (Noeud.null, tas)
  else
    let min := tas.tab 0
    let tas := { tas with taille := tas.taille - 1 }
    if tas.taille > 0 then
      let tas := { tas with tab := fun k => if k = 0 then tas.tab tas.taille else tas.tab k }
      (min, entasser_min tas 0)
    else (min, tas)

/-- The min-heap property: every non-root live position holds a frequency at least that of
its parent position. -/
def EstTasMin (tas : TasMin) : Prop :=
  ∀ i, 0 < i → i < tas.taille → (tas.tab (parent_idx i)).freq ≤ (tas.tab i).freq

/-- Every live cell of the heap holds a non-null pointer. -/
def SansNull (tas : TasMin) : Prop :=
  ∀ i, i < tas.taille → tas.tab i ≠ Noeud.null

/-- The multiset of node pointers held in the live cells `tab[0 .. taille-1]`. -/
def contenu (tas : TasMin) : Multiset Noeud :=
  (Multiset.range tas.taille).map tas.tab

/-! ## Tree construction (`huffman.c`) -/

/-- Step 1 of `construire_arbre_huffman`: the heap after the first `i` passes of the loop
`for (i = 0; i < 256; ++i)`, or `none` when a pass took the cleanup exit (`return NULL`). -/
def inserer_feuilles (freq_table : Nat → Nat) : Nat → Option TasMin
  | 0 => some (creer_tas_min 16)
  | i + 1 =>
    match inserer_feuilles freq_table i with
    | none => none
    | some tas =>
      if freq_table i > 0 then
        let leaf := creer_noeud i (freq_table i) Noeud.null Noeud.null
        if leaf = Noeud.null then none
        else
          let r := inserer_tas tas leaf
          if r.1 ≠ 0 then none else some r.2
      else some tas

/-- Step 2 of `construire_arbre_huffman`: the loop `while (taille_tas(tas) > 1)`, with an
iteration budget; `none` when a pass took a cleanup exit. The sum `a->freq + b->freq` is
computed in `unsigned long`. -/
def boucle_fusion : Nat → TasMin → Option TasMin
  | 0, tas => some tas
  | fuel + 1, tas =>
    if taille_tas tas > 1 then
      let ea := extraire_min tas
      let a := ea.1
      let eb := extraire_min ea.2
      let b := eb.1
      if a = Noeud.null ∨ b = Noeud.null then none
      else
        let somme := (a.freq + b.freq) % 2 ^ 64
        let parent := creer_noeud 0 somme a b
        if parent = Noeud.null then none
        else
          let r := inserer_tas eb.2 parent
          if r.1 ≠ 0 then none else boucle_fusion fuel r.2
    else some tas

/-- Source `construire_arbre_huffman`: the root of the tree, or null. -/
def construire_arbre_huffman (freq_table : Nat → Nat) : Noeud :=
  match inserer_feuilles freq_table 256 with
  | none => Noeud.null
  | some tas =>
    if taille_tas tas = 0 then Noeud.null
    else if taille_tas tas = 1 then (extraire_min tas).1
    else
      match boucle_fusion (taille_tas tas) tas with
      | none => Noeud.null
      | some tas => (extraire_min tas).1

/-! ## Code table (`huffman.c`) -/

/-- Assignment `t[i] = v` in an array seen as a function. -/
def ecrire {α : Type} (t : Nat → α) (i : Nat) (v : α) : Nat → α :=
  fun k => if k = i then v else t k

/-- The NUL character that ends a C string. -/
def NUL : Char := Char.ofNat 0

/-- Source `my_strdup` applied to the 512-character buffer `buf` of `generer_codes`: the
characters that precede the first NUL. -/
def strdup (buf : Nat → Char) : List Char :=
  ((List.range 512).map buf).takeWhile (fun ch => ch ≠ NUL)

/-- Source `generer_codes_rec`; returns the buffer and the code table after the call. An
entry of the table is `none` (null pointer) or a string. -/
def generer_codes_rec :
    Noeud → (Nat → Char) → Nat → (Nat → Option (List Char)) →
      (Nat → Char) × (Nat → Option (List Char))
  | Noeud.null, buf, _, codes => (buf, codes)
  | Noeud.mk c _ left right leaf, buf, depth, codes =>
    if leaf ≠ 0 then
      if depth = 0 then (buf, ecrire codes c (some ['0']))
      else
        let buf := ecrire buf depth NUL
        (buf, ecrire codes c (some (strdup buf)))
    else
      let buf := ecrire buf depth '0'
      let g := generer_codes_rec left buf (depth + 1) codes
      let buf := ecrire g.1 depth '1'
      generer_codes_rec right buf (depth + 1) g.2

/-- Source `generer_codes`: the table of 256 code strings (the local buffer starts with
unspecified contents, taken here to be NUL characters). -/
def generer_codes (root : Noeud) : Nat → Option (List Char) :=
  let codes : Nat → Option (List Char) := fun _ => none
  if root = Noeud.null then codes
  else
    let buf : Nat → Char := fun _ => NUL
    if root.leaf ≠ 0 then ecrire codes root.c (some ['0'])
    else (generer_codes_rec root buf 0 codes).2

/-! ## Trees: nodes, leaves, shape -/

/-- All the nodes of the tree under a pointer (nothing under the null pointer). -/
def noeuds : Noeud → List Noeud
  | Noeud.null => []
  | Noeud.mk c f l r lf => Noeud.mk c f l r lf :: (noeuds l ++ noeuds r)

/-- A node is either a leaf (no child, flag 1) or has two children (flag 0). -/
def FeuilleOuBinaire (n : Noeud) : Prop :=
  (n.left = Noeud.null ∧ n.right = Noeud.null ∧ n.leaf = 1) ∨
  (n.left ≠ Noeud.null ∧ n.right ≠ Noeud.null ∧ n.leaf = 0)

/-- Shape of a Huffman tree: non-null, each node a leaf with flag 1 and a byte symbol, or a
node with two well-shaped children and flag 0. -/
def Bon : Noeud → Prop
  | Noeud.null => False
  | Noeud.mk c _ l r lf =>
    (l = Noeud.null ∧ r = Noeud.null ∧ lf = 1 ∧ c < 256) ∨ (lf = 0 ∧ Bon l ∧ Bon r)

/-- Every internal node carries the exact sum of the frequencies of its two children. -/
def SommeOK : Noeud → Prop
  | Noeud.null => True
  | Noeud.mk _ f l r lf =>
    (lf = 0 → f = l.freq + r.freq) ∧ SommeOK l ∧ SommeOK r

/-- The symbols `c` of the leaves (nodes with the leaf flag set), from left to right. -/
def symboles : Noeud → List Nat
  | Noeud.null => []
  | Noeud.mk c _ l r lf => if lf ≠ 0 then [c] else symboles l ++ symboles r

/-- The leaves with their root-to-leaf path: `'0'` for a left descent, `'1'` for a right
descent. -/
def chemins : Noeud → List (Nat × List Char)
  | Noeud.null => []
  | Noeud.mk c _ l r lf =>
    if lf ≠ 0 then [(c, [])]
    else (chemins l).map (fun p => (p.1, '0' :: p.2)) ++
      (chemins r).map (fun p => (p.1, '1' :: p.2))

/-- Height of a tree in edges. -/
def hauteur : Noeud → Nat
  | Noeud.null => 0
  | Noeud.mk _ _ l r lf => if lf ≠ 0 then 0 else max (hauteur l) (hauteur r) + 1

/-- Sum of the frequencies stored in the leaves. -/
def poids : Noeud → Nat
  | Noeud.null => 0
  | Noeud.mk _ f l r lf => if lf ≠ 0 then f else poids l + poids r

/-- Weighted path length below depth `d`, with the frequencies stored in the leaves: the sum
over the leaves of frequency times depth. -/
def cout : Nat → Noeud → Nat
  | _, Noeud.null => 0
  | d, Noeud.mk _ f l r lf => if lf ≠ 0 then f * d else cout (d + 1) l + cout (d + 1) r

/-! ## Depth assignments

A depth assignment is a multiset of pairs (weight, depth), one pair per leaf of a tree. -/

/-- Cost of a depth assignment: the sum of weight times depth. -/
def coutA (A : Multiset (Nat × Nat)) : Nat :=
  (A.map (fun p => p.1 * p.2)).sum

/-- Kraft sum of a multiset of depths: the sum of `2^(-d)`, as an exact rational. -/
def kraftD (D : Multiset Nat) : ℚ :=
  (D.map (fun d => (1 / 2 : ℚ) ^ d)).sum

/-- Integer form of the Kraft sum, scaled by `2^h`. -/
def kraftN (h : Nat) (D : Multiset Nat) : Nat :=
  (D.map (fun d => 2 ^ (h - d))).sum

/-! ## Specification vocabulary for the tree builder -/

/-- The leaves created by the first `n` passes of step 1, most recent first. -/
def feuilles_de (freq_table : Nat → Nat) : Nat → List Noeud
  | 0 => []
  | i + 1 =>
    if freq_table i > 0 then
      creer_noeud i (freq_table i) Noeud.null Noeud.null :: feuilles_de freq_table i
    else feuilles_de freq_table i

/-- The symbols below `n` with a non-zero frequency, greatest first. -/
def presents (freq_table : Nat → Nat) : Nat → List Nat
  | 0 => []
  | i + 1 => if freq_table i > 0 then i :: presents freq_table i else presents freq_table i

/-- The symbols `0..255` with a non-zero frequency, in ascending order. -/
def symboles_presents (freq_table : Nat → Nat) : List Nat :=
  (List.range 256).filter (fun s => decide (0 < freq_table s))

/-- The exact sum of the first `n` entries of a frequency table. -/
def total_table (freq_table : Nat → Nat) : Nat → Nat
  | 0 => 0
  | i + 1 => total_table freq_table i + freq_table i

/-- Every leaf stores the frequency that the table gives for its symbol. -/
def FeuillesTable (freq_table : Nat → Nat) : Noeud → Prop
  | Noeud.null => True
  | Noeud.mk c f l r lf =>
    if lf ≠ 0 then f = freq_table c else FeuillesTable freq_table l ∧ FeuillesTable freq_table r

/-- The symbols of the leaves of an arbitrary tree, a leaf being a node without children. -/
def feuilles : Noeud → List Nat
  | Noeud.null => []
  | Noeud.mk c _ l r _ =>
    if l = Noeud.null ∧ r = Noeud.null then [c] else feuilles l ++ feuilles r

/-- Weighted path length of an arbitrary tree below depth `d` for a frequency table: the sum
over the leaves of the frequency of the symbol times the depth of the leaf. -/
def longueur_ponderee (freq_table : Nat → Nat) : Nat → Noeud → Nat
  | _, Noeud.null => 0
  | d, Noeud.mk c _ l r _ =>
    if l = Noeud.null ∧ r = Noeud.null then freq_table c * d
    else longueur_ponderee freq_table (d + 1) l + longueur_ponderee freq_table (d + 1) r

/-- A full binary tree: non-null, every node has no child or two children. -/
def Plein : Noeud → Prop
  | Noeud.null => False
  | Noeud.mk _ _ l r _ => (l = Noeud.null ∧ r = Noeud.null) ∨ (Plein l ∧ Plein r)

/-- The depth assignment of a tree for a frequency table: one pair (frequency of the symbol,
depth) per leaf. -/
def affectation (freq_table : Nat → Nat) : Nat → Noeud → Multiset (Nat × Nat)
  | _, Noeud.null => 0
  | d, Noeud.mk c _ l r _ =>
    if l = Noeud.null ∧ r = Noeud.null then {(freq_table c, d)}
    else affectation freq_table (d + 1) l + affectation freq_table (d + 1) r

/-- Removal of the nodes with a single child: such a node is replaced by its child. -/
def contracte : Noeud → Noeud
  | Noeud.null => Noeud.null
  | Noeud.mk c f l r lf =>
    if l = Noeud.null ∧ r = Noeud.null then Noeud.mk c f l r lf
    else if l = Noeud.null then contracte r
    else if r = Noeud.null then contracte l
    else Noeud.mk c f (contracte l) (contracte r) lf

/-- Invariant of the merging loop on the shape of the queued trees: each is well shaped with
leaves that store the frequencies of the table, and together their leaves are the symbols
with a non-zero frequency, each once. -/
def InvForme (freq_table : Nat → Nat) (F : Multiset Noeud) : Prop :=
  (∀ t ∈ F, Bon t ∧ FeuillesTable freq_table t) ∧
  (F.map (fun t => (symboles t : Multiset Nat))).sum = (presents freq_table 256 : Multiset Nat)

/-- Invariant of the merging loop on the frequencies: the frequency of each queued tree is
the exact sum of its leaves, and the queued frequencies add up to the total of the table. -/
def InvSomme (freq_table : Nat → Nat) (F : Multiset Noeud) : Prop :=
  InvForme freq_table F ∧ (∀ t ∈ F, SommeOK t ∧ t.freq = poids t) ∧
  (F.map poids).sum = total_table freq_table 256

/-- Invariant of the merging loop for optimality against a bound `K`: some depth assignment
with Kraft sum one over the queued frequencies, added to the internal costs of the queued
trees, stays within `K`. -/
def InvOpt (freq_table : Nat → Nat) (K : Nat) (F : Multiset Noeud) : Prop :=
  InvSomme freq_table F ∧
  ∃ A : Multiset (Nat × Nat), A.map Prod.fst = F.map Noeud.freq ∧
    kraftD (A.map Prod.snd) = 1 ∧ (F.map (cout 0)).sum + coutA A ≤ K

/-! ## Concrete inputs used to exercise the theorems -/

/-- An ordered heap with three leaves, of frequencies 1, 2 and 2. -/
def tas_exemple : TasMin :=
  { taille := 3
    capacite := 4
    tab := fun k =>
      if k = 0 then creer_noeud 97 1 Noeud.null Noeud.null
      else if k = 1 then creer_noeud 98 2 Noeud.null Noeud.null
      else if k = 2 then creer_noeud 99 2 Noeud.null Noeud.null
      else Noeud.null }

/-- A frequency table with three symbols: `A` once, `B` once, `C` three times. -/
def table_exemple : Nat → Nat :=
  fun s => if s = 65 then 1 else if s = 66 then 1 else if s = 67 then 3 else 0

/-- The code table obtained by recording, in order, each pair (symbol, string) of a list. -/
def table_de (g : List Char → List Char) (L : List (Nat × List Char))
    (codes : Nat → Option (List Char)) : Nat → Option (List Char) :=
  L.foldl (fun cs p => ecrire cs p.1 (some (g p.2))) codes

/-- The Kraft sum of a code table: the sum over the 256 slots of `2^(-length)` for the
occupied slots, as an exact rational. -/
def somme_kraft (codes : Nat → Option (List Char)) : ℚ :=
  ((List.range 256).map (fun s =>
    match codes s with
    | none => (0 : ℚ)
    | some code => (1 / 2 : ℚ) ^ code.length)).sum

/-! ## Bit streams and header (`io.c`) -/

/-- Source `write_u64_be`: the eight bytes written, `b[7-i] = (v >> (i*8)) & 0xFF`. -/
def write_u64_be (v : Nat) : List Nat :=
  (List.range 8).map (fun j => (v >>> ((7 - j) * 8)) &&& 0xFF)

/-- Source `read_u64_be` on the unread part of a file: the value and the rest of the file,
or `none` when fewer than eight bytes are left. -/
def read_u64_be (f : List Nat) : Option (Nat × List Nat) :=
  if f.length < 8 then none
  else some ((f.take 8).foldl (fun v b => ((v <<< 8) ||| b) % 2 ^ 64) 0, f.drop 8)

/-- The struct `BitWriter`; `f` is the content of the output file so far. -/
structure BitWriter where
  f : List Nat
  buffer : Nat
  bit_count : Nat

/-- The struct `BitReader`; `f` is the unread part of the input file. -/
structure BitReader where
  f : List Nat
  buffer : Nat
  bit_pos : Int

/-- Source `bw_create`. -/
def bw_create (out : List Nat) : BitWriter :=
  { f := out, buffer := 0, bit_count := 0 }

/-- Source `bw_write_flush`: `towrite = bw->buffer << (8 - bw->bit_count)` is truncated to an
`unsigned char`. -/
def bw_write_flush (bw : BitWriter) : BitWriter :=
  if bw.bit_count = 0 then bw
  else
    let towrite := (bw.buffer <<< (8 - bw.bit_count)) % 256
    { f := bw.f ++ [towrite], buffer := 0, bit_count := 0 }

/-- Source `bw_write_bit`: returns the status and the writer. -/
def bw_write_bit (bw : BitWriter) (bit : Nat) : Int × BitWriter :=
  let bit := if bit ≠ 0 then 1 else 0
  let buffer := bw.buffer ||| ((bit <<< (7 - bw.bit_count)) % 256)
  let bit_count := bw.bit_count + 1
  if bit_count = 8 then (0, { f := bw.f ++ [buffer], buffer := 0, bit_count := 0 })
  else (0, { f := bw.f, buffer := buffer, bit_count := bit_count })

/-- Source `bw_write_bits_from_string`: returns the status and the writer. -/
def bw_write_bits_from_string : BitWriter → List Char → Int × BitWriter
  | bw, [] => (0, bw)
  | bw, ch :: reste =>
    if ch = '0' then
      let r := bw_write_bit bw 0
      if r.1 ≠ 0 then (-1, r.2) else bw_write_bits_from_string r.2 reste
    else if ch = '1' then
      let r := bw_write_bit bw 1
      if r.1 ≠ 0 then (-1, r.2) else bw_write_bits_from_string r.2 reste
    else (-1, bw)

/-- Source `br_create`. -/
def br_create (inp : List Nat) : BitReader :=
  { f := inp, buffer := 0, bit_pos := -1 }

/-- Source `br_read_bit`: returns the bit (or `-1` at the end of the file) and the reader. -/
def br_read_bit (br : BitReader) : Int × BitReader :=
  let rempli : Option BitReader :=
    if br.bit_pos < 0 then
      match br.f with
      | [] => none
      | tmp :: reste => some { f := reste, buffer := tmp, bit_pos := 7 }
    else some br
  match rempli with
  | none => (-1, br)
  | some br =>
    (((br.buffer >>> br.bit_pos.toNat) &&& 1 : Nat), { br with bit_pos := br.bit_pos - 1 })

/-- The bytes of the tag `"HUF1"`. -/
def magic : List Nat := [72, 85, 70, 49]

/-- The loop of `write_freq_header` over the first `n` symbols: the bytes written. -/
def write_freqs (freq_table : Nat → Nat) : Nat → List Nat
  | 0 => []
  | i + 1 => write_freqs freq_table i ++ write_u64_be (freq_table i)

/-- Source `write_freq_header`: the bytes written (tag, total, 256 frequencies). -/
def write_freq_header (total_symbols : Nat) (freq_table : Nat → Nat) : List Nat :=
  magic ++ write_u64_be total_symbols ++ write_freqs freq_table 256

/-- The loop of `read_freq_header` after `n` passes: the table and the unread part, or
`none` after a failed read. -/
def read_freqs (f : List Nat) : Nat → Option ((Nat → Nat) × List Nat)
  | 0 => some (fun _ => 0, f)
  | i + 1 =>
    match read_freqs f i with
    | none => none
    | some (table, reste) =>
      match read_u64_be reste with
      | none => none
      | some (v, reste) => some (ecrire table i (v % 2 ^ 64), reste)

/-- Source `read_freq_header`: the total, the table and the unread part of the file, or
`none` for the status `-1`. -/
def read_freq_header (f : List Nat) : Option (Nat × (Nat → Nat) × List Nat) :=
  if f.length < 4 then none
  else if f.take 4 ≠ magic then none
  else
    match read_u64_be (f.drop 4) with
    | none => none
    | some (total, reste) =>
      match read_freqs reste 256 with
      | none => none
      | some (table, reste) => some (total, table, reste)

/-! ## Compression and decompression (`io.c`) -/

/-- Source `compter_frequences_fichier` on the bytes of the input file: each counter is an
`unsigned long`. -/
def compter_frequences_fichier (input : List Nat) : Nat → Nat :=
  input.foldl (fun table b => ecrire table b ((table b + 1) % 2 ^ 64)) (fun _ => 0)

/-- The loop `total += freq_table[i]` of `compress_file`, in `uint64_t`. -/
def calcul_total (freq_table : Nat → Nat) : Nat → Nat
  | 0 => 0
  | i + 1 => (calcul_total freq_table i + freq_table i) % 2 ^ 64

/-- The encoding loop of `compress_file` over the bytes of the input; `none` when a byte has
no code or a code cannot be written. -/
def compress_boucle (codes : Nat → Option (List Char)) : BitWriter → List Nat → Option BitWriter
  | bw, [] => some bw
  | bw, ch :: reste =>
    match codes ch with
    | none => none
    | some code =>
      let r := bw_write_bits_from_string bw code
      if r.1 ≠ 0 then none else compress_boucle codes r.2 reste

/-- Source `compress_file`: the content of the output file on success, `none` for the
status `-1`. -/
def compress_file (input : List Nat) : Option (List Nat) :=
  let freq_table := compter_frequences_fichier input
  let total := calcul_total freq_table 256
  if total = 0 then some (write_freq_header 0 freq_table)
  else
    let root := construire_arbre_huffman freq_table
    if root = Noeud.null then none
    else
      let codes := generer_codes root
      let bw := bw_create (write_freq_header total freq_table)
      match compress_boucle codes bw input with
      | none => none
      | some bw => some (bw_write_flush bw).f

/-- The decoding loop `while (produced < total_symbols)` of `decompress_file`, with an
iteration budget: the bytes written and the reader at the exit of the loop, or `none` when
the bit stream ends early. -/
def decode_boucle (root : Noeud) (total_symbols : Nat) :
    Nat → BitReader → Nat → Noeud → List Nat → Option (List Nat × BitReader)
  | 0, _, _, _, _ => none
  | fuel + 1, br, produced, cursor, out =>
    if produced < total_symbols then
      let r := br_read_bit br
      if r.1 < 0 then none
      else
        let cursor :=
          if r.1 = 0 then (if cursor.left ≠ Noeud.null then cursor.left else cursor)
          else (if cursor.right ≠ Noeud.null then cursor.right else cursor)
        if cursor.leaf ≠ 0 then
          decode_boucle root total_symbols fuel r.2 ((produced + 1) % 2 ^ 64) root
            (out ++ [cursor.c])
        else decode_boucle root total_symbols fuel r.2 produced cursor out
    else some (out, br)

/-- Source `decompress_file`: the content of the output file on success, `none` for the
status `-1`. Each pass of the decoding loop reads one bit, so the budget of eight passes per
remaining byte plus one is never exhausted. -/
def decompress_file (input : List Nat) : Option (List Nat) :=
  match read_freq_header input with
  | none => none
  | some (total_symbols, freq_table, reste) =>
    if total_symbols = 0 then some []
    else
      let root := construire_arbre_huffman freq_table
      if root = Noeud.null then none
      else
        match decode_boucle root total_symbols (8 * reste.length + 1) (br_create reste) 0
            root [] with
        | none => none
        | some (out, _) => some out

/-- The writer `bw` in which the bytes `out` precede the bytes already written. -/
def avec_prefixe (out : List Nat) (bw : BitWriter) : BitWriter :=
  { f := out ++ bw.f, buffer := bw.buffer, bit_count := bw.bit_count }

/-- The bit stream that `compress_file` writes after the header: the bytes produced by the
encoding loop and the final flush on a fresh writer. -/
def charge_utile (codes : Nat → Option (List Char)) (input : List Nat) : Option (List Nat) :=
  match compress_boucle codes (bw_create []) input with
  | none => none
  | some bw => some (bw_write_flush bw).f

/-- The number of bits that a reader can still deliver. -/
def bits_restants (br : BitReader) : Nat :=
  8 * br.f.length + (br.bit_pos + 1).toNat

/-- The cursor of a reader is in range: `-1` (empty buffer) or a bit position `0..7`. -/
def LecteurValide (br : BitReader) : Prop :=
  -1 ≤ br.bit_pos ∧ br.bit_pos ≤ 7

/-- The frequency table of an input made of `n` copies of the byte `s`. -/
def table_repetee (s n : Nat) : Nat → Nat :=
  fun k => if k = s then n else 0

/-- The leaves with their depth below depth `d`: one pair (symbol, depth) per leaf, from
left to right. -/
def profondeurs : Nat → Noeud → List (Nat × Nat)
  | _, Noeud.null => []
  | d, Noeud.mk c _ l r lf =>
    if lf ≠ 0 then [(c, d)] else profondeurs (d + 1) l ++ profondeurs (d + 1) r

/-- A tree in which two leaves carry the same symbol. -/
def arbre_doublon : Noeud :=
  Noeud.mk 0 2 (Noeud.mk 65 1 Noeud.null Noeud.null 1) (Noeud.mk 65 1 Noeud.null Noeud.null 1) 0

/-- Writing bits one by one: `bw_write_bit` is called once per element, in order. -/
def ecrire_bits (bw : BitWriter) (bits : List Nat) : BitWriter :=
  bits.foldl (fun w b => (bw_write_bit w b).2) bw

/-- The bit written for a character of a code string: 0 for `'0'`, 1 for `'1'`. -/
def bit_de (ch : Char) : Nat :=
  if ch = '1' then 1 else 0

/-- The value that `bw_write_bit` stores for its argument: `bit ? 1 : 0`. -/
def un_bit (b : Nat) : Nat :=
  if b ≠ 0 then 1 else 0

/-- The value of a group of bits laid out from bit position `7 - j` downward: the first bit
of the list at position `7 - j`, the next one at position `7 - (j+1)`, and so on. -/
def somme_msb : Nat → List Nat → Nat
  | _, [] => 0
  | j, b :: l => un_bit b * 2 ^ (7 - j) + somme_msb (j + 1) l

/-- State of a writer after the bits `bits` have been written to a fresh writer: the pending
count, the number of bytes in the sink, each byte of the sink, and the pending buffer. -/
def EtatApres (bits : List Nat) (bw : BitWriter) : Prop :=
  bw.bit_count = bits.length % 8 ∧ bw.f.length = bits.length / 8 ∧
  (∀ i, i < bits.length / 8 → bw.f.getD i 0 = somme_msb 0 ((bits.drop (8 * i)).take 8)) ∧
  bw.buffer = somme_msb 0 (bits.drop (8 * (bits.length / 8)))

/-- The reader after `m` successive calls of `br_read_bit`. -/
def apres_lectures : Nat → BitReader → BitReader
  | 0, br => br
  | m + 1, br => (br_read_bit (apres_lectures m br)).2

/-- The leaves of a tree with the frequency each one stores: one pair (symbol, frequency)
per node with the leaf flag set, from left to right. -/
def feuilles_freq : Noeud → List (Nat × Nat)
  | Noeud.null => []
  | Noeud.mk c f l r lf => if lf ≠ 0 then [(c, f)] else feuilles_freq l ++ feuilles_freq r

/-- The indices of the buffer that a call of `generer_codes_rec` at depth `depth` writes, in
order: `buf[depth] = NUL` at a leaf below the root, `buf[depth] = '0'` and `buf[depth] = '1'`
at an internal node. -/
def ecritures_tampon : Noeud → Nat → List Nat
  | Noeud.null, _ => []
  | Noeud.mk _ _ l r lf, depth =>
    if lf ≠ 0 then (if depth = 0 then [] else [depth])
    else depth :: ecritures_tampon l (depth + 1) ++ depth :: ecritures_tampon r (depth + 1)

/-- The loop `for (i = 0; i < count; ++i)` of `br_read_bits` with `n` passes left: the value
assembled in `unsigned long long` (`none` when a read failed) and the reader. -/
def br_read_bits_boucle : Nat → BitReader → Nat → Option Nat × BitReader
  | 0, br, value => (some value, br)
  | n + 1, br, value =>
    let r := br_read_bit br
    if r.1 < 0 then (none, r.2)
    else br_read_bits_boucle n r.2 (((value <<< 1) ||| r.1.toNat) % 2 ^ 64)

/-- Source `br_read_bits`: the returned `long long` and the reader. The final conversion
`(long long) value` of the 64-bit unsigned value is the two's complement one. -/
def br_read_bits (br : BitReader) (count : Int) : Int × BitReader :=
  if count < 1 ∨ count > 64 then (-1, br)
  else
    match br_read_bits_boucle count.toNat br 0 with
    | (none, br) => (-1, br)
    | (some value, br) => (if value < 2 ^ 63 then (value : Int) else (value : Int) - 2 ^ 64, br)

/-- The `n` low bits of a byte, most significant first. -/
def bits_octet (b : Nat) : Nat → List Nat
  | 0 => []
  | n + 1 => ((b >>> n) &&& 1) :: bits_octet b n

/-- The bits of a sequence of bytes, each byte most significant bit first. -/
def bits_fichier : List Nat → List Nat
  | [] => []
  | b :: reste => bits_octet b 8 ++ bits_fichier reste

/-- The bits that a reader has still to deliver, in order: the unread bits of the current
byte, then the bits of the unread bytes of the file. -/
def flux (br : BitReader) : List Nat :=
  bits_octet br.buffer (br.bit_pos + 1).toNat ++ bits_fichier br.f

/-- The unsigned value of a sequence of bits, most significant bit first. -/
def valeur_msb (bits : List Nat) : Nat :=
  bits.foldl (fun v b => 2 * v + b) 0

/-- The move of the cursor of `decompress_file` for one bit: to the left child for the bit
0, to the right child otherwise, when that child exists. -/
def avancer (cursor : Noeud) (b : Nat) : Noeud :=
  if b = 0 then (if cursor.left ≠ Noeud.null then cursor.left else cursor)
  else (if cursor.right ≠ Noeud.null then cursor.right else cursor)

/-- The tree walk on a list of bits with `n` symbols still to produce: the symbols written
and the bits left over, or `none` when the bits run out first. -/
def marche (root : Noeud) : List Nat → Nat → Noeud → List Nat → Option (List Nat × List Nat)
  | bits, 0, _, out => some (out, bits)
  | [], _ + 1, _, _ => none
  | b :: bits, n + 1, cursor, out =>
    if (avancer cursor b).leaf ≠ 0 then
      marche root bits n root (out ++ [(avancer cursor b).c])
    else marche root bits (n + 1) (avancer cursor b) out

/-- The symbols that the tree walk meets on a whole list of bits: one symbol each time the
cursor reaches a leaf, the cursor then going back to the root. -/
def parcours (root : Noeud) : Noeud → List Nat → List Nat
  | _, [] => []
  | cursor, b :: bits =>
    if (avancer cursor b).leaf ≠ 0 then (avancer cursor b).c :: parcours root root bits
    else parcours root (avancer cursor b) bits

/-- The bits of the codes of a sequence of symbols, in order: 0 for `'0'`, 1 for `'1'`. -/
def bits_des_codes (codes : Nat → Option (List Char)) : List Nat → List Nat
  | [] => []
  | s :: reste => ((codes s).getD []).map bit_de ++ bits_des_codes codes reste

/-- The exchange of two symbols `a` and `b`. -/
def echanger_symboles (a b : Nat) (s : Nat) : Nat :=
  if s = a then b else if s = b then a else s

/-! # Part II: theorems -/

/-! ## Heap lemmas -/

theorem parent_idx_lt {i : Nat} (h : 0 < i) : parent_idx i < i := by
  unfold parent_idx; omega

theorem plus_petit_de_cases (tas : TasMin) (i : Nat) :
    (plus_petit_de tas i = i ∧
      (gauche_idx i < tas.taille → (tas.tab i).freq ≤ (tas.tab (gauche_idx i)).freq) ∧
      (droite_idx i < tas.taille → (tas.tab i).freq ≤ (tas.tab (droite_idx i)).freq)) ∨
    (plus_petit_de tas i = gauche_idx i ∧ gauche_idx i < tas.taille ∧
      (tas.tab (gauche_idx i)).freq < (tas.tab i).freq ∧
      (droite_idx i < tas.taille →
        (tas.tab (gauche_idx i)).freq ≤ (tas.tab (droite_idx i)).freq)) ∨
    (plus_petit_de tas i = droite_idx i ∧ droite_idx i < tas.taille ∧
      (tas.tab (droite_idx i)).freq < (tas.tab i).freq ∧
      (tas.tab (droite_idx i)).freq < (tas.tab (gauche_idx i)).freq) := by
  unfold plus_petit_de gauche_idx droite_idx
  simp only
  split_ifs with h1 h2 h2
  · right; right
    refine ⟨rfl, h2.1, ?_, h2.2⟩
    omega
  · right; left
    refine ⟨rfl, h1.1, h1.2, ?_⟩
    intro h; have := fun hh => h2 ⟨h, hh⟩; omega
  · right; right
    refine ⟨rfl, h2.1, h2.2, ?_⟩
    have : ¬ ((tas.tab (2 * i + 1)).freq < (tas.tab i).freq) := fun hh => h1 ⟨by omega, hh⟩
    omega
  · left
    refine ⟨rfl, ?_, ?_⟩
    · intro h; have := fun hh => h1 ⟨h, hh⟩; omega
    · intro h; have := fun hh => h2 ⟨h, hh⟩; omega

theorem entasser_boucle_taille (fuel : Nat) (tas : TasMin) (i : Nat) :
    (entasser_boucle fuel tas i).taille = tas.taille := by
  induction fuel generalizing tas i with
  | zero => rfl
  | succ fuel ih =>
    simp only [entasser_boucle]
    split
    · rw [ih]
    · rfl

/-- The budget `taille` of `entasser_min` is never exhausted: any larger budget gives the
same heap. -/
theorem entasser_boucle_stable (fuel k : Nat) (tas : TasMin) (i : Nat)
    (h : tas.taille ≤ i + fuel) :
    entasser_boucle (fuel + k) tas i = entasser_boucle fuel tas i := by
  induction fuel generalizing tas i with
  | zero =>
    cases k with
    | zero => rfl
    | succ k =>
      simp only [Nat.zero_add, entasser_boucle]
      rcases plus_petit_de_cases tas i with hc | hc | hc
      · simp [hc.1]
      · have := hc.2.1; unfold gauche_idx at this; omega
      · have := hc.2.1; unfold droite_idx at this; omega
  | succ fuel ih =>
    have e : fuel + 1 + k = (fuel + k) + 1 := by omega
    rw [e]
    simp only [entasser_boucle]
    split
    · rename_i hne
      apply ih
      simp only
      rcases plus_petit_de_cases tas i with hc | hc | hc
      · exact absurd hc.1 hne
      · rw [hc.1]; unfold gauche_idx; omega
      · rw [hc.1]; unfold droite_idx; omega
    · rfl

/-- The budget `idx` of the sift-up loop is never exhausted. -/
theorem inserer_boucle_stable (fuel k : Nat) (tab : Nat → Noeud) (idx : Nat)
    (h : idx ≤ fuel) :
    inserer_boucle (fuel + k) tab idx = inserer_boucle fuel tab idx := by
  induction fuel generalizing tab idx with
  | zero =>
    have : idx = 0 := by omega
    subst this
    cases k <;> simp [inserer_boucle]
  | succ fuel ih =>
    have e : fuel + 1 + k = (fuel + k) + 1 := by omega
    rw [e]
    simp only [inserer_boucle]
    split
    · rename_i hpos
      split
      · apply ih
        have := parent_idx_lt hpos
        omega
      · rfl
    · rfl

/-- Sift-up invariant: a heap ordered everywhere except possibly between `idx` and its
parent, in which the children of `idx` already dominate the parent of `idx`, is put in order
by the sift-up loop. -/
theorem inserer_boucle_tas (n : Nat) (fuel : Nat) (tab : Nat → Noeud) (idx : Nat)
    (hfuel : idx ≤ fuel) (hidx : idx < n)
    (h1 : ∀ j, 0 < j → j < n → j ≠ idx → (tab (parent_idx j)).freq ≤ (tab j).freq)
    (h2 : ∀ j, 0 < j → j < n → parent_idx j = idx → 0 < idx →
      (tab (parent_idx idx)).freq ≤ (tab j).freq) :
    ∀ j, 0 < j → j < n →
      ((inserer_boucle fuel tab idx) (parent_idx j)).freq ≤ ((inserer_boucle fuel tab idx) j).freq := by
  induction fuel generalizing tab idx with
  | zero =>
    have : idx = 0 := by omega
    subst this
    intro j hj hjn
    simp only [inserer_boucle]
    exact h1 j hj hjn (by omega)
  | succ fuel ih =>
    simp only [inserer_boucle]
    split
    · rename_i hpos
      split
      · rename_i hgt
        have hp := parent_idx_lt hpos
        apply ih
        · omega
        · omega
        · intro j hj hjn hjp
          have hpj := parent_idx_lt hj
          by_cases hji : j = idx
          · subst hji
            simp only [swap_noeuds]
            simp [Nat.ne_of_gt hp]
            omega
          · have a1 := h1 j hj hjn hji
            by_cases hpp : parent_idx j = parent_idx idx
            · simp only [swap_noeuds]
              simp [hpp, hjp, hji]
              rw [hpp] at a1
              omega
            · by_cases hpi : parent_idx j = idx
              · have a2 := h2 j hj hjn hpi hpos
                simp only [swap_noeuds]
                simp [hpi, hjp, hji, Nat.ne_of_gt hp]
                exact a2
              · simp only [swap_noeuds]
                simp [hpi, hjp, hji, hpp]
                exact a1
        · intro j hj hjn hpj hppos
          have hpp := parent_idx_lt hppos
          have a0 := h1 (parent_idx idx) hppos (by omega) (by omega)
          have e1 : swap_noeuds tab (parent_idx idx) idx (parent_idx (parent_idx idx))
              = tab (parent_idx (parent_idx idx)) := by
            simp only [swap_noeuds]
            rw [if_neg (by omega), if_neg (by omega)]
          rw [e1]
          by_cases hji : j = idx
          · subst hji
            simp only [swap_noeuds]
            simp [Nat.ne_of_gt hp]
            exact a0
          · have a1 := h1 j hj hjn hji
            have hjp : j ≠ parent_idx idx := by
              have := parent_idx_lt hj; omega
            simp only [swap_noeuds]
            simp [hji, hjp]
            rw [hpj] at a1
            omega
      · rename_i hle
        intro j hj hjn
        by_cases hji : j = idx
        · subst hji; omega
        · exact h1 j hj hjn hji
    · rename_i hpos
      intro j hj hjn
      exact h1 j hj hjn (by omega)

theorem parent_gauche (i : Nat) : parent_idx (gauche_idx i) = i := by
  unfold parent_idx gauche_idx; omega

theorem parent_droite (i : Nat) : parent_idx (droite_idx i) = i := by
  unfold parent_idx droite_idx; omega

theorem enfant_de_parent {i j : Nat} (hj : 0 < j) (h : parent_idx j = i) :
    j = gauche_idx i ∨ j = droite_idx i := by
  unfold parent_idx at h; unfold gauche_idx droite_idx; omega

/-- Sift-down invariant: a heap ordered everywhere except possibly between `i` and its
children, in which the children of `i` already dominate the parent of `i`, is put in order
by the sift-down loop. -/
theorem entasser_boucle_tas (fuel : Nat) (tas : TasMin) (i : Nat)
    (hfuel : tas.taille ≤ i + fuel)
    (h1 : ∀ j, 0 < j → j < tas.taille → parent_idx j ≠ i →
      (tas.tab (parent_idx j)).freq ≤ (tas.tab j).freq)
    (h2 : 0 < i → ∀ j, 0 < j → j < tas.taille → parent_idx j = i →
      (tas.tab (parent_idx i)).freq ≤ (tas.tab j).freq) :
    EstTasMin (entasser_boucle fuel tas i) := by
  induction fuel generalizing tas i with
  | zero =>
    intro j hj hjn
    simp only [entasser_boucle] at hjn ⊢
    apply h1 j hj hjn
    have := parent_idx_lt hj
    unfold parent_idx at *
    omega
  | succ fuel ih =>
    simp only [entasser_boucle]
    rcases plus_petit_de_cases tas i with hc | hc | hc
    · rw [if_neg (by simp [hc.1])]
      intro j hj hjn
      by_cases hp : parent_idx j = i
      · rcases enfant_de_parent hj hp with e | e
        · subst e; rw [parent_gauche]; exact hc.2.1 hjn
        · subst e; rw [parent_droite]; exact hc.2.2 hjn
      · exact h1 j hj hjn hp
    · obtain ⟨e, hlt, hfr, hd⟩ := hc
      have hne : plus_petit_de tas i ≠ i := by rw [e]; unfold gauche_idx; omega
      rw [if_pos hne, e]
      apply ih
      · simp only; unfold gauche_idx; omega
      · intro j hj hjn hpj
        simp only at hjn ⊢
        have hgi : gauche_idx i ≠ i := by unfold gauche_idx; omega
        by_cases hp : parent_idx j = i
        · rcases enfant_de_parent hj hp with e1 | e1
          · subst e1
            rw [parent_gauche]
            simp only [swap_noeuds]
            simp [hgi]
            omega
          · subst e1
            rw [parent_droite]
            have hdi : droite_idx i ≠ i := by unfold droite_idx; omega
            have hdg : droite_idx i ≠ gauche_idx i := by unfold droite_idx gauche_idx; omega
            simp only [swap_noeuds]
            simp [hdi, hdg]
            exact hd hjn
        · have a1 := h1 j hj hjn hp
          have hpjj := parent_idx_lt hj
          by_cases hji : j = i
          · subst hji
            have a2 := h2 hj (gauche_idx j) (by unfold gauche_idx; omega) hlt (parent_gauche j)
            simp only [swap_noeuds]
            simp [hp, hpj]
            exact a2
          · have hjg : j ≠ gauche_idx i := by
              intro hh; rw [hh, parent_gauche] at hp; exact hp rfl
            simp only [swap_noeuds]
            simp [hp, hpj, hji, hjg]
            exact a1
      · intro _ j hj hjn hpj
        simp only at hjn ⊢
        rw [parent_gauche]
        have hjg : j ≠ gauche_idx i := by
          have := parent_idx_lt hj; omega
        have hji : j ≠ i := by
          intro hh; subst hh
          have := parent_idx_lt hj
          unfold gauche_idx at hpj; omega
        have a1 := h1 j hj hjn (by rw [hpj]; unfold gauche_idx; omega)
        simp only [swap_noeuds]
        simp [hji, hjg]
        rw [hpj] at a1
        exact a1
    · obtain ⟨e, hlt, hfr, hg⟩ := hc
      have hne : plus_petit_de tas i ≠ i := by rw [e]; unfold droite_idx; omega
      rw [if_pos hne, e]
      apply ih
      · simp only; unfold droite_idx; omega
      · intro j hj hjn hpj
        simp only at hjn ⊢
        have hdi : droite_idx i ≠ i := by unfold droite_idx; omega
        by_cases hp : parent_idx j = i
        · rcases enfant_de_parent hj hp with e1 | e1
          · subst e1
            rw [parent_gauche]
            have hgi : gauche_idx i ≠ i := by unfold gauche_idx; omega
            have hgd : gauche_idx i ≠ droite_idx i := by unfold droite_idx gauche_idx; omega
            simp only [swap_noeuds]
            simp [hgi, hgd]
            omega
          · subst e1
            rw [parent_droite]
            simp only [swap_noeuds]
            simp [hdi]
            omega
        · have a1 := h1 j hj hjn hp
          have hpjj := parent_idx_lt hj
          by_cases hji : j = i
          · subst hji
            have a2 := h2 hj (droite_idx j) (by unfold droite_idx; omega) hlt (parent_droite j)
            simp only [swap_noeuds]
            simp [hp, hpj]
            exact a2
          · have hjg : j ≠ droite_idx i := by
              intro hh; rw [hh, parent_droite] at hp; exact hp rfl
            simp only [swap_noeuds]
            simp [hp, hpj, hji, hjg]
            exact a1
      · intro _ j hj hjn hpj
        simp only at hjn ⊢
        rw [parent_droite]
        have hjg : j ≠ droite_idx i := by
          have := parent_idx_lt hj; omega
        have hji : j ≠ i := by
          intro hh; subst hh
          have := parent_idx_lt hj
          unfold droite_idx at hpj; omega
        have a1 := h1 j hj hjn (by rw [hpj]; unfold droite_idx; omega)
        simp only [swap_noeuds]
        simp [hji, hjg]
        rw [hpj] at a1
        exact a1

/-! ## The two queue operations keep the heap ordered -/

theorem inserer_tas_tas (tas : TasMin) (n : Noeud) (h : EstTasMin tas) :
    EstTasMin (inserer_tas tas n).2 := by
  unfold inserer_tas
  split
  · exact h
  · intro j hj hjn
    simp only at hjn ⊢
    have key : ∀ (t : TasMin), t.taille = tas.taille → t.tab = tas.tab →
        ∀ j, 0 < j → j < t.taille + 1 →
        ((inserer_boucle t.taille (fun k => if k = t.taille then n else t.tab k) t.taille)
            (parent_idx j)).freq ≤
          ((inserer_boucle t.taille (fun k => if k = t.taille then n else t.tab k) t.taille)
            j).freq := by
      intro t ht htab
      apply inserer_boucle_tas (t.taille + 1) t.taille _ t.taille (le_refl _) (by omega)
      · intro j hj hjn hne
        have hp := parent_idx_lt hj
        rw [if_neg (by omega), if_neg hne, htab]
        exact h j hj (by omega)
      · intro j hj hjn hpj _
        exfalso
        unfold parent_idx at hpj
        omega
    split_ifs at hjn ⊢
    · exact key (agrandir_tas tas) rfl rfl j hj hjn
    · exact key tas rfl rfl j hj hjn

theorem extraire_min_tas (tas : TasMin) (h : EstTasMin tas) :
    EstTasMin (extraire_min tas).2 := by
  unfold extraire_min
  split
  · exact h
  · simp only
    split
    · rename_i hz hpos
      unfold entasser_min
      apply entasser_boucle_tas
      · simp
      · intro j hj hjn hpj
        simp only at hjn ⊢
        rw [if_neg hpj, if_neg (by omega)]
        exact h j hj (by omega)
      · intro h0; exact absurd h0 (lt_irrefl 0)
    · rename_i hz hpos
      intro j hj hjn
      simp only at hjn hpos
      omega

/-- In an ordered heap the root holds the least frequency. -/
theorem racine_minimale (tas : TasMin) (h : EstTasMin tas) :
    ∀ i, i < tas.taille → (tas.tab 0).freq ≤ (tas.tab i).freq := by
  intro i
  induction i using Nat.strong_induction_on with
  | _ i ih =>
    intro hi
    rcases Nat.eq_zero_or_pos i with h0 | hpos
    · subst h0; exact le_refl _
    · have hp := parent_idx_lt hpos
      exact le_trans (ih _ hp (by omega)) (h i hpos hi)

theorem extraire_min_fst (tas : TasMin) :
    (extraire_min tas).1 = if tas.taille = 0 then Noeud.null else tas.tab 0 := by
  unfold extraire_min
  split
  · rfl
  · simp only
    split <;> rfl

theorem extraire_min_taille (tas : TasMin) :
    (extraire_min tas).2.taille = tas.taille - 1 := by
  unfold extraire_min
  split
  · rename_i h; simp [h]
  · simp only
    split
    · unfold entasser_min; rw [entasser_boucle_taille]
    · rfl

theorem inserer_tas_taille (tas : TasMin) (n : Noeud) (hn : n ≠ Noeud.null) :
    (inserer_tas tas n).2.taille = tas.taille + 1 := by
  unfold inserer_tas
  rw [if_neg hn]
  simp only
  split <;> rfl

theorem inserer_tas_code (tas : TasMin) (n : Noeud) :
    (inserer_tas tas n).1 = if n = Noeud.null then -1 else 0 := by
  unfold inserer_tas
  split <;> rfl

/-! ## The two queue operations change the contents by one node -/

theorem swap_noeuds_contenu (tab : Nat → Noeud) (n i j : Nat) (hi : i < n) (hj : j < n) :
    (Multiset.range n).map (swap_noeuds tab i j) = (Multiset.range n).map tab := by
  have e : swap_noeuds tab i j = tab ∘ (Equiv.swap i j) := by
    funext k
    simp only [swap_noeuds, Function.comp, Equiv.swap_apply_def]
    split_ifs <;> rfl
  have hperm : Finset.map (Equiv.toEmbedding (Equiv.swap i j)) (Finset.range n)
      = Finset.range n := by
    apply Finset.map_perm
    intro a ha
    simp only [Set.mem_setOf_eq, Equiv.swap_apply_def] at ha
    simp only [Finset.coe_range, Set.mem_Iio]
    split_ifs at ha <;> omega
  have hm : (Multiset.range n).map (Equiv.swap i j) = Multiset.range n := by
    have := congrArg Finset.val hperm
    rw [Finset.map_val, Finset.range_val] at this
    exact this
  rw [e, ← Multiset.map_map, hm]

theorem inserer_boucle_contenu (n fuel : Nat) (tab : Nat → Noeud) (idx : Nat) (hidx : idx < n) :
    (Multiset.range n).map (inserer_boucle fuel tab idx) = (Multiset.range n).map tab := by
  induction fuel generalizing tab idx with
  | zero => rfl
  | succ fuel ih =>
    simp only [inserer_boucle]
    split
    · rename_i hpos
      have hp := parent_idx_lt hpos
      split
      · rw [ih _ _ (by omega), swap_noeuds_contenu _ _ _ _ (by omega) hidx]
      · rfl
    · rfl

theorem entasser_boucle_contenu (fuel : Nat) (tas : TasMin) (i : Nat) (hi : i < tas.taille) :
    contenu (entasser_boucle fuel tas i) = contenu tas := by
  induction fuel generalizing tas i with
  | zero => rfl
  | succ fuel ih =>
    simp only [entasser_boucle]
    have hlt : plus_petit_de tas i < tas.taille := by
      rcases plus_petit_de_cases tas i with hc | hc | hc
      · rw [hc.1]; exact hi
      · rw [hc.1]; exact hc.2.1
      · rw [hc.1]; exact hc.2.1
    split
    · rw [ih { tas with tab := swap_noeuds tas.tab i (plus_petit_de tas i) }
        (plus_petit_de tas i) hlt]
      unfold contenu
      exact swap_noeuds_contenu _ _ _ _ hi hlt
    · rfl

theorem inserer_tas_contenu (tas : TasMin) (n : Noeud) (hn : n ≠ Noeud.null) :
    contenu (inserer_tas tas n).2 = n ::ₘ contenu tas := by
  have key : ∀ (t : TasMin), t.taille = tas.taille → t.tab = tas.tab →
      (Multiset.range (t.taille + 1)).map
        (inserer_boucle t.taille (fun k => if k = t.taille then n else t.tab k) t.taille)
      = n ::ₘ contenu tas := by
    intro t ht htab
    rw [inserer_boucle_contenu _ _ _ _ (Nat.lt_succ_self _), Multiset.range_succ,
      Multiset.map_cons, if_pos rfl]
    congr 1
    unfold contenu
    rw [ht, htab]
    apply Multiset.map_congr rfl
    intro x hx
    rw [Multiset.mem_range] at hx
    rw [if_neg (by omega)]
  unfold inserer_tas
  rw [if_neg hn]
  simp only
  split
  · exact key (agrandir_tas tas) rfl rfl
  · exact key tas rfl rfl

theorem extraire_min_contenu (tas : TasMin) (h : tas.taille ≠ 0) :
    contenu tas = (extraire_min tas).1 ::ₘ contenu (extraire_min tas).2 := by
  obtain ⟨m, hm⟩ : ∃ m, tas.taille = m + 1 := ⟨tas.taille - 1, by omega⟩
  unfold extraire_min
  rw [if_neg h]
  simp only
  split
  · rename_i hpos
    unfold entasser_min
    rw [entasser_boucle_contenu _ _ _ hpos]
    unfold contenu
    simp only [hm, Nat.add_sub_cancel] at hpos ⊢
    obtain ⟨k, hk⟩ : ∃ k, m = k + 1 := ⟨m - 1, by omega⟩
    subst hk
    have e1 : ∀ (f : Nat → Noeud) (q : Nat),
        (Multiset.range (q + 1)).map f = f 0 ::ₘ (Multiset.range q).map (fun x => f (x + 1)) := by
      intro f q
      induction q with
      | zero => simp
      | succ q ihq =>
        rw [Multiset.range_succ, Multiset.map_cons, ihq, Multiset.range_succ, Multiset.map_cons,
          Multiset.cons_swap]
    rw [Multiset.range_succ, Multiset.map_cons, e1 tas.tab, e1 _ k, if_pos rfl,
      Multiset.cons_swap]
    congr 2
  · rename_i hpos
    unfold contenu
    simp only [hm, Nat.add_sub_cancel] at hpos ⊢
    have : m = 0 := by omega
    subst this
    simp

theorem extraire_min_sans_null (tas : TasMin) (h : SansNull tas) :
    SansNull (extraire_min tas).2 := by
  by_cases hz : tas.taille = 0
  · unfold extraire_min; rw [if_pos hz]; exact h
  · intro i hi
    have hc := extraire_min_contenu tas hz
    have hmem : (extraire_min tas).2.tab i ∈ contenu tas := by
      rw [hc]
      apply Multiset.mem_cons_of_mem
      unfold contenu
      exact Multiset.mem_map_of_mem _ (Multiset.mem_range.mpr hi)
    unfold contenu at hmem
    obtain ⟨k, hk, hk2⟩ := Multiset.mem_map.mp hmem
    rw [← hk2]
    exact h k (Multiset.mem_range.mp hk)

/-! ## Exchange argument on depth assignments -/

theorem coutA_cons (p : Nat × Nat) (A : Multiset (Nat × Nat)) :
    coutA (p ::ₘ A) = p.1 * p.2 + coutA A := by
  simp [coutA]

theorem kraftD_cons (d : Nat) (D : Multiset Nat) :
    kraftD (d ::ₘ D) = (1 / 2 : ℚ) ^ d + kraftD D := by
  simp [kraftD]

theorem kraftN_cons (h d : Nat) (D : Multiset Nat) :
    kraftN h (d ::ₘ D) = 2 ^ (h - d) + kraftN h D := by
  simp [kraftN]

/-- The entry of least weight can be moved to the greatest depth without raising the cost. -/
theorem echange_un (A : Multiset (Nat × Nat)) (x h : Nat) (R : Multiset Nat)
    (hw : A.map Prod.fst = x ::ₘ R) (hx : ∀ r ∈ R, x ≤ r)
    (hh : h ∈ A.map Prod.snd) (hmax : ∀ d ∈ A.map Prod.snd, d ≤ h) :
    ∃ A1 : Multiset (Nat × Nat), A1.map Prod.fst = R ∧
      A.map Prod.snd = h ::ₘ A1.map Prod.snd ∧ x * h + coutA A1 ≤ coutA A := by
  have hxm : x ∈ A.map Prod.fst := by rw [hw]; exact Multiset.mem_cons_self _ _
  obtain ⟨p, hpA, hpx⟩ := Multiset.mem_map.mp hxm
  obtain ⟨B, rfl⟩ := Multiset.exists_cons_of_mem hpA
  rw [Multiset.map_cons, hpx] at hw
  have hB : B.map Prod.fst = R := (Multiset.cons_inj_right x).mp hw
  by_cases hd : p.2 = h
  · refine ⟨B, hB, ?_, ?_⟩
    · rw [Multiset.map_cons, hd]
    · rw [coutA_cons, hpx, hd]
  · rw [Multiset.map_cons, Multiset.mem_cons] at hh
    have hhB : h ∈ B.map Prod.snd := by
      rcases hh with e | e
      · exact absurd e.symm hd
      · exact e
    obtain ⟨q, hqB, hqh⟩ := Multiset.mem_map.mp hhB
    obtain ⟨B', rfl⟩ := Multiset.exists_cons_of_mem hqB
    have hq1 : x ≤ q.1 := by
      apply hx
      rw [← hB, Multiset.map_cons]
      exact Multiset.mem_cons_self _ _
    have hp2 : p.2 ≤ h := by
      apply hmax
      rw [Multiset.map_cons]
      exact Multiset.mem_cons_self _ _
    refine ⟨(q.1, p.2) ::ₘ B', ?_, ?_, ?_⟩
    · rw [Multiset.map_cons, ← hB, Multiset.map_cons]
    · simp only [Multiset.map_cons, hqh]
      exact Multiset.cons_swap _ _ _
    · simp only [coutA_cons, hpx, hqh]
      obtain ⟨u, hu⟩ := Nat.exists_eq_add_of_le hq1
      obtain ⟨v, hv⟩ := Nat.exists_eq_add_of_le hp2
      rw [hu, hv]
      nlinarith [Nat.zero_le (u * v)]

theorem kraftN_eq (h : Nat) (D : Multiset Nat) (hmax : ∀ d ∈ D, d ≤ h) :
    (kraftN h D : ℚ) = 2 ^ h * kraftD D := by
  induction D using Multiset.induction_on with
  | empty => simp [kraftN, kraftD]
  | cons d D ih =>
    have hd : d ≤ h := hmax d (Multiset.mem_cons_self _ _)
    have ih2 := ih (fun x hx => hmax x (Multiset.mem_cons_of_mem hx))
    rw [kraftN_cons, kraftD_cons]
    push_cast
    rw [ih2, mul_add]
    congr 1
    obtain ⟨k, rfl⟩ := Nat.exists_eq_add_of_le hd
    rw [Nat.add_sub_cancel_left, pow_add, one_div, inv_pow]
    field_simp

theorem kraftN_pair (h : Nat) (D : Multiset Nat) (hlt : ∀ d ∈ D, d < h) :
    2 ∣ kraftN h D := by
  induction D using Multiset.induction_on with
  | empty => simp [kraftN]
  | cons d D ih =>
    have hd : d < h := hlt d (Multiset.mem_cons_self _ _)
    have ih2 := ih (fun x hx => hlt x (Multiset.mem_cons_of_mem hx))
    rw [kraftN_cons]
    apply Dvd.dvd.add _ ih2
    exact dvd_pow_self 2 (by omega)

/-- With Kraft sum one, the greatest depth (when positive) occurs at least twice. -/
theorem kraft_deux (D1 : Multiset Nat) (h : Nat) (hpos : 1 ≤ h) (hmax : ∀ d ∈ D1, d ≤ h)
    (hk : kraftD (h ::ₘ D1) = 1) : h ∈ D1 := by
  by_contra hn
  have hlt : ∀ d ∈ D1, d < h := by
    intro d hd
    have := hmax d hd
    have : d ≠ h := fun e => hn (e ▸ hd)
    omega
  have h1 := kraftN_eq h (h ::ₘ D1) (by
    intro d hd
    rcases Multiset.mem_cons.mp hd with e | e
    · omega
    · exact hmax d e)
  rw [hk, mul_one, kraftN_cons, Nat.sub_self, pow_zero] at h1
  have h2 : 1 + kraftN h D1 = 2 ^ h := by exact_mod_cast h1
  have h3 := kraftN_pair h D1 hlt
  have h4 : 2 ∣ 2 ^ h := dvd_pow_self 2 (by omega)
  omega

theorem kraftD_zero (D : Multiset Nat) (hz : ∀ d ∈ D, d ≤ 0) :
    kraftD D = (Multiset.card D : ℚ) := by
  induction D using Multiset.induction_on with
  | empty => simp [kraftD]
  | cons d D ih =>
    have hd : d = 0 := Nat.le_zero.mp (hz d (Multiset.mem_cons_self _ _))
    rw [kraftD_cons, ih (fun x hx => hz x (Multiset.mem_cons_of_mem hx)), hd]
    simp
    ring

/-- Exchange lemma: from any depth assignment with Kraft sum one over weights in which `a`
and `b` are the two least, one obtains an assignment over the weights with `a` and `b`
replaced by `a + b`, still with Kraft sum one, whose cost is lower by at least `a + b`. -/
theorem echange (A : Multiset (Nat × Nat)) (a b : Nat) (R : Multiset Nat)
    (hw : A.map Prod.fst = a ::ₘ b ::ₘ R) (ha : ∀ r ∈ b ::ₘ R, a ≤ r) (hb : ∀ r ∈ R, b ≤ r)
    (hk : kraftD (A.map Prod.snd) = 1) :
    ∃ A2 : Multiset (Nat × Nat), A2.map Prod.fst = (a + b) ::ₘ R ∧
      kraftD (A2.map Prod.snd) = 1 ∧ coutA A2 + a + b ≤ coutA A := by
  have hcard : Multiset.card (A.map Prod.snd) = Multiset.card R + 2 := by
    have := congrArg Multiset.card hw
    simp only [Multiset.card_map, Multiset.card_cons] at this ⊢
    omega
  have hne : (A.map Prod.snd).toFinset.Nonempty := by
    rw [Multiset.toFinset_nonempty]
    intro e
    rw [e] at hcard
    simp at hcard
  obtain ⟨h, hh⟩ : ∃ h, h = (A.map Prod.snd).toFinset.max' hne := ⟨_, rfl⟩
  have hmem : h ∈ A.map Prod.snd := by
    have := Finset.max'_mem _ hne
    rw [← hh] at this
    exact Multiset.mem_toFinset.mp this
  have hmax : ∀ d ∈ A.map Prod.snd, d ≤ h := by
    intro d hd
    rw [hh]
    exact Finset.le_max' _ _ (Multiset.mem_toFinset.mpr hd)
  have hpos : 1 ≤ h := by
    by_contra hz
    have hz0 : h = 0 := by omega
    have := kraftD_zero (A.map Prod.snd) (by intro d hd; rw [← hz0]; exact hmax d hd)
    rw [hk, hcard] at this
    have h2 : (1 : ℚ) < ((Multiset.card R + 2 : ℕ) : ℚ) := by
      have : 1 < Multiset.card R + 2 := by omega
      exact_mod_cast this
    rw [← this] at h2
    exact lt_irrefl _ h2
  obtain ⟨A1, hA1w, hA1d, hA1c⟩ := echange_un A a h (b ::ₘ R) hw ha hmem hmax
  have hmax1 : ∀ d ∈ A1.map Prod.snd, d ≤ h := by
    intro d hd
    apply hmax
    rw [hA1d]
    exact Multiset.mem_cons_of_mem hd
  have hmem1 : h ∈ A1.map Prod.snd := by
    apply kraft_deux _ h hpos hmax1
    rw [← hA1d]
    exact hk
  obtain ⟨A2, hA2w, hA2d, hA2c⟩ := echange_un A1 b h R hA1w hb hmem1 hmax1
  refine ⟨(a + b, h - 1) ::ₘ A2, ?_, ?_, ?_⟩
  · rw [Multiset.map_cons, hA2w]
  · rw [hA1d, hA2d, kraftD_cons, kraftD_cons] at hk
    rw [Multiset.map_cons, kraftD_cons]
    obtain ⟨k, rfl⟩ : ∃ k, h = k + 1 := ⟨h - 1, by omega⟩
    simp only [Nat.add_sub_cancel]
    rw [pow_succ] at hk
    linarith
  · rw [coutA_cons]
    obtain ⟨k, rfl⟩ : ∃ k, h = k + 1 := ⟨h - 1, by omega⟩
    simp only [Nat.add_sub_cancel]
    nlinarith

/-! ## Operational rule for the tree builder -/

theorem contenu_card (tas : TasMin) : Multiset.card (contenu tas) = tas.taille := by
  simp [contenu]

theorem creer_noeud_ne_null (c f : Nat) (l r : Noeud) : creer_noeud c f l r ≠ Noeud.null := by
  simp [creer_noeud]

theorem mem_contenu {tas : TasMin} {i : Nat} (h : i < tas.taille) : tas.tab i ∈ contenu tas :=
  Multiset.mem_map_of_mem _ (Multiset.mem_range.mpr h)

/-- Step 1 never takes the cleanup exit: it yields an ordered heap that holds exactly the
leaves of the symbols with a non-zero frequency. -/
theorem inserer_feuilles_spec (freq_table : Nat → Nat) (n : Nat) :
    ∃ tas, inserer_feuilles freq_table n = some tas ∧ EstTasMin tas ∧
      contenu tas = (feuilles_de freq_table n : Multiset Noeud) := by
  induction n with
  | zero =>
    refine ⟨creer_tas_min 16, rfl, ?_, ?_⟩
    · intro i _ hi; simp [creer_tas_min] at hi
    · simp [contenu, creer_tas_min, feuilles_de]
  | succ n ih =>
    obtain ⟨tas, h1, h2, h3⟩ := ih
    simp only [inserer_feuilles, h1, feuilles_de]
    by_cases hf : freq_table n > 0
    · rw [if_pos hf, if_pos hf, if_neg (creer_noeud_ne_null _ _ _ _)]
      simp only [inserer_tas_code, if_neg (creer_noeud_ne_null _ _ _ _)]
      refine ⟨(inserer_tas tas (creer_noeud n (freq_table n) Noeud.null Noeud.null)).2,
        by simp, inserer_tas_tas _ _ h2, ?_⟩
      rw [inserer_tas_contenu _ _ (creer_noeud_ne_null _ _ _ _), h3]
      rfl
    · rw [if_neg hf, if_neg hf]
      exact ⟨tas, rfl, h2, h3⟩

/-- Rule for the merging loop: a property of the multiset of queued trees that holds at the
start and is kept when the two trees of least frequency are replaced by their parent holds
of the single tree left at the end. The loop never takes a cleanup exit and its budget is
never exhausted. -/
theorem boucle_fusion_regle (I : Multiset Noeud → Prop)
    (hnull : ∀ F, I F → ∀ x ∈ F, x ≠ Noeud.null)
    (hstep : ∀ (F : Multiset Noeud) (a b : Noeud), I (a ::ₘ b ::ₘ F) →
      (∀ x ∈ b ::ₘ F, a.freq ≤ x.freq) → (∀ x ∈ F, b.freq ≤ x.freq) →
      I (creer_noeud 0 ((a.freq + b.freq) % 2 ^ 64) a b ::ₘ F)) :
    ∀ (fuel : Nat) (tas : TasMin), tas.taille ≤ fuel + 1 → 1 ≤ tas.taille → EstTasMin tas →
      I (contenu tas) →
      ∃ tas2, boucle_fusion fuel tas = some tas2 ∧ tas2.taille = 1 ∧ I (contenu tas2) := by
  intro fuel
  induction fuel with
  | zero =>
    intro tas h1 h2 _ hI
    exact ⟨tas, rfl, by omega, hI⟩
  | succ fuel ih =>
    intro tas h1 h2 hheap hI
    simp only [boucle_fusion, taille_tas]
    by_cases ht : tas.taille > 1
    · rw [if_pos ht]
      have hz : tas.taille ≠ 0 := by omega
      have hca := extraire_min_contenu tas hz
      have hta := extraire_min_taille tas
      have hha := extraire_min_tas tas hheap
      have hz2 : (extraire_min tas).2.taille ≠ 0 := by omega
      have hcb := extraire_min_contenu _ hz2
      have htb := extraire_min_taille (extraire_min tas).2
      have hhb := extraire_min_tas _ hha
      have hfa := extraire_min_fst tas
      rw [if_neg hz] at hfa
      have hfb := extraire_min_fst (extraire_min tas).2
      rw [if_neg hz2] at hfb
      have hI2 : I ((extraire_min tas).1 ::ₘ (extraire_min (extraire_min tas).2).1 ::ₘ
          contenu (extraire_min (extraire_min tas).2).2) := by
        rw [← hcb, ← hca]; exact hI
      have hna : (extraire_min tas).1 ≠ Noeud.null :=
        hnull _ hI2 _ (Multiset.mem_cons_self _ _)
      have hnb : (extraire_min (extraire_min tas).2).1 ≠ Noeud.null :=
        hnull _ hI2 _ (Multiset.mem_cons_of_mem (Multiset.mem_cons_self _ _))
      have hmina : ∀ x ∈ (extraire_min (extraire_min tas).2).1 ::ₘ
          contenu (extraire_min (extraire_min tas).2).2,
          (extraire_min tas).1.freq ≤ x.freq := by
        intro x hx
        rw [← hcb] at hx
        have hx2 : x ∈ contenu tas := by rw [hca]; exact Multiset.mem_cons_of_mem hx
        obtain ⟨k, hk, hk2⟩ := Multiset.mem_map.mp hx2
        rw [hfa, ← hk2]
        exact racine_minimale tas hheap k (Multiset.mem_range.mp hk)
      have hminb : ∀ x ∈ contenu (extraire_min (extraire_min tas).2).2,
          (extraire_min (extraire_min tas).2).1.freq ≤ x.freq := by
        intro x hx
        have hx2 : x ∈ contenu (extraire_min tas).2 := by
          rw [hcb]; exact Multiset.mem_cons_of_mem hx
        obtain ⟨k, hk, hk2⟩ := Multiset.mem_map.mp hx2
        rw [hfb, ← hk2]
        exact racine_minimale _ hha k (Multiset.mem_range.mp hk)
      have hI3 := hstep _ _ _ hI2 hmina hminb
      rw [if_neg (by simp [hna, hnb]), if_neg (creer_noeud_ne_null _ _ _ _)]
      simp only [inserer_tas_code, if_neg (creer_noeud_ne_null _ _ _ _)]
      rw [if_neg (by simp)]
      apply ih
      · rw [inserer_tas_taille _ _ (creer_noeud_ne_null _ _ _ _)]; omega
      · rw [inserer_tas_taille _ _ (creer_noeud_ne_null _ _ _ _)]; omega
      · exact inserer_tas_tas _ _ hhb
      · rw [inserer_tas_contenu _ _ (creer_noeud_ne_null _ _ _ _)]
        exact hI3
    · rw [if_neg ht]
      exact ⟨tas, rfl, by omega, hI⟩

theorem contenu_singleton (tas : TasMin) (h : tas.taille = 1) :
    contenu tas = {(extraire_min tas).1} := by
  have hz : tas.taille ≠ 0 := by omega
  have hc := extraire_min_contenu tas hz
  have ht := extraire_min_taille tas
  have hcard := contenu_card (extraire_min tas).2
  rw [ht, h] at hcard
  rw [hc, Multiset.card_eq_zero.mp hcard]
  rfl

/-- Rule for `construire_arbre_huffman`: the result is null when no symbol has a non-zero
frequency; otherwise every property kept by the merging step and true of the initial leaves
is true of the returned tree. -/
theorem construire_regle (freq_table : Nat → Nat) (I : Multiset Noeud → Prop)
    (hnull : ∀ F, I F → ∀ x ∈ F, x ≠ Noeud.null)
    (hstep : ∀ (F : Multiset Noeud) (a b : Noeud), I (a ::ₘ b ::ₘ F) →
      (∀ x ∈ b ::ₘ F, a.freq ≤ x.freq) → (∀ x ∈ F, b.freq ≤ x.freq) →
      I (creer_noeud 0 ((a.freq + b.freq) % 2 ^ 64) a b ::ₘ F))
    (h0 : I (feuilles_de freq_table 256 : Multiset Noeud))
    (hne : feuilles_de freq_table 256 ≠ []) :
    I {construire_arbre_huffman freq_table} := by
  obtain ⟨tas, h1, h2, h3⟩ := inserer_feuilles_spec freq_table 256
  have hcard := contenu_card tas
  rw [h3] at hcard
  have hpos : 1 ≤ tas.taille := by
    rw [← hcard, Multiset.coe_card]
    exact List.length_pos.mpr hne
  unfold construire_arbre_huffman
  simp only [h1, taille_tas]
  rw [if_neg (by omega)]
  by_cases hone : tas.taille = 1
  · rw [if_pos hone, ← contenu_singleton tas hone, h3]
    exact h0
  · rw [if_neg hone]
    obtain ⟨tas2, e1, e2, e3⟩ := boucle_fusion_regle I hnull hstep tas.taille tas (by omega) hpos
      h2 (by rw [h3]; exact h0)
    simp only [e1]
    rw [← contenu_singleton tas2 e2]
    exact e3

theorem construire_vide (freq_table : Nat → Nat) (hne : feuilles_de freq_table 256 = []) :
    construire_arbre_huffman freq_table = Noeud.null := by
  obtain ⟨tas, h1, h2, h3⟩ := inserer_feuilles_spec freq_table 256
  have hcard := contenu_card tas
  rw [h3, hne] at hcard
  unfold construire_arbre_huffman
  simp only [h1, taille_tas]
  rw [if_pos (by simpa using hcard.symm)]

/-! ## Invariants of the merging loop -/

theorem Bon_ne_null {t : Noeud} (h : Bon t) : t ≠ Noeud.null := by
  intro e; subst e; exact h

theorem creer_noeud_interne (s : Nat) (a b : Noeud) (ha : a ≠ Noeud.null) :
    creer_noeud 0 s a b = Noeud.mk 0 s a b 0 := by
  simp [creer_noeud, ha]

theorem creer_noeud_feuille (i f : Nat) :
    creer_noeud i f Noeud.null Noeud.null = Noeud.mk (i % 256) f Noeud.null Noeud.null 1 := by
  simp [creer_noeud]

theorem feuilles_de_mem (freq_table : Nat → Nat) (n : Nat) (hn : n ≤ 256) :
    ∀ t ∈ feuilles_de freq_table n, ∃ i, i < n ∧ 0 < freq_table i ∧
      t = Noeud.mk i (freq_table i) Noeud.null Noeud.null 1 := by
  induction n with
  | zero => intro t ht; simp [feuilles_de] at ht
  | succ n ih =>
    intro t ht
    simp only [feuilles_de] at ht
    split at ht
    · rename_i hf
      rcases List.mem_cons.mp ht with e | e
      · refine ⟨n, by omega, hf, ?_⟩
        rw [e, creer_noeud_feuille, Nat.mod_eq_of_lt (by omega)]
      · obtain ⟨i, hi, hfi, hti⟩ := ih (by omega) t e
        exact ⟨i, by omega, hfi, hti⟩
    · obtain ⟨i, hi, hfi, hti⟩ := ih (by omega) t ht
      exact ⟨i, by omega, hfi, hti⟩

theorem feuilles_de_symboles (freq_table : Nat → Nat) (n : Nat) (hn : n ≤ 256) :
    (((feuilles_de freq_table n : Multiset Noeud)).map
      (fun t => (symboles t : Multiset Nat))).sum = (presents freq_table n : Multiset Nat) := by
  induction n with
  | zero => simp [feuilles_de, presents]
  | succ n ih =>
    simp only [feuilles_de, presents]
    split
    · rw [← Multiset.cons_coe, Multiset.map_cons, Multiset.sum_cons, ih (by omega),
        creer_noeud_feuille, Nat.mod_eq_of_lt (by omega)]
      simp [symboles]
    · exact ih (by omega)

theorem feuilles_de_poids (freq_table : Nat → Nat) (n : Nat) :
    (((feuilles_de freq_table n : Multiset Noeud)).map poids).sum = total_table freq_table n := by
  induction n with
  | zero => simp [feuilles_de, total_table]
  | succ n ih =>
    simp only [feuilles_de, total_table]
    split
    · rw [← Multiset.cons_coe, Multiset.map_cons, Multiset.sum_cons, ih, creer_noeud_feuille]
      simp [poids]
      omega
    · rename_i hf
      rw [ih]; omega

theorem feuilles_de_freq (freq_table : Nat → Nat) (n : Nat) :
    ((feuilles_de freq_table n : Multiset Noeud)).map Noeud.freq =
      ((presents freq_table n : Multiset Nat)).map freq_table := by
  induction n with
  | zero => simp [feuilles_de, presents]
  | succ n ih =>
    simp only [feuilles_de, presents]
    split
    · rw [← Multiset.cons_coe, ← Multiset.cons_coe, Multiset.map_cons, Multiset.map_cons, ih,
        creer_noeud_feuille]
      rfl
    · exact ih

theorem feuilles_de_cout (freq_table : Nat → Nat) (n : Nat) :
    (((feuilles_de freq_table n : Multiset Noeud)).map (cout 0)).sum = 0 := by
  induction n with
  | zero => simp [feuilles_de]
  | succ n ih =>
    simp only [feuilles_de]
    split
    · rw [← Multiset.cons_coe, Multiset.map_cons, Multiset.sum_cons, ih, creer_noeud_feuille]
      simp [cout]
    · exact ih

theorem InvForme_init (freq_table : Nat → Nat) :
    InvForme freq_table (feuilles_de freq_table 256 : Multiset Noeud) := by
  refine ⟨?_, feuilles_de_symboles freq_table 256 (le_refl _)⟩
  intro t ht
  obtain ⟨i, hi, _, rfl⟩ := feuilles_de_mem freq_table 256 (le_refl _) t (Multiset.mem_coe.mp ht)
  exact ⟨Or.inl ⟨rfl, rfl, rfl, hi⟩, by simp [FeuillesTable]⟩

theorem InvForme_null (freq_table : Nat → Nat) (F : Multiset Noeud) (h : InvForme freq_table F) :
    ∀ x ∈ F, x ≠ Noeud.null :=
  fun x hx => Bon_ne_null (h.1 x hx).1

theorem InvForme_step (freq_table : Nat → Nat) (F : Multiset Noeud) (a b : Noeud) (s : Nat)
    (h : InvForme freq_table (a ::ₘ b ::ₘ F)) :
    InvForme freq_table (creer_noeud 0 s a b ::ₘ F) := by
  obtain ⟨h1, h2⟩ := h
  have ha := h1 a (Multiset.mem_cons_self _ _)
  have hb := h1 b (Multiset.mem_cons_of_mem (Multiset.mem_cons_self _ _))
  rw [creer_noeud_interne _ _ _ (Bon_ne_null ha.1)]
  constructor
  · intro t ht
    rcases Multiset.mem_cons.mp ht with e | e
    · subst e
      exact ⟨Or.inr ⟨rfl, ha.1, hb.1⟩, by simp [FeuillesTable, ha.2, hb.2]⟩
    · exact h1 t (Multiset.mem_cons_of_mem (Multiset.mem_cons_of_mem e))
  · rw [← h2]
    simp only [Multiset.map_cons, Multiset.sum_cons, symboles]
    rw [if_neg (by simp), ← Multiset.coe_add, add_assoc]

theorem InvSomme_init (freq_table : Nat → Nat) :
    InvSomme freq_table (feuilles_de freq_table 256 : Multiset Noeud) := by
  refine ⟨InvForme_init freq_table, ?_, feuilles_de_poids freq_table 256⟩
  intro t ht
  obtain ⟨i, hi, _, rfl⟩ := feuilles_de_mem freq_table 256 (le_refl _) t (Multiset.mem_coe.mp ht)
  simp [SommeOK, poids, Noeud.freq]

theorem poids_le_somme (F : Multiset Noeud) (t : Noeud) (ht : t ∈ F) :
    poids t ≤ (F.map poids).sum := by
  obtain ⟨G, rfl⟩ := Multiset.exists_cons_of_mem ht
  simp

theorem InvSomme_step (freq_table : Nat → Nat) (htot : total_table freq_table 256 < 2 ^ 64)
    (F : Multiset Noeud) (a b : Noeud) (h : InvSomme freq_table (a ::ₘ b ::ₘ F)) :
    InvSomme freq_table (creer_noeud 0 ((a.freq + b.freq) % 2 ^ 64) a b ::ₘ F) ∧
      (a.freq + b.freq) % 2 ^ 64 = a.freq + b.freq := by
  obtain ⟨h1, h2, h3⟩ := h
  have ha := h2 a (Multiset.mem_cons_self _ _)
  have hb := h2 b (Multiset.mem_cons_of_mem (Multiset.mem_cons_self _ _))
  have hBa := (h1.1 a (Multiset.mem_cons_self _ _)).1
  have hsum : a.freq + b.freq ≤ total_table freq_table 256 := by
    rw [← h3, ha.2, hb.2]
    simp only [Multiset.map_cons, Multiset.sum_cons]
    omega
  have hmod : (a.freq + b.freq) % 2 ^ 64 = a.freq + b.freq := Nat.mod_eq_of_lt (by omega)
  refine ⟨⟨InvForme_step freq_table F a b _ h1, ?_, ?_⟩, hmod⟩
  · intro t ht
    rcases Multiset.mem_cons.mp ht with e | e
    · subst e
      rw [creer_noeud_interne _ _ _ (Bon_ne_null hBa), hmod]
      rw [SommeOK, poids, if_neg (by simp)]
      refine ⟨⟨fun _ => rfl, ha.1, hb.1⟩, ?_⟩
      show a.freq + b.freq = poids a + poids b
      rw [ha.2, hb.2]
    · exact h2 t (Multiset.mem_cons_of_mem (Multiset.mem_cons_of_mem e))
  · rw [← h3, creer_noeud_interne _ _ _ (Bon_ne_null hBa)]
    simp only [Multiset.map_cons, Multiset.sum_cons, poids]
    simp [add_assoc]

theorem cout_succ (d : Nat) (t : Noeud) : cout (d + 1) t = cout d t + poids t := by
  induction t generalizing d with
  | null => simp [cout, poids]
  | mk c f l r lf ihl ihr =>
    simp only [cout, poids]
    split
    · ring
    · rw [ihl, ihr]; ring

theorem InvOpt_step (freq_table : Nat → Nat) (K : Nat)
    (htot : total_table freq_table 256 < 2 ^ 64)
    (F : Multiset Noeud) (a b : Noeud) (h : InvOpt freq_table K (a ::ₘ b ::ₘ F))
    (hmina : ∀ x ∈ b ::ₘ F, a.freq ≤ x.freq) (hminb : ∀ x ∈ F, b.freq ≤ x.freq) :
    InvOpt freq_table K (creer_noeud 0 ((a.freq + b.freq) % 2 ^ 64) a b ::ₘ F) := by
  obtain ⟨hS, A, hw, hk, hc⟩ := h
  obtain ⟨hS2, hmod⟩ := InvSomme_step freq_table htot F a b hS
  refine ⟨hS2, ?_⟩
  have ha := hS.2.1 a (Multiset.mem_cons_self _ _)
  have hb := hS.2.1 b (Multiset.mem_cons_of_mem (Multiset.mem_cons_self _ _))
  have hBa := (hS.1.1 a (Multiset.mem_cons_self _ _)).1
  simp only [Multiset.map_cons] at hw
  obtain ⟨A2, hw2, hk2, hc2⟩ := echange A a.freq b.freq (F.map Noeud.freq) hw
    (by
      intro r hr
      rw [← Multiset.map_cons] at hr
      obtain ⟨x, hx, rfl⟩ := Multiset.mem_map.mp hr
      exact hmina x hx)
    (by
      intro r hr
      obtain ⟨x, hx, rfl⟩ := Multiset.mem_map.mp hr
      exact hminb x hx)
    hk
  refine ⟨A2, ?_, hk2, ?_⟩
  · rw [hw2, Multiset.map_cons, creer_noeud_interne _ _ _ (Bon_ne_null hBa), hmod]
    rfl
  · rw [creer_noeud_interne _ _ _ (Bon_ne_null hBa)]
    simp only [Multiset.map_cons, Multiset.sum_cons] at hc ⊢
    have e : cout 0 (Noeud.mk 0 ((a.freq + b.freq) % 2 ^ 64) a b 0)
        = cout 0 a + poids a + (cout 0 b + poids b) := by
      simp only [cout]
      rw [if_neg (by simp), cout_succ, cout_succ]
    rw [e, ← ha.2, ← hb.2]
    omega

/-! ## Shape and frequencies of the returned tree -/

theorem presents_vide_iff (freq_table : Nat → Nat) (n : Nat) :
    feuilles_de freq_table n = [] ↔ ∀ s, s < n → freq_table s = 0 := by
  induction n with
  | zero => simp [feuilles_de]
  | succ n ih =>
    simp only [feuilles_de]
    split
    · rename_i hf
      simp only [reduceCtorEq, false_iff, not_forall]
      exact ⟨n, by omega, by omega⟩
    · rename_i hf
      rw [ih]
      constructor
      · intro h s hs
        rcases Nat.lt_succ_iff_lt_or_eq.mp hs with h1 | h1
        · exact h s h1
        · subst h1; omega
      · intro h s hs
        exact h s (by omega)

theorem construire_forme (freq_table : Nat → Nat) (hne : feuilles_de freq_table 256 ≠ []) :
    InvForme freq_table {construire_arbre_huffman freq_table} :=
  construire_regle freq_table (InvForme freq_table) (InvForme_null freq_table)
    (fun F a b h _ _ => InvForme_step freq_table F a b _ h) (InvForme_init freq_table) hne

theorem InvSomme_null (freq_table : Nat → Nat) (F : Multiset Noeud) (h : InvSomme freq_table F) :
    ∀ x ∈ F, x ≠ Noeud.null :=
  InvForme_null freq_table F h.1

theorem construire_somme (freq_table : Nat → Nat) (htot : total_table freq_table 256 < 2 ^ 64)
    (hne : feuilles_de freq_table 256 ≠ []) :
    InvSomme freq_table {construire_arbre_huffman freq_table} :=
  construire_regle freq_table (InvSomme freq_table) (InvSomme_null freq_table)
    (fun F a b h _ _ => (InvSomme_step freq_table htot F a b h).1) (InvSomme_init freq_table) hne

theorem Bon_noeuds (t : Noeud) (h : Bon t) : ∀ n ∈ noeuds t, FeuilleOuBinaire n := by
  induction t with
  | null => exact absurd h (by simp [Bon])
  | mk c f l r lf ihl ihr =>
    intro n hn
    simp only [noeuds, List.mem_cons, List.mem_append] at hn
    rcases h with ⟨h1, h2, h3, _⟩ | ⟨h1, h2, h3⟩
    · subst h1 h2
      simp only [noeuds, List.not_mem_nil, or_self, or_false] at hn
      subst hn
      exact Or.inl ⟨rfl, rfl, h3⟩
    · rcases hn with e | e | e
      · subst e
        exact Or.inr ⟨Bon_ne_null h2, Bon_ne_null h3, h1⟩
      · exact ihl h2 n e
      · exact ihr h3 n e

theorem SommeOK_noeuds (t : Noeud) (h : SommeOK t) :
    ∀ n ∈ noeuds t, n.leaf = 0 → n.freq = n.left.freq + n.right.freq := by
  induction t with
  | null => intro n hn; simp [noeuds] at hn
  | mk c f l r lf ihl ihr =>
    intro n hn
    simp only [noeuds, List.mem_cons, List.mem_append] at hn
    obtain ⟨h1, h2, h3⟩ := h
    rcases hn with e | e | e
    · subst e; exact h1
    · exact ihl h2 n e
    · exact ihr h3 n e

/-! ## Optimality of the returned tree -/

theorem presents_perm (freq_table : Nat → Nat) (n : Nat) :
    (presents freq_table n).Perm ((List.range n).filter (fun s => decide (0 < freq_table s))) := by
  induction n with
  | zero => simp [presents]
  | succ n ih =>
    rw [List.range_succ, List.filter_append]
    simp only [presents, List.filter_cons, List.filter_nil]
    by_cases hf : freq_table n > 0
    · rw [if_pos hf]
      simp only [hf, decide_True, if_true]
      exact (List.Perm.cons n ih).trans (List.perm_append_singleton n _).symm
    · rw [if_neg hf]
      have : ¬ (0 < freq_table n) := hf
      simp only [this, decide_False, Bool.false_eq_true, if_false, List.append_nil]
      exact ih

theorem affectation_fst (freq_table : Nat → Nat) (d : Nat) (t : Noeud) :
    (affectation freq_table d t).map Prod.fst = ((feuilles t : Multiset Nat)).map freq_table := by
  induction t generalizing d with
  | null => simp [affectation, feuilles]
  | mk c f l r lf ihl ihr =>
    simp only [affectation, feuilles]
    split
    · simp
    · rw [Multiset.map_add, ihl, ihr, ← Multiset.coe_add, Multiset.map_add]

theorem affectation_cout (freq_table : Nat → Nat) (d : Nat) (t : Noeud) :
    coutA (affectation freq_table d t) = longueur_ponderee freq_table d t := by
  induction t generalizing d with
  | null => simp [affectation, longueur_ponderee, coutA]
  | mk c f l r lf ihl ihr =>
    simp only [affectation, longueur_ponderee]
    split
    · simp [coutA]
    · rw [← ihl, ← ihr]
      simp [coutA]

theorem affectation_kraft (freq_table : Nat → Nat) (d : Nat) (t : Noeud) (h : Plein t) :
    kraftD ((affectation freq_table d t).map Prod.snd) = (1 / 2 : ℚ) ^ d := by
  induction t generalizing d with
  | null => exact absurd h (by simp [Plein])
  | mk c f l r lf ihl ihr =>
    simp only [affectation]
    rcases h with ⟨h1, h2⟩ | ⟨h1, h2⟩
    · rw [if_pos ⟨h1, h2⟩]
      simp [kraftD]
    · have hl : l ≠ Noeud.null := by intro e; subst e; exact h1
      rw [if_neg (by simp [hl]), Multiset.map_add]
      have e : ∀ D1 D2 : Multiset Nat, kraftD (D1 + D2) = kraftD D1 + kraftD D2 := by
        intro D1 D2; simp [kraftD]
      rw [e, ihl _ h1, ihr _ h2, pow_succ]
      ring

theorem longueur_ponderee_mono (freq_table : Nat → Nat) (d : Nat) (t : Noeud) :
    longueur_ponderee freq_table d t ≤ longueur_ponderee freq_table (d + 1) t := by
  induction t generalizing d with
  | null => simp [longueur_ponderee]
  | mk c f l r lf ihl ihr =>
    simp only [longueur_ponderee]
    split
    · exact Nat.mul_le_mul_left _ (Nat.le_succ d)
    · exact Nat.add_le_add (ihl _) (ihr _)

theorem contracte_ne_null (t : Noeud) (h : t ≠ Noeud.null) : Plein (contracte t) := by
  induction t with
  | null => exact absurd rfl h
  | mk c f l r lf ihl ihr =>
    simp only [contracte]
    split_ifs with h1 h2 h3
    · exact Or.inl h1
    · apply ihr
      intro e; exact h1 ⟨h2, e⟩
    · exact ihl h2
    · exact Or.inr ⟨ihl h2, ihr h3⟩

theorem Plein_ne_null {t : Noeud} (h : Plein t) : t ≠ Noeud.null := by
  intro e; subst e; exact h

theorem contracte_feuilles (t : Noeud) : feuilles (contracte t) = feuilles t := by
  induction t with
  | null => rfl
  | mk c f l r lf ihl ihr =>
    simp only [contracte]
    split_ifs with h1 h2 h3
    · rfl
    · subst h2
      have hr : r ≠ Noeud.null := fun e => h1 ⟨rfl, e⟩
      rw [ihr]
      simp [feuilles, hr]
    · subst h3
      rw [ihl]
      simp [feuilles, h2]
    · have hl := Plein_ne_null (contracte_ne_null l h2)
      simp only [feuilles]
      rw [if_neg (by simp [hl]), if_neg h1, ihl, ihr]

theorem contracte_longueur (freq_table : Nat → Nat) (d : Nat) (t : Noeud) :
    longueur_ponderee freq_table d (contracte t) ≤ longueur_ponderee freq_table d t := by
  induction t generalizing d with
  | null => simp [contracte]
  | mk c f l r lf ihl ihr =>
    simp only [contracte]
    split_ifs with h1 h2 h3
    · exact le_refl _
    · subst h2
      have hr : r ≠ Noeud.null := fun e => h1 ⟨rfl, e⟩
      simp only [longueur_ponderee, hr, and_false, if_false, Nat.zero_add]
      exact le_trans (ihr d) (longueur_ponderee_mono _ _ _)
    · subst h3
      simp only [longueur_ponderee, h2, false_and, if_false, Nat.add_zero]
      exact le_trans (ihl d) (longueur_ponderee_mono _ _ _)
    · have hl := Plein_ne_null (contracte_ne_null l h2)
      simp only [longueur_ponderee]
      rw [if_neg (by simp [hl]), if_neg h1]
      exact Nat.add_le_add (ihl _) (ihr _)

theorem Bon_feuilles (t : Noeud) (h : Bon t) : feuilles t = symboles t := by
  induction t with
  | null => rfl
  | mk c f l r lf ihl ihr =>
    simp only [feuilles, symboles]
    rcases h with ⟨h1, h2, h3, _⟩ | ⟨h1, h2, h3⟩
    · rw [if_pos ⟨h1, h2⟩, if_pos (by omega)]
    · rw [if_neg (by simp [Bon_ne_null h2]), if_neg (by simp [h1]), ihl h2, ihr h3]

theorem Bon_longueur (freq_table : Nat → Nat) (d : Nat) (t : Noeud) (h : Bon t)
    (hf : FeuillesTable freq_table t) : longueur_ponderee freq_table d t = cout d t := by
  induction t generalizing d with
  | null => rfl
  | mk c f l r lf ihl ihr =>
    simp only [longueur_ponderee, cout]
    rcases h with ⟨h1, h2, h3, _⟩ | ⟨h1, h2, h3⟩
    · rw [if_pos ⟨h1, h2⟩, if_pos (by omega)]
      simp only [FeuillesTable] at hf
      rw [if_pos (by omega)] at hf
      rw [hf]
    · simp only [FeuillesTable] at hf
      rw [if_neg (by simp [h1])] at hf
      rw [if_neg (by simp [Bon_ne_null h2]), if_neg (by simp [h1]), ihl _ h2 hf.1, ihr _ h3 hf.2]

theorem InvOpt_null (freq_table : Nat → Nat) (K : Nat) (F : Multiset Noeud)
    (h : InvOpt freq_table K F) : ∀ x ∈ F, x ≠ Noeud.null :=
  InvSomme_null freq_table F h.1

/-- The tree returned by `construire_arbre_huffman` costs no more than any full binary tree
over the same leaves. -/
theorem construire_optimal_plein (freq_table : Nat → Nat)
    (htot : total_table freq_table 256 < 2 ^ 64) (hne : feuilles_de freq_table 256 ≠ [])
    (S : Noeud) (hS : Plein S) (hf : (feuilles S).Perm (symboles_presents freq_table)) :
    cout 0 (construire_arbre_huffman freq_table) ≤ longueur_ponderee freq_table 0 S := by
  have h0 : InvOpt freq_table (longueur_ponderee freq_table 0 S)
      (feuilles_de freq_table 256 : Multiset Noeud) := by
    refine ⟨InvSomme_init freq_table, affectation freq_table 0 S, ?_, ?_, ?_⟩
    · rw [affectation_fst, feuilles_de_freq]
      congr 1
      exact Multiset.coe_eq_coe.mpr (hf.trans (presents_perm freq_table 256).symm)
    · rw [affectation_kraft _ _ _ hS, pow_zero]
    · rw [feuilles_de_cout, affectation_cout, zero_add]
  have := construire_regle freq_table (InvOpt freq_table (longueur_ponderee freq_table 0 S))
    (InvOpt_null freq_table _)
    (fun F a b h ha hb => InvOpt_step freq_table _ htot F a b h ha hb) h0 hne
  obtain ⟨_, A, _, _, hc⟩ := this
  simp only [Multiset.map_singleton, Multiset.sum_singleton] at hc
  omega

/-! ## Claims on the queue and on the tree builder -/

theorem construire_exemple : construire_arbre_huffman table_exemple =
    Noeud.mk 0 5 (Noeud.mk 0 2 (Noeud.mk 65 1 Noeud.null Noeud.null 1)
      (Noeud.mk 66 1 Noeud.null Noeud.null 1) 0) (Noeud.mk 67 3 Noeud.null Noeud.null 1) 0 := by
  set_option maxRecDepth 1000000 in decide

theorem tas_exemple_ordonne : EstTasMin tas_exemple := by
  intro i hi hlt
  have h3 : i < 3 := hlt
  interval_cases i <;> simp [tas_exemple, parent_idx, creer_noeud, Noeud.freq]

theorem tas_exemple_sans_null : SansNull tas_exemple := by
  intro i hlt
  have h3 : i < 3 := hlt
  interval_cases i <;> simp [tas_exemple, creer_noeud]

/-- C7: the min-heap property is preserved by both queue operations. For every queue in
which each non-root live position holds a frequency at least that of its parent position
`(i-1)/2`, the queue after `inserer_tas` of any node and the queue after `extraire_min`
satisfy the same property at every non-root position below the new size. -/
theorem C7_tas_min_preserve (tas : TasMin) (n : Noeud) (h : EstTasMin tas) :
    EstTasMin (inserer_tas tas n).2 ∧ EstTasMin (extraire_min tas).2 :=
  ⟨inserer_tas_tas tas n h, extraire_min_tas tas h⟩

theorem C7_tas_min_preserve_witness :
    EstTasMin tas_exemple ∧
      (EstTasMin (inserer_tas tas_exemple (creer_noeud 100 1 Noeud.null Noeud.null)).2 ∧
        EstTasMin (extraire_min tas_exemple).2) :=
  ⟨tas_exemple_ordonne, C7_tas_min_preserve tas_exemple _ tas_exemple_ordonne⟩

/-- C8: on a queue whose live cells hold nodes, `extraire_min` returns the null pointer if
and only if the queue is empty; on a non-empty queue the returned node is one of the queued
nodes, and when the queue satisfies the min-heap property its frequency is at most the
frequency of every node that was in the queue before the call. -/
theorem C8_extraire_min_minimum (tas : TasMin) (hnn : SansNull tas) :
    ((extraire_min tas).1 = Noeud.null ↔ tas.taille = 0) ∧
    (tas.taille ≠ 0 → (extraire_min tas).1 ∈ contenu tas) ∧
    (EstTasMin tas → tas.taille ≠ 0 →
      ∀ x ∈ contenu tas, (extraire_min tas).1.freq ≤ x.freq) := by
  rw [extraire_min_fst]
  refine ⟨?_, ?_, ?_⟩
  · constructor
    · intro h
      by_contra hz
      rw [if_neg hz] at h
      exact hnn 0 (by omega) h
    · intro h
      rw [if_pos h]
  · intro hz
    rw [if_neg hz]
    exact mem_contenu (by omega)
  · intro hheap hz x hx
    rw [if_neg hz]
    obtain ⟨k, hk, hk2⟩ := Multiset.mem_map.mp hx
    rw [← hk2]
    exact racine_minimale tas hheap k (Multiset.mem_range.mp hk)

theorem C8_extraire_min_minimum_witness :
    SansNull tas_exemple ∧ EstTasMin tas_exemple ∧ tas_exemple.taille ≠ 0 ∧
    tas_exemple.tab 2 ∈ contenu tas_exemple ∧
    ¬ ((extraire_min tas_exemple).1 = Noeud.null) ∧
    (extraire_min tas_exemple).1 ∈ contenu tas_exemple ∧
    (extraire_min tas_exemple).1.freq ≤ (tas_exemple.tab 2).freq :=
  have h := C8_extraire_min_minimum tas_exemple tas_exemple_sans_null
  have hz : tas_exemple.taille ≠ 0 := by decide
  have hm : tas_exemple.tab 2 ∈ contenu tas_exemple := mem_contenu (by decide)
  ⟨tas_exemple_sans_null, tas_exemple_ordonne, hz, hm, fun e => hz (h.1.mp e), h.2.1 hz,
    h.2.2 tas_exemple_ordonne hz _ hm⟩

theorem table_exemple_total : total_table table_exemple 256 < 2 ^ 64 := by
  set_option maxRecDepth 100000 in decide

theorem feuilles_de_non_vide (freq_table : Nat → Nat) (h : ∃ s, s < 256 ∧ 0 < freq_table s) :
    feuilles_de freq_table 256 ≠ [] := by
  intro e
  obtain ⟨s, hs, hf⟩ := h
  have := (presents_vide_iff freq_table 256).mp e s hs
  omega

/-- C9: for every frequency table whose entries sum to less than `2^64`, every internal
node of the tree returned by `construire_arbre_huffman` (a node with the leaf flag 0, or
with a child) has a frequency equal to the sum of the frequencies of its left and right
children. -/
theorem C9_frequence_somme_enfants (freq_table : Nat → Nat)
    (htot : total_table freq_table 256 < 2 ^ 64) :
    ∀ n ∈ noeuds (construire_arbre_huffman freq_table),
      (n.leaf = 0 ∨ n.left ≠ Noeud.null ∨ n.right ≠ Noeud.null) →
      n.freq = n.left.freq + n.right.freq := by
  by_cases hne : feuilles_de freq_table 256 = []
  · rw [construire_vide freq_table hne]
    intro n hn
    simp [noeuds] at hn
  · have hS := construire_somme freq_table htot hne
    generalize construire_arbre_huffman freq_table = T at hS ⊢
    have hT : Bon T ∧ FeuillesTable freq_table T := hS.1.1 T (Multiset.mem_singleton_self T)
    have hO : SommeOK T ∧ T.freq = poids T := hS.2.1 T (Multiset.mem_singleton_self T)
    intro n hn hint
    apply SommeOK_noeuds T hO.1 n hn
    rcases Bon_noeuds T hT.1 n hn with ⟨h1, h2, h3⟩ | ⟨h1, h2, h3⟩
    · rcases hint with e | e | e
      · exact e
      · exact absurd h1 e
      · exact absurd h2 e
    · exact h3

theorem C9_frequence_somme_enfants_witness :
    total_table table_exemple 256 < 2 ^ 64 ∧
    Noeud.mk 0 2 (Noeud.mk 65 1 Noeud.null Noeud.null 1) (Noeud.mk 66 1 Noeud.null Noeud.null 1) 0
      ∈ noeuds (construire_arbre_huffman table_exemple) ∧
    ((Noeud.mk 0 2 (Noeud.mk 65 1 Noeud.null Noeud.null 1)
        (Noeud.mk 66 1 Noeud.null Noeud.null 1) 0).leaf = 0 ∨
      (Noeud.mk 0 2 (Noeud.mk 65 1 Noeud.null Noeud.null 1)
        (Noeud.mk 66 1 Noeud.null Noeud.null 1) 0).left ≠ Noeud.null ∨
      (Noeud.mk 0 2 (Noeud.mk 65 1 Noeud.null Noeud.null 1)
        (Noeud.mk 66 1 Noeud.null Noeud.null 1) 0).right ≠ Noeud.null) ∧
    (Noeud.mk 0 2 (Noeud.mk 65 1 Noeud.null Noeud.null 1)
        (Noeud.mk 66 1 Noeud.null Noeud.null 1) 0).freq =
      (Noeud.mk 0 2 (Noeud.mk 65 1 Noeud.null Noeud.null 1)
        (Noeud.mk 66 1 Noeud.null Noeud.null 1) 0).left.freq +
      (Noeud.mk 0 2 (Noeud.mk 65 1 Noeud.null Noeud.null 1)
        (Noeud.mk 66 1 Noeud.null Noeud.null 1) 0).right.freq :=
  have hm : Noeud.mk 0 2 (Noeud.mk 65 1 Noeud.null Noeud.null 1)
      (Noeud.mk 66 1 Noeud.null Noeud.null 1) 0
      ∈ noeuds (construire_arbre_huffman table_exemple) := by
    rw [construire_exemple]; decide
  ⟨table_exemple_total, hm, Or.inl rfl,
    C9_frequence_somme_enfants table_exemple table_exemple_total _ hm (Or.inl rfl)⟩

/-- C10: every node of a tree returned by `construire_arbre_huffman` is either a leaf with
both children absent and leaf flag 1, or an internal node with both children present and
leaf flag 0; no node has exactly one child. -/
theorem C10_feuille_ou_deux_enfants (freq_table : Nat → Nat) :
    ∀ n ∈ noeuds (construire_arbre_huffman freq_table),
      ((n.left = Noeud.null ∧ n.right = Noeud.null ∧ n.leaf = 1) ∨
        (n.left ≠ Noeud.null ∧ n.right ≠ Noeud.null ∧ n.leaf = 0)) ∧
      ¬ (n.left = Noeud.null ∧ n.right ≠ Noeud.null) ∧
      ¬ (n.left ≠ Noeud.null ∧ n.right = Noeud.null) := by
  by_cases hne : feuilles_de freq_table 256 = []
  · rw [construire_vide freq_table hne]
    intro n hn
    simp [noeuds] at hn
  · have hF := construire_forme freq_table hne
    generalize construire_arbre_huffman freq_table = T at hF ⊢
    have hT : Bon T ∧ FeuillesTable freq_table T := hF.1 T (Multiset.mem_singleton_self T)
    intro n hn
    have h := Bon_noeuds T hT.1 n hn
    refine ⟨h, ?_, ?_⟩
    · rcases h with ⟨h1, h2, _⟩ | ⟨h1, h2, _⟩
      · exact fun e => e.2 h2
      · exact fun e => h1 e.1
    · rcases h with ⟨h1, h2, _⟩ | ⟨h1, h2, _⟩
      · exact fun e => e.1 h1
      · exact fun e => h2 e.2

/-- C2: for every frequency table with at least one non-zero entry whose entries sum to
less than `2^64`, the tree returned by `construire_arbre_huffman` is a tree whose leaves
are exactly the symbols with a non-zero frequency, and it is optimal: its weighted path
length (the sum over the leaves of frequency times depth) is at most that of every binary
tree whose leaves are exactly those symbols. -/
theorem C2_arbre_optimal (freq_table : Nat → Nat)
    (hnz : ∃ s, s < 256 ∧ 0 < freq_table s)
    (htot : total_table freq_table 256 < 2 ^ 64) :
    construire_arbre_huffman freq_table ≠ Noeud.null ∧
    (feuilles (construire_arbre_huffman freq_table)).Perm (symboles_presents freq_table) ∧
    ∀ S : Noeud, S ≠ Noeud.null → (feuilles S).Perm (symboles_presents freq_table) →
      longueur_ponderee freq_table 0 (construire_arbre_huffman freq_table) ≤
        longueur_ponderee freq_table 0 S := by
  have hne := feuilles_de_non_vide freq_table hnz
  have hF := construire_forme freq_table hne
  have hopt := construire_optimal_plein freq_table htot hne
  generalize construire_arbre_huffman freq_table = T at hF hopt ⊢
  have hT : Bon T ∧ FeuillesTable freq_table T := hF.1 T (Multiset.mem_singleton_self T)
  have hsym := hF.2
  simp only [Multiset.map_singleton, Multiset.sum_singleton] at hsym
  refine ⟨Bon_ne_null hT.1, ?_, ?_⟩
  · rw [Bon_feuilles T hT.1]
    exact (Multiset.coe_eq_coe.mp hsym).trans (presents_perm freq_table 256)
  · intro S hS hperm
    rw [Bon_longueur freq_table 0 T hT.1 hT.2]
    have hP := contracte_ne_null S hS
    have h1 := hopt (contracte S) hP (by rw [contracte_feuilles]; exact hperm)
    exact le_trans h1 (contracte_longueur _ _ _)

set_option maxRecDepth 1000000 in
theorem symboles_presents_exemple : symboles_presents table_exemple = [65, 66, 67] := by
  decide

theorem C2_arbre_optimal_witness :
    (∃ s, s < 256 ∧ 0 < table_exemple s) ∧ total_table table_exemple 256 < 2 ^ 64 ∧
    Noeud.mk 0 0 (Noeud.mk 67 0 Noeud.null Noeud.null 1)
      (Noeud.mk 0 0 (Noeud.mk 66 0 Noeud.null Noeud.null 1)
        (Noeud.mk 65 0 Noeud.null Noeud.null 1) 0) 0 ≠ Noeud.null ∧
    (feuilles (Noeud.mk 0 0 (Noeud.mk 67 0 Noeud.null Noeud.null 1)
      (Noeud.mk 0 0 (Noeud.mk 66 0 Noeud.null Noeud.null 1)
        (Noeud.mk 65 0 Noeud.null Noeud.null 1) 0) 0)).Perm (symboles_presents table_exemple) ∧
    construire_arbre_huffman table_exemple ≠ Noeud.null ∧
    (feuilles (construire_arbre_huffman table_exemple)).Perm (symboles_presents table_exemple) ∧
    longueur_ponderee table_exemple 0 (construire_arbre_huffman table_exemple) ≤
      longueur_ponderee table_exemple 0
        (Noeud.mk 0 0 (Noeud.mk 67 0 Noeud.null Noeud.null 1)
          (Noeud.mk 0 0 (Noeud.mk 66 0 Noeud.null Noeud.null 1)
            (Noeud.mk 65 0 Noeud.null Noeud.null 1) 0) 0) :=
  have h := C2_arbre_optimal table_exemple ⟨65, by decide, by decide⟩ table_exemple_total
  have hp : (feuilles (Noeud.mk 0 0 (Noeud.mk 67 0 Noeud.null Noeud.null 1)
      (Noeud.mk 0 0 (Noeud.mk 66 0 Noeud.null Noeud.null 1)
        (Noeud.mk 65 0 Noeud.null Noeud.null 1) 0) 0)).Perm (symboles_presents table_exemple) := by
    rw [symboles_presents_exemple]; decide
  ⟨⟨65, by decide, by decide⟩, table_exemple_total, by decide, hp, h.1, h.2.1,
    h.2.2 _ (by decide) hp⟩

/-! ## The code table -/

theorem zero_ne_NUL : '0' ≠ NUL := by decide

theorem un_ne_NUL : '1' ≠ NUL := by decide

theorem strdup_prefixe (buf : Nat → Char) (depth : Nat) (hd : depth < 512)
    (hpre : ∀ k, k < depth → buf k ≠ NUL) :
    strdup (ecrire buf depth NUL) = (List.range depth).map buf := by
  obtain ⟨m, hm⟩ : ∃ m, 512 = depth + (m + 1) := ⟨511 - depth, by omega⟩
  unfold strdup
  rw [hm, List.range_add, List.map_append, List.takeWhile_append_of_pos]
  · rw [List.range_succ_eq_map, List.map_cons, List.map_cons, List.takeWhile_cons_of_neg]
    · rw [List.append_nil]
      apply List.map_congr_left
      intro k hk
      rw [List.mem_range] at hk
      simp only [ecrire]
      rw [if_neg (by omega)]
    · simp [ecrire]
  · intro ch hch
    obtain ⟨k, hk, rfl⟩ := List.mem_map.mp hch
    rw [List.mem_range] at hk
    have e : ecrire buf depth NUL k = buf k := by
      simp only [ecrire]
      rw [if_neg (by omega)]
    simpa [e] using hpre k hk

theorem range_map_ecrire (buf : Nat → Char) (depth : Nat) (ch : Char) :
    (List.range (depth + 1)).map (ecrire buf depth ch) = (List.range depth).map buf ++ [ch] := by
  rw [List.range_succ, List.map_append]
  congr 1
  · apply List.map_congr_left
    intro k hk
    rw [List.mem_range] at hk
    simp only [ecrire]
    rw [if_neg (by omega)]
  · simp [ecrire]

theorem table_de_append (g : List Char → List Char) (L1 L2 : List (Nat × List Char))
    (codes : Nat → Option (List Char)) :
    table_de g (L1 ++ L2) codes = table_de g L2 (table_de g L1 codes) := by
  simp [table_de, List.foldl_append]

theorem table_de_map (g : List Char → List Char) (ch : Char) (L : List (Nat × List Char))
    (codes : Nat → Option (List Char)) :
    table_de g (L.map (fun p => (p.1, ch :: p.2))) codes =
      table_de (fun q => g (ch :: q)) L codes := by
  simp [table_de, List.foldl_map]

/-- What `generer_codes_rec` computes on a well-shaped tree: it records, for each leaf from
left to right, the characters already in the buffer followed by the path to the leaf, and
it leaves the first `depth` characters of the buffer unchanged. -/
theorem generer_codes_rec_spec (t : Noeud) (hB : Bon t) :
    ∀ (buf : Nat → Char) (depth : Nat) (codes : Nat → Option (List Char)),
      depth + hauteur t < 512 → (∀ k, k < depth → buf k ≠ NUL) →
      (depth = 0 → t.leaf = 0) →
      (generer_codes_rec t buf depth codes).2 =
        table_de (fun q => (List.range depth).map buf ++ q) (chemins t) codes ∧
      ∀ k, k < depth → (generer_codes_rec t buf depth codes).1 k = buf k := by
  induction t with
  | null => exact absurd hB (by simp [Bon])
  | mk c f l r lf ihl ihr =>
    intro buf depth codes hh hpre hz
    rcases hB with ⟨h1, h2, h3, _⟩ | ⟨h1, h2, h3⟩
    · have hlf : lf ≠ 0 := by omega
      have hd : depth ≠ 0 := fun e => hlf (hz e)
      simp only [generer_codes_rec, chemins]
      rw [if_pos hlf, if_neg hd, if_pos hlf]
      simp only [hauteur] at hh
      constructor
      · simp only [table_de, List.foldl_cons, List.foldl_nil, List.append_nil]
        rw [strdup_prefixe buf depth (by omega) hpre]
      · intro k hk
        simp only [ecrire]
        rw [if_neg (by omega)]
    · have hlf : ¬ (lf ≠ 0) := by omega
      simp only [hauteur] at hh
      rw [if_neg hlf] at hh
      have hpre0 : ∀ k, k < depth + 1 → ecrire buf depth '0' k ≠ NUL := by
        intro k hk
        simp only [ecrire]
        split
        · exact zero_ne_NUL
        · exact hpre k (by omega)
      obtain ⟨hl1, hl2⟩ := ihl h2 (ecrire buf depth '0') (depth + 1) codes
        (by have := Nat.le_max_left (hauteur l) (hauteur r); omega) hpre0 (by omega)
      have hpre1 : ∀ k, k < depth + 1 →
          ecrire (generer_codes_rec l (ecrire buf depth '0') (depth + 1) codes).1 depth '1' k
            ≠ NUL := by
        intro k hk
        simp only [ecrire]
        split
        · exact un_ne_NUL
        · rename_i hne
          have := hl2 k hk
          simp only [ecrire] at this
          rw [if_neg hne] at this
          rw [this]
          exact hpre k (by omega)
      obtain ⟨hr1, hr2⟩ := ihr h3
        (ecrire (generer_codes_rec l (ecrire buf depth '0') (depth + 1) codes).1 depth '1')
        (depth + 1) (generer_codes_rec l (ecrire buf depth '0') (depth + 1) codes).2
        (by have := Nat.le_max_right (hauteur l) (hauteur r); omega) hpre1 (by omega)
      have hframe : ∀ k, k < depth →
          (generer_codes_rec l (ecrire buf depth '0') (depth + 1) codes).1 k = buf k := by
        intro k hk
        rw [hl2 k (by omega)]
        simp only [ecrire]
        rw [if_neg (by omega)]
      simp only [generer_codes_rec, chemins]
      rw [if_neg hlf, if_neg hlf]
      constructor
      · rw [hr1, hl1, table_de_append, table_de_map, table_de_map, range_map_ecrire,
          range_map_ecrire]
        have e : (List.range depth).map
            (generer_codes_rec l (ecrire buf depth '0') (depth + 1) codes).1
            = (List.range depth).map buf := by
          apply List.map_congr_left
          intro k hk
          exact hframe k (List.mem_range.mp hk)
        rw [e]
        simp only [List.append_assoc, List.singleton_append]
      · intro k hk
        rw [hr2 k (by omega)]
        simp only [ecrire]
        rw [if_neg (by omega)]
        exact hframe k hk

theorem table_de_spec (g : List Char → List Char) (L : List (Nat × List Char))
    (hnd : (L.map Prod.fst).Nodup) :
    ∀ (codes : Nat → Option (List Char)) (s : Nat),
      (∀ p, (s, p) ∈ L → table_de g L codes s = some (g p)) ∧
      (s ∉ L.map Prod.fst → table_de g L codes s = codes s) := by
  induction L with
  | nil =>
    intro codes s
    simp [table_de]
  | cons x L ih =>
    intro codes s
    rw [List.map_cons, List.nodup_cons] at hnd
    have e : table_de g (x :: L) codes = table_de g L (ecrire codes x.1 (some (g x.2))) := rfl
    rw [e]
    obtain ⟨ih1, ih2⟩ := ih hnd.2 (ecrire codes x.1 (some (g x.2))) s
    constructor
    · intro p hp
      rcases List.mem_cons.mp hp with hx | hx
      · have hs : s = x.1 := by rw [← hx]
        have hp2 : p = x.2 := by rw [← hx]
        subst hs
        rw [ih2 hnd.1, hp2]
        simp [ecrire]
      · exact ih1 p hx
    · intro hs
      rw [List.map_cons, List.mem_cons, not_or] at hs
      rw [ih2 hs.2]
      simp only [ecrire]
      rw [if_neg hs.1]

theorem chemins_fst (t : Noeud) : (chemins t).map Prod.fst = symboles t := by
  induction t with
  | null => rfl
  | mk c f l r lf ihl ihr =>
    simp only [chemins, symboles]
    split
    · rfl
    · rw [List.map_append, List.map_map, List.map_map, ← ihl, ← ihr]
      rfl

/-- Two leaves of a tree whose paths are prefix-related are the same leaf. -/
theorem chemins_prefixe (t : Noeud) :
    ∀ p ∈ chemins t, ∀ q ∈ chemins t, p.2 <+: q.2 → p = q := by
  induction t with
  | null => intro p hp; simp [chemins] at hp
  | mk c f l r lf ihl ihr =>
    intro p hp q hq hpq
    simp only [chemins] at hp hq
    split at hp
    · rename_i hlf
      rw [if_pos hlf] at hq
      rw [List.mem_singleton] at hp hq
      rw [hp, hq]
    · rename_i hlf
      rw [if_neg hlf] at hq
      rcases List.mem_append.mp hp with hp1 | hp1 <;>
        rcases List.mem_append.mp hq with hq1 | hq1 <;>
        obtain ⟨p1, hp2, rfl⟩ := List.mem_map.mp hp1 <;>
        obtain ⟨q1, hq2, rfl⟩ := List.mem_map.mp hq1 <;>
        simp only [List.cons_prefix_cons] at hpq
      · have := ihl p1 hp2 q1 hq2 hpq.2
        rw [this]
      · exact absurd hpq.1 (by decide)
      · exact absurd hpq.1 (by decide)
      · have := ihr p1 hp2 q1 hq2 hpq.2
        rw [this]

theorem hauteur_lt_symboles (t : Noeud) (h : Bon t) : hauteur t < (symboles t).length := by
  induction t with
  | null => exact absurd h (by simp [Bon])
  | mk c f l r lf ihl ihr =>
    simp only [hauteur, symboles]
    rcases h with ⟨h1, h2, h3, _⟩ | ⟨h1, h2, h3⟩
    · rw [if_pos (by omega), if_pos (by omega)]
      simp
    · rw [if_neg (by omega), if_neg (by omega), List.length_append]
      have a1 := ihl h2
      have a2 := ihr h3
      rcases Nat.le_total (hauteur l) (hauteur r) with e | e
      · rw [Nat.max_eq_right e]; omega
      · rw [Nat.max_eq_left e]; omega

theorem presents_nodup (freq_table : Nat → Nat) (n : Nat) :
    (presents freq_table n).Nodup ∧ ∀ s ∈ presents freq_table n, s < n ∧ 0 < freq_table s := by
  induction n with
  | zero => simp [presents]
  | succ n ih =>
    simp only [presents]
    split
    · rename_i hf
      constructor
      · rw [List.nodup_cons]
        exact ⟨fun hm => absurd (ih.2 n hm).1 (lt_irrefl n), ih.1⟩
      · intro s hs
        rcases List.mem_cons.mp hs with e | e
        · subst e; exact ⟨by omega, hf⟩
        · exact ⟨by have := (ih.2 s e).1; omega, (ih.2 s e).2⟩
    · exact ⟨ih.1, fun s hs => ⟨by have := (ih.2 s hs).1; omega, (ih.2 s hs).2⟩⟩

theorem presents_mem (freq_table : Nat → Nat) (n s : Nat) (hs : s < n) (hf : 0 < freq_table s) :
    s ∈ presents freq_table n := by
  induction n with
  | zero => omega
  | succ n ih =>
    simp only [presents]
    rcases Nat.lt_succ_iff_lt_or_eq.mp hs with h1 | h1
    · split
      · exact List.mem_cons_of_mem _ (ih h1)
      · exact ih h1
    · subst h1
      rw [if_pos hf]
      exact List.mem_cons_self _ _

theorem presents_length (freq_table : Nat → Nat) (n : Nat) :
    (presents freq_table n).length ≤ n := by
  induction n with
  | zero => simp [presents]
  | succ n ih =>
    simp only [presents]
    split
    · simp only [List.length_cons]; omega
    · omega

/-- The table built by `generer_codes` on a well-shaped tree with distinct symbols: the slot
of the symbol of each leaf holds the path to that leaf (the string `"0"` when the root is
itself a leaf), and every other slot is empty. -/
theorem generer_codes_spec (t : Noeud) (hB : Bon t) (hnd : (symboles t).Nodup)
    (hlen : (symboles t).length ≤ 256) (s : Nat) :
    (∀ p, (s, p) ∈ chemins t →
      generer_codes t s = some (if t.leaf ≠ 0 then ['0'] else p)) ∧
    (s ∉ symboles t → generer_codes t s = none) := by
  have hne := Bon_ne_null hB
  have hh := hauteur_lt_symboles t hB
  unfold generer_codes
  simp only [if_neg hne]
  by_cases hlf : t.leaf ≠ 0
  · simp only [if_pos hlf]
    cases t with
    | null => exact absurd rfl hne
    | mk c f l r lf =>
      have hlf2 : lf ≠ 0 := hlf
      simp only [chemins, symboles, if_pos hlf2, List.mem_singleton, Noeud.c]
      constructor
      · intro p hp
        have : s = c := by
          have := congrArg Prod.fst hp
          exact this
        subst this
        simp [ecrire]
      · intro hs
        simp only [ecrire]
        rw [if_neg hs]
  · simp only [if_neg hlf]
    have hlf0 : t.leaf = 0 := by omega
    obtain ⟨h1, _⟩ := generer_codes_rec_spec t hB (fun _ => NUL) 0 (fun _ => none)
      (by omega) (fun k hk => absurd hk (Nat.not_lt_zero k)) (fun _ => hlf0)
    rw [h1]
    have hspec := table_de_spec (fun q => (List.range 0).map (fun _ => NUL) ++ q) (chemins t)
      (by rw [chemins_fst]; exact hnd) (fun _ => none) s
    constructor
    · intro p hp
      rw [hspec.1 p hp]
      simp
    · intro hs
      rw [← chemins_fst] at hs
      rw [hspec.2 hs]

theorem chemins_kraft (t : Noeud) (hB : Bon t) :
    ((chemins t).map (fun p => (1 / 2 : ℚ) ^ p.2.length)).sum = 1 := by
  induction t with
  | null => exact absurd hB (by simp [Bon])
  | mk c f l r lf ihl ihr =>
    simp only [chemins]
    rcases hB with ⟨h1, h2, h3, _⟩ | ⟨h1, h2, h3⟩
    · rw [if_pos (by omega)]
      simp
    · rw [if_neg (by omega), List.map_append, List.sum_append, List.map_map, List.map_map]
      have e : ∀ (ch : Char) (L : List (Nat × List Char)),
          (L.map ((fun p : Nat × List Char => (1 / 2 : ℚ) ^ p.2.length) ∘
            (fun p => (p.1, ch :: p.2)))).sum =
          (1 / 2 : ℚ) * (L.map (fun p : Nat × List Char => (1 / 2 : ℚ) ^ p.2.length)).sum := by
        intro ch L
        rw [← List.sum_map_mul_left]
        congr 1
        apply List.map_congr_left
        intro p _
        simp only [Function.comp, List.length_cons, pow_succ]
        ring
      rw [e, e, ihl h2, ihr h3]
      norm_num

/-- Shape facts about the tree returned for a table with a non-zero entry. -/
theorem construire_bon (freq_table : Nat → Nat) (hne : feuilles_de freq_table 256 ≠ []) :
    Bon (construire_arbre_huffman freq_table) ∧
    FeuillesTable freq_table (construire_arbre_huffman freq_table) ∧
    (symboles (construire_arbre_huffman freq_table)).Perm (presents freq_table 256) ∧
    (symboles (construire_arbre_huffman freq_table)).Nodup ∧
    (symboles (construire_arbre_huffman freq_table)).length ≤ 256 := by
  have hF := construire_forme freq_table hne
  generalize construire_arbre_huffman freq_table = T at hF ⊢
  have hT : Bon T ∧ FeuillesTable freq_table T := hF.1 T (Multiset.mem_singleton_self T)
  have hsym := hF.2
  simp only [Multiset.map_singleton, Multiset.sum_singleton] at hsym
  have hperm : (symboles T).Perm (presents freq_table 256) := Multiset.coe_eq_coe.mp hsym
  refine ⟨hT.1, hT.2, hperm, hperm.nodup_iff.mpr (presents_nodup freq_table 256).1, ?_⟩
  rw [hperm.length_eq]
  exact presents_length freq_table 256

theorem generer_codes_null (s : Nat) : generer_codes Noeud.null s = none := by
  simp [generer_codes]

/-- Prefix-freeness of the code table of any well-shaped tree with distinct symbols. -/
theorem codes_sans_prefixe (t : Noeud) (hB : Bon t) (hnd : (symboles t).Nodup)
    (hlen : (symboles t).length ≤ 256) (a b : Nat) (code_a code_b : List Char) (hab : a ≠ b)
    (ha : generer_codes t a = some code_a) (hb : generer_codes t b = some code_b) :
    ¬ code_a <+: code_b := by
  have sa := generer_codes_spec t hB hnd hlen a
  have sb := generer_codes_spec t hB hnd hlen b
  have hma : a ∈ symboles t := by
    by_contra h
    rw [sa.2 h] at ha
    exact Option.noConfusion ha
  have hmb : b ∈ symboles t := by
    by_contra h
    rw [sb.2 h] at hb
    exact Option.noConfusion hb
  rw [← chemins_fst] at hma hmb
  obtain ⟨pa, hpa, hpa2⟩ := List.mem_map.mp hma
  obtain ⟨pb, hpb, hpb2⟩ := List.mem_map.mp hmb
  have hpa3 : (a, pa.2) ∈ chemins t := by rw [← hpa2]; exact hpa
  have hpb3 : (b, pb.2) ∈ chemins t := by rw [← hpb2]; exact hpb
  rw [sa.1 _ hpa3] at ha
  rw [sb.1 _ hpb3] at hb
  by_cases hlf : t.leaf ≠ 0
  · exfalso
    cases t with
    | null => exact hB
    | mk c f l r lf =>
      have hlf2 : lf ≠ 0 := hlf
      simp only [chemins, if_pos hlf2, List.mem_singleton, Prod.mk.injEq] at hpa3 hpb3
      exact hab (hpa3.1.trans hpb3.1.symm)
  · rw [if_neg hlf] at ha hb
    intro hpre
    have ea : code_a = pa.2 := (Option.some.inj ha).symm
    have eb : code_b = pb.2 := (Option.some.inj hb).symm
    rw [ea, eb] at hpre
    have := chemins_prefixe t (a, pa.2) hpa3 (b, pb.2) hpb3 hpre
    exact hab (congrArg Prod.fst this)

theorem somme_kraft_le (t : Noeud) (hB : Bon t) (hnd : (symboles t).Nodup)
    (hlt : ∀ s ∈ symboles t, s < 256) (hlen : (symboles t).length ≤ 256) :
    somme_kraft (generer_codes t) ≤ 1 := by
  let g : Nat → ℚ := fun s =>
    match generer_codes t s with
    | none => (0 : ℚ)
    | some code => (1 / 2 : ℚ) ^ code.length
  have hg : somme_kraft (generer_codes t) = ((List.range 256).map g).sum := rfl
  have hzero : ∀ s, s ∉ symboles t → g s = 0 := by
    intro s hs
    have := (generer_codes_spec t hB hnd hlen s).2 hs
    simp only [g, this]
  have hval : ∀ p ∈ chemins t, g p.1 ≤ (1 / 2 : ℚ) ^ p.2.length := by
    intro p hp
    have := (generer_codes_spec t hB hnd hlen p.1).1 p.2 hp
    simp only [g, this]
    split
    · rename_i hlf
      cases t with
      | null => exact absurd hB (by simp [Bon])
      | mk c f l r lf =>
        have hlf2 : lf ≠ 0 := hlf
        simp only [chemins, if_pos hlf2, List.mem_singleton] at hp
        rw [hp]
        norm_num
    · exact le_refl _
  have h1 : ((List.range 256).map g).sum = ((symboles t).map g).sum := by
    rw [← List.sum_toFinset g (List.nodup_range 256), ← List.sum_toFinset g hnd]
    symm
    apply Finset.sum_subset
    · intro s hs
      rw [List.mem_toFinset] at hs ⊢
      exact List.mem_range.mpr (hlt s hs)
    · intro s _ hs
      rw [List.mem_toFinset] at hs
      exact hzero s hs
  have h2 : ((symboles t).map g).sum ≤
      ((chemins t).map (fun p => (1 / 2 : ℚ) ^ p.2.length)).sum := by
    rw [← chemins_fst, List.map_map]
    apply List.sum_le_sum
    intro p hp
    exact hval p hp
  rw [hg, h1]
  exact le_trans h2 (le_of_eq (chemins_kraft t hB))

theorem C10_feuille_ou_deux_enfants_witness :
    Noeud.mk 0 2 (Noeud.mk 65 1 Noeud.null Noeud.null 1) (Noeud.mk 66 1 Noeud.null Noeud.null 1) 0
      ∈ noeuds (construire_arbre_huffman table_exemple) ∧
    (((Noeud.mk 0 2 (Noeud.mk 65 1 Noeud.null Noeud.null 1)
          (Noeud.mk 66 1 Noeud.null Noeud.null 1) 0).left = Noeud.null ∧
        (Noeud.mk 0 2 (Noeud.mk 65 1 Noeud.null Noeud.null 1)
          (Noeud.mk 66 1 Noeud.null Noeud.null 1) 0).right = Noeud.null ∧
        (Noeud.mk 0 2 (Noeud.mk 65 1 Noeud.null Noeud.null 1)
          (Noeud.mk 66 1 Noeud.null Noeud.null 1) 0).leaf = 1) ∨
      ((Noeud.mk 0 2 (Noeud.mk 65 1 Noeud.null Noeud.null 1)
          (Noeud.mk 66 1 Noeud.null Noeud.null 1) 0).left ≠ Noeud.null ∧
        (Noeud.mk 0 2 (Noeud.mk 65 1 Noeud.null Noeud.null 1)
          (Noeud.mk 66 1 Noeud.null Noeud.null 1) 0).right ≠ Noeud.null ∧
        (Noeud.mk 0 2 (Noeud.mk 65 1 Noeud.null Noeud.null 1)
          (Noeud.mk 66 1 Noeud.null Noeud.null 1) 0).leaf = 0)) ∧
    ¬ ((Noeud.mk 0 2 (Noeud.mk 65 1 Noeud.null Noeud.null 1)
          (Noeud.mk 66 1 Noeud.null Noeud.null 1) 0).left = Noeud.null ∧
        (Noeud.mk 0 2 (Noeud.mk 65 1 Noeud.null Noeud.null 1)
          (Noeud.mk 66 1 Noeud.null Noeud.null 1) 0).right ≠ Noeud.null) ∧
    ¬ ((Noeud.mk 0 2 (Noeud.mk 65 1 Noeud.null Noeud.null 1)
          (Noeud.mk 66 1 Noeud.null Noeud.null 1) 0).left ≠ Noeud.null ∧
        (Noeud.mk 0 2 (Noeud.mk 65 1 Noeud.null Noeud.null 1)
          (Noeud.mk 66 1 Noeud.null Noeud.null 1) 0).right = Noeud.null) :=
  ⟨by rw [construire_exemple]; decide,
    C10_feuille_ou_deux_enfants table_exemple _ (by rw [construire_exemple]; decide)⟩

set_option maxRecDepth 1000000 in
theorem codes_exemple :
    generer_codes (construire_arbre_huffman table_exemple) 65 = some ['0', '0'] ∧
    generer_codes (construire_arbre_huffman table_exemple) 66 = some ['0', '1'] ∧
    generer_codes (construire_arbre_huffman table_exemple) 67 = some ['1'] := by
  rw [construire_exemple]
  decide

/-- C3: for every frequency table, in the code table produced by
`generer_codes(construire_arbre_huffman(freq))`, for every two distinct symbols `a` and `b`
that both have a code, the code of `a` is not a prefix of the code of `b`; in particular the
two codes are distinct. -/
theorem C3_aucun_code_prefixe (freq_table : Nat → Nat) (a b : Nat)
    (code_a code_b : List Char) (hab : a ≠ b)
    (ha : generer_codes (construire_arbre_huffman freq_table) a = some code_a)
    (hb : generer_codes (construire_arbre_huffman freq_table) b = some code_b) :
    ¬ code_a <+: code_b ∧ code_a ≠ code_b := by
  by_cases hne : feuilles_de freq_table 256 = []
  · rw [construire_vide freq_table hne, generer_codes_null] at ha
    exact Option.noConfusion ha
  · obtain ⟨hB, _, _, hnd, hlen⟩ := construire_bon freq_table hne
    generalize construire_arbre_huffman freq_table = T at ha hb hB hnd hlen
    have h := codes_sans_prefixe T hB hnd hlen a b code_a code_b hab ha hb
    exact ⟨h, fun e => h (e ▸ List.prefix_refl code_a)⟩

theorem C3_aucun_code_prefixe_witness :
    (65 : Nat) ≠ 66 ∧
    generer_codes (construire_arbre_huffman table_exemple) 65 = some ['0', '0'] ∧
    generer_codes (construire_arbre_huffman table_exemple) 66 = some ['0', '1'] ∧
    (¬ ['0', '0'] <+: ['0', '1'] ∧ ['0', '0'] ≠ ['0', '1']) :=
  ⟨by decide, codes_exemple.1, codes_exemple.2.1,
    C3_aucun_code_prefixe table_exemple 65 66 ['0', '0'] ['0', '1'] (by decide)
      codes_exemple.1 codes_exemple.2.1⟩

/-- C4: for every frequency table, the code table produced by
`generer_codes(construire_arbre_huffman(freq))` satisfies the Kraft inequality: the sum over
all assigned codes of `2^(-length of the code)`, computed as an exact rational, is at most
`1`. -/
theorem C4_inegalite_de_kraft (freq_table : Nat → Nat) :
    somme_kraft (generer_codes (construire_arbre_huffman freq_table)) ≤ 1 := by
  by_cases hne : feuilles_de freq_table 256 = []
  · rw [construire_vide freq_table hne]
    have : somme_kraft (generer_codes Noeud.null) = 0 := by
      unfold somme_kraft
      apply List.sum_eq_zero
      intro x hx
      obtain ⟨s, _, rfl⟩ := List.mem_map.mp hx
      rw [generer_codes_null]
    rw [this]
    norm_num
  · obtain ⟨hB, _, hperm, hnd, hlen⟩ := construire_bon freq_table hne
    generalize construire_arbre_huffman freq_table = T at hB hperm hnd hlen ⊢
    apply somme_kraft_le T hB hnd _ hlen
    intro s hs
    exact ((presents_nodup freq_table 256).2 s (hperm.subset hs)).1

/-! ## Header: writing then reading -/

theorem shl8_or (a b : Nat) (hb : b < 256) : (a <<< 8) ||| b = a * 256 + b := by
  have := Nat.mul_add_lt_is_or (i := 8) (b := b) (by norm_num; exact hb) a
  rw [Nat.shiftLeft_eq, Nat.mul_comm a (2 ^ 8), ← this]

theorem shr_and (v k : Nat) : (v >>> k) &&& 0xFF = (v / 2 ^ k) % 256 := by
  rw [Nat.shiftRight_eq_div_pow]
  exact Nat.and_pow_two_sub_one_eq_mod _ 8

theorem write_u64_be_eq (v : Nat) :
    write_u64_be v = [v / 2 ^ 56 % 256, v / 2 ^ 48 % 256, v / 2 ^ 40 % 256, v / 2 ^ 32 % 256,
      v / 2 ^ 24 % 256, v / 2 ^ 16 % 256, v / 2 ^ 8 % 256, v / 2 ^ 0 % 256] := by
  have h8 : List.range 8 = [0, 1, 2, 3, 4, 5, 6, 7] := by decide
  simp only [write_u64_be, h8, List.map, shr_and]

theorem write_u64_be_length (v : Nat) : (write_u64_be v).length = 8 := by
  simp [write_u64_be]

theorem read_write_u64_be (v : Nat) (reste : List Nat) :
    read_u64_be (write_u64_be v ++ reste) = some (v % 2 ^ 64, reste) := by
  have hl := write_u64_be_length v
  unfold read_u64_be
  rw [if_neg (by rw [List.length_append]; omega), List.take_left' hl, List.drop_left' hl,
    write_u64_be_eq]
  simp only [List.foldl_cons, List.foldl_nil]
  congr 2
  rw [shl8_or _ _ (Nat.mod_lt _ (by norm_num)), shl8_or _ _ (Nat.mod_lt _ (by norm_num)),
    shl8_or _ _ (Nat.mod_lt _ (by norm_num)), shl8_or _ _ (Nat.mod_lt _ (by norm_num)),
    shl8_or _ _ (Nat.mod_lt _ (by norm_num)), shl8_or _ _ (Nat.mod_lt _ (by norm_num)),
    shl8_or _ _ (Nat.mod_lt _ (by norm_num)), shl8_or _ _ (Nat.mod_lt _ (by norm_num))]
  norm_num
  omega

theorem write_freqs_length (freq_table : Nat → Nat) (n : Nat) :
    (write_freqs freq_table n).length = 8 * n := by
  induction n with
  | zero => rfl
  | succ n ih =>
    simp only [write_freqs, List.length_append, ih, write_u64_be_length]
    omega

theorem write_freq_header_length (total : Nat) (freq_table : Nat → Nat) :
    (write_freq_header total freq_table).length = 2060 := by
  simp only [write_freq_header, List.length_append, write_freqs_length, write_u64_be_length,
    magic, List.length_cons, List.length_nil]

theorem read_write_freqs (freq_table : Nat → Nat) (n : Nat) :
    ∀ reste : List Nat, read_freqs (write_freqs freq_table n ++ reste) n =
      some (fun i => if i < n then freq_table i % 2 ^ 64 else 0, reste) := by
  induction n with
  | zero =>
    intro reste
    simp [read_freqs, write_freqs]
  | succ n ih =>
    intro reste
    simp only [read_freqs, write_freqs, List.append_assoc]
    rw [ih (write_u64_be (freq_table n) ++ reste)]
    simp only [read_write_u64_be]
    congr 2
    funext i
    simp only [ecrire]
    by_cases h : i = n
    · subst h
      simp
    · rw [if_neg h]
      by_cases h2 : i < n
      · rw [if_pos h2, if_pos (by omega)]
      · rw [if_neg h2, if_neg (by omega)]

theorem read_freq_header_de (X Y Z : List Nat) (t : Nat) (table : Nat → Nat)
    (hX : read_u64_be X = some (t, Y)) (hY : read_freqs Y 256 = some (table, Z)) :
    read_freq_header (magic ++ X) = some (t, table, Z) := by
  have hm : magic.length = 4 := rfl
  unfold read_freq_header
  rw [if_neg (by rw [List.length_append]; omega), List.take_left' hm, List.drop_left' hm,
    if_neg (by simp), hX]
  simp only
  rw [hY]

/-- Reading back a header that was written returns the total, the table on its 256 entries
and the unread remainder of the file. -/
theorem read_write_freq_header (total : Nat) (freq_table : Nat → Nat) (reste : List Nat) :
    read_freq_header (write_freq_header total freq_table ++ reste) =
      some (total % 2 ^ 64, fun i => if i < 256 then freq_table i % 2 ^ 64 else 0, reste) := by
  have e : write_freq_header total freq_table ++ reste =
      magic ++ (write_u64_be total ++ (write_freqs freq_table 256 ++ reste)) := by
    simp [write_freq_header, List.append_assoc]
  rw [e]
  exact read_freq_header_de _ _ _ _ _ (read_write_u64_be _ _) (read_write_freqs _ _ _)

/-! ## The writer only appends to the file -/

theorem bw_write_bit_prefixe (out : List Nat) (bw : BitWriter) (bit : Nat) :
    bw_write_bit (avec_prefixe out bw) bit =
      ((bw_write_bit bw bit).1, avec_prefixe out (bw_write_bit bw bit).2) := by
  simp only [bw_write_bit, avec_prefixe]
  split <;> simp

theorem bw_write_bit_code (bw : BitWriter) (bit : Nat) : (bw_write_bit bw bit).1 = 0 := by
  simp only [bw_write_bit]
  split <;> rfl

theorem bw_write_bits_prefixe (out : List Nat) (code : List Char) :
    ∀ bw : BitWriter, bw_write_bits_from_string (avec_prefixe out bw) code =
      ((bw_write_bits_from_string bw code).1,
        avec_prefixe out (bw_write_bits_from_string bw code).2) := by
  induction code with
  | nil => intro bw; rfl
  | cons ch reste ih =>
    intro bw
    simp only [bw_write_bits_from_string, bw_write_bit_prefixe, bw_write_bit_code]
    split
    · simp only [ne_eq, not_true_eq_false, if_false]
      exact ih _
    · split
      · simp only [ne_eq, not_true_eq_false, if_false]
        exact ih _
      · rfl

theorem compress_boucle_prefixe (codes : Nat → Option (List Char)) (out : List Nat)
    (input : List Nat) :
    ∀ bw : BitWriter, compress_boucle codes (avec_prefixe out bw) input =
      (compress_boucle codes bw input).map (avec_prefixe out) := by
  induction input with
  | nil => intro bw; rfl
  | cons ch reste ih =>
    intro bw
    simp only [compress_boucle]
    split
    · rfl
    · simp only [bw_write_bits_prefixe]
      split
      · rfl
      · exact ih _

theorem bw_write_flush_prefixe (out : List Nat) (bw : BitWriter) :
    bw_write_flush (avec_prefixe out bw) = avec_prefixe out (bw_write_flush bw) := by
  simp only [bw_write_flush, avec_prefixe]
  split <;> simp

/-- The output of `compress_file` is the header followed by the bit stream. -/
theorem compress_file_de (input : List Nat) (freq_table : Nat → Nat) (total : Nat) (T : Noeud)
    (hf : compter_frequences_fichier input = freq_table)
    (htot : calcul_total freq_table 256 = total)
    (hT : construire_arbre_huffman freq_table = T) :
    compress_file input =
      if total = 0 then some (write_freq_header 0 freq_table)
      else if T = Noeud.null then none
      else (charge_utile (generer_codes T) input).map
        (fun p => write_freq_header total freq_table ++ p) := by
  unfold compress_file charge_utile
  simp only
  rw [hf, htot, hT]
  split
  · rfl
  · split
    · rfl
    · have e : ∀ out : List Nat, bw_create out = avec_prefixe out (bw_create []) := by
        intro out; simp [bw_create, avec_prefixe]
      rw [e, compress_boucle_prefixe]
      generalize compress_boucle (generer_codes T) (bw_create []) input = o
      cases o with
      | none => rfl
      | some bw =>
        simp only [Option.map_some']
        rw [bw_write_flush_prefixe]
        rfl

/-- The output of `decompress_file` on a file whose header has been read. -/
theorem decompress_file_de (input reste : List Nat) (total : Nat) (freq_table : Nat → Nat)
    (T : Noeud) (h : read_freq_header input = some (total, freq_table, reste))
    (hT : construire_arbre_huffman freq_table = T) :
    decompress_file input =
      if total = 0 then some []
      else if T = Noeud.null then none
      else (decode_boucle T total (8 * reste.length + 1) (br_create reste) 0 T []).map
        Prod.fst := by
  unfold decompress_file
  rw [h]
  simp only
  rw [hT]
  split
  · rfl
  · split
    · rfl
    · generalize decode_boucle T total (8 * reste.length + 1) (br_create reste) 0 T [] = o
      cases o with
      | none => rfl
      | some r => rfl

/-! ## Empty input and the two-byte input `AB` -/

theorem calcul_total_zero (n : Nat) : calcul_total (fun _ => 0) n = 0 := by
  induction n with
  | zero => rfl
  | succ n ih => simp [calcul_total, ih]

theorem write_u64_be_zero : write_u64_be 0 = List.replicate 8 0 := by
  rw [write_u64_be_eq]
  simp

theorem write_freqs_zero (n : Nat) : write_freqs (fun _ => 0) n = List.replicate (8 * n) 0 := by
  induction n with
  | zero => rfl
  | succ n ih =>
    simp only [write_freqs, ih, write_u64_be_zero]
    rw [← List.replicate_add]
    rfl

theorem write_freq_header_zero :
    write_freq_header 0 (fun _ => 0) = [72, 85, 70, 49] ++ List.replicate 2056 0 := by
  simp only [write_freq_header, write_freqs_zero, write_u64_be_zero, magic, List.append_assoc]
  rw [← List.replicate_add]

/-- C6: compressing the empty input produces exactly 2060 bytes, the tag `"HUF1"` followed by
2056 zero bytes (total 0 and 256 zero frequencies) with no bit stream after it, and
decompressing that 2060-byte file succeeds with a zero-length output. -/
theorem C6_entree_vide :
    compress_file [] = some ([72, 85, 70, 49] ++ List.replicate 2056 0) ∧
    ([72, 85, 70, 49] ++ List.replicate 2056 0 : List Nat).length = 2060 ∧
    decompress_file ([72, 85, 70, 49] ++ List.replicate 2056 0) = some [] := by
  refine ⟨?_, by rw [List.length_append, List.length_replicate]; rfl, ?_⟩
  · rw [compress_file_de [] (fun _ => 0) 0 (construire_arbre_huffman (fun _ => 0)) rfl
      (calcul_total_zero 256) rfl, if_pos rfl, write_freq_header_zero]
  · have h := read_write_freq_header 0 (fun _ => 0) []
    rw [List.append_nil, write_freq_header_zero] at h
    rw [decompress_file_de _ _ _ _ _ h rfl, if_pos (by norm_num)]

set_option maxRecDepth 1000000 in
theorem total_AB : calcul_total (compter_frequences_fichier [65, 66]) 256 = 2 := by
  decide

set_option maxRecDepth 1000000 in
theorem construire_AB : construire_arbre_huffman (compter_frequences_fichier [65, 66]) =
    Noeud.mk 0 2 (Noeud.mk 65 1 Noeud.null Noeud.null 1)
      (Noeud.mk 66 1 Noeud.null Noeud.null 1) 0 := by
  decide

set_option maxRecDepth 1000000 in
theorem construire_AB_relu :
    construire_arbre_huffman
      (fun i => if i < 256 then compter_frequences_fichier [65, 66] i % 2 ^ 64 else 0) =
    Noeud.mk 0 2 (Noeud.mk 65 1 Noeud.null Noeud.null 1)
      (Noeud.mk 66 1 Noeud.null Noeud.null 1) 0 := by
  decide

set_option maxRecDepth 1000000 in
theorem charge_utile_AB :
    charge_utile (generer_codes (Noeud.mk 0 2 (Noeud.mk 65 1 Noeud.null Noeud.null 1)
      (Noeud.mk 66 1 Noeud.null Noeud.null 1) 0)) [65, 66] = some [0] := by
  decide

set_option maxRecDepth 1000000 in
theorem decode_AB :
    (decode_boucle (Noeud.mk 0 2 (Noeud.mk 65 1 Noeud.null Noeud.null 1)
        (Noeud.mk 66 1 Noeud.null Noeud.null 1) 0) (2 % 2 ^ 64) (8 * [0].length + 1)
      (br_create [0]) 0 (Noeud.mk 0 2 (Noeud.mk 65 1 Noeud.null Noeud.null 1)
        (Noeud.mk 66 1 Noeud.null Noeud.null 1) 0) []).map Prod.fst = some [65, 65] := by
  decide

theorem compress_AB :
    compress_file [65, 66] =
      some (write_freq_header 2 (compter_frequences_fichier [65, 66]) ++ [0]) := by
  rw [compress_file_de [65, 66] _ 2 _ rfl total_AB construire_AB, if_neg (by norm_num),
    if_neg (by simp), charge_utile_AB]
  rfl

theorem decompress_AB :
    decompress_file (write_freq_header 2 (compter_frequences_fichier [65, 66]) ++ [0]) =
      some [65, 65] := by
  rw [decompress_file_de _ _ _ _ _ (read_write_freq_header 2 _ [0]) construire_AB_relu,
    if_neg (by norm_num), if_neg (by simp), decode_AB]

/-- C1 at the two-byte input `AB`: `compress_file` writes the header followed by the single
payload byte `0x00` (the flush shifts the pending bits `01`, already placed in the two top
positions, out of the byte), and `decompress_file` turns that file into `AA`, not `AB`. -/
theorem C1_aller_retour_AB :
    compress_file [65, 66] =
      some (write_freq_header 2 (compter_frequences_fichier [65, 66]) ++ [0]) ∧
    decompress_file (write_freq_header 2 (compter_frequences_fichier [65, 66]) ++ [0]) =
      some [65, 65] ∧
    (compress_file [65, 66]).bind decompress_file ≠ some [65, 66] := by
  refine ⟨compress_AB, decompress_AB, ?_⟩
  rw [compress_AB, Option.some_bind, decompress_AB]
  decide

/-! ## Input made of one repeated byte -/

theorem compter_repete_aux (s : Nat) (n : Nat) :
    ∀ table : Nat → Nat, table s < 2 ^ 64 →
      List.foldl (fun table b => ecrire table b ((table b + 1) % 2 ^ 64)) table
        (List.replicate n s) = fun k => if k = s then (table s + n) % 2 ^ 64 else table k := by
  induction n with
  | zero =>
    intro table ht
    funext k
    simp only [List.replicate, List.foldl_nil, Nat.add_zero]
    split
    · rename_i h; rw [h, Nat.mod_eq_of_lt ht]
    · rfl
  | succ n ih =>
    intro table ht
    rw [List.replicate_succ, List.foldl_cons,
      ih _ (by simp only [ecrire, if_pos rfl]; exact Nat.mod_lt _ (by norm_num))]
    funext k
    by_cases h : k = s
    · subst h
      simp only [ecrire, if_true]
      omega
    · simp only [ecrire, if_neg h]

theorem compter_repete (s n : Nat) :
    compter_frequences_fichier (List.replicate n s) = table_repetee s (n % 2 ^ 64) := by
  unfold compter_frequences_fichier
  rw [compter_repete_aux s n (fun _ => 0) (by norm_num)]
  funext k
  simp [table_repetee]

theorem calcul_total_repete (s v m : Nat) :
    calcul_total (table_repetee s v) m = if s < m then v % 2 ^ 64 else 0 := by
  induction m with
  | zero => rfl
  | succ m ih =>
    simp only [calcul_total, ih, table_repetee]
    by_cases h1 : s < m
    · have h2 : m ≠ s := by omega
      have h3 : s < m + 1 := by omega
      simp [h1, h2, h3]
    · by_cases h2 : m = s
      · have h3 : s < m + 1 := by omega
        simp [h1, h2, h3]
      · have h3 : ¬ s < m + 1 := by omega
        simp [h1, h2, h3]

theorem feuilles_de_repete (s v m : Nat) (hv : 0 < v) :
    feuilles_de (table_repetee s v) m =
      if s < m then [creer_noeud s v Noeud.null Noeud.null] else [] := by
  induction m with
  | zero => rfl
  | succ m ih =>
    simp only [feuilles_de, ih, table_repetee]
    by_cases h1 : s < m
    · have h2 : m ≠ s := by omega
      have h3 : s < m + 1 := by omega
      simp [h1, h2, h3]
    · by_cases h2 : m = s
      · subst h2
        simp [hv]
      · have h3 : ¬ s < m + 1 := by omega
        simp [h1, h2, h3]

/-- With a single symbol present the returned root is the leaf of that symbol. -/
theorem construire_repete (s v : Nat) (hs : s < 256) (hv : 0 < v) :
    construire_arbre_huffman (table_repetee s v) = Noeud.mk s v Noeud.null Noeud.null 1 := by
  have hf := feuilles_de_repete s v 256 hv
  rw [if_pos hs, creer_noeud_feuille, Nat.mod_eq_of_lt hs] at hf
  have h := construire_regle (table_repetee s v)
    (fun F => F = {Noeud.mk s v Noeud.null Noeud.null 1})
    (by
      intro F hF x hx
      rw [hF, Multiset.mem_singleton] at hx
      rw [hx]
      exact Noeud.noConfusion)
    (by
      intro F a b hF _ _
      exfalso
      have := congrArg Multiset.card hF
      simp at this)
    (by rw [hf]; rfl)
    (by rw [hf]; exact List.cons_ne_nil _ _)
  exact Multiset.singleton_inj.mp h

theorem generer_codes_feuille (s v : Nat) :
    generer_codes (Noeud.mk s v Noeud.null Noeud.null 1) =
      ecrire (fun _ => none) s (some ['0']) := by
  simp [generer_codes, Noeud.leaf, Noeud.c]

theorem bw_write_bit_zero (g : List Nat) (c : Nat) :
    bw_write_bit { f := g, buffer := 0, bit_count := c } 0 =
      (0, if c + 1 = 8 then { f := g ++ [0], buffer := 0, bit_count := 0 }
        else { f := g, buffer := 0, bit_count := c + 1 }) := by
  simp only [bw_write_bit]
  split <;> simp

theorem compress_boucle_repete (codes : Nat → Option (List Char)) (s : Nat)
    (hc : codes s = some ['0']) (n : Nat) :
    ∀ (g : List Nat) (c : Nat), c < 8 →
      compress_boucle codes { f := g, buffer := 0, bit_count := c } (List.replicate n s) =
        some { f := g ++ List.replicate ((c + n) / 8) 0, buffer := 0,
               bit_count := (c + n) % 8 } := by
  induction n with
  | zero =>
    intro g c hc8
    simp only [List.replicate, compress_boucle, Nat.add_zero]
    rw [Nat.div_eq_of_lt hc8, Nat.mod_eq_of_lt hc8]
    simp
  | succ n ih =>
    intro g c hc8
    rw [List.replicate_succ]
    simp only [compress_boucle, hc, bw_write_bits_from_string, bw_write_bit_zero]
    simp only [if_pos trivial, ne_eq, not_true_eq_false, if_false]
    by_cases h7 : c + 1 = 8
    · rw [if_pos h7, ih (g ++ [0]) 0 (by norm_num)]
      have e1 : (c + (n + 1)) / 8 = (0 + n) / 8 + 1 := by omega
      have e2 : (c + (n + 1)) % 8 = (0 + n) % 8 := by omega
      rw [e1, e2, List.replicate_succ, List.append_assoc]
      rfl
    · rw [if_neg h7, ih g (c + 1) (by omega)]
      have e1 : (c + (n + 1)) / 8 = (c + 1 + n) / 8 := by rw [Nat.add_assoc, Nat.add_comm 1 n]
      have e2 : (c + (n + 1)) % 8 = (c + 1 + n) % 8 := by rw [Nat.add_assoc, Nat.add_comm 1 n]
      rw [e1, e2]

theorem charge_utile_repete (codes : Nat → Option (List Char)) (s : Nat)
    (hc : codes s = some ['0']) (n : Nat) :
    charge_utile codes (List.replicate n s) = some (List.replicate ((n + 7) / 8) 0) := by
  unfold charge_utile bw_create
  rw [compress_boucle_repete codes s hc n [] 0 (by norm_num)]
  simp only [bw_write_flush, Nat.zero_add, List.nil_append]
  by_cases h : n % 8 = 0
  · rw [if_pos h]
    have : (n + 7) / 8 = n / 8 := by omega
    rw [this]
  · rw [if_neg h]
    have : (n + 7) / 8 = n / 8 + 1 := by omega
    simp only [Nat.zero_shiftLeft, Nat.zero_mod]
    rw [this, List.replicate_succ']

theorem br_read_bit_spec (br : BitReader) (hv : LecteurValide br) (hb : 1 ≤ bits_restants br) :
    0 ≤ (br_read_bit br).1 ∧ (br_read_bit br).1 ≤ 1 ∧ LecteurValide (br_read_bit br).2 ∧
      bits_restants (br_read_bit br).2 + 1 = bits_restants br := by
  obtain ⟨h1, h2⟩ := hv
  unfold bits_restants at hb ⊢
  unfold br_read_bit LecteurValide
  by_cases hneg : br.bit_pos < 0
  · simp only [if_pos hneg]
    cases hf : br.f with
    | nil =>
      exfalso
      rw [hf] at hb
      simp only [List.length_nil, Nat.mul_zero, Nat.zero_add] at hb
      omega
    | cons tmp reste =>
      simp only [List.length_cons]
      refine ⟨by exact_mod_cast Nat.zero_le _, ?_, ⟨by norm_num, by norm_num⟩, ?_⟩
      · exact_mod_cast Nat.and_le_right
      · have : br.bit_pos = -1 := by omega
        rw [this]
        norm_num
        omega
  · simp only [if_neg hneg]
    refine ⟨by exact_mod_cast Nat.zero_le _, ?_, ⟨by omega, by omega⟩, ?_⟩
    · exact_mod_cast Nat.and_le_right
    · omega

/-- Decoding with a tree reduced to one leaf: each pass of the loop reads one bit and writes
the symbol of the leaf, whatever the bit. -/
theorem decode_boucle_feuille (s v total : Nat) (htot : total < 2 ^ 64) (fuel : Nat) :
    ∀ (br : BitReader) (produced : Nat) (out : List Nat), LecteurValide br →
      produced ≤ total → total - produced ≤ bits_restants br → total - produced < fuel →
      ∃ br2, decode_boucle (Noeud.mk s v Noeud.null Noeud.null 1) total fuel br produced
          (Noeud.mk s v Noeud.null Noeud.null 1) out =
          some (out ++ List.replicate (total - produced) s, br2) ∧
        bits_restants br2 + (total - produced) = bits_restants br := by
  induction fuel with
  | zero => intro br produced out _ _ _ h; omega
  | succ fuel ih =>
    intro br produced out hv hp hb hfuel
    simp only [decode_boucle]
    by_cases hlt : produced < total
    · rw [if_pos hlt]
      obtain ⟨r1, r2, r3, r4⟩ := br_read_bit_spec br hv (by omega)
      rw [if_neg (by omega)]
      simp only [Noeud.left, Noeud.right, Noeud.leaf, Noeud.c, ne_eq, not_true_eq_false,
        if_false, ite_self, one_ne_zero, not_false_eq_true, if_true]
      rw [Nat.mod_eq_of_lt (by omega)]
      obtain ⟨br2, e1, e2⟩ := ih (br_read_bit br).2 (produced + 1) (out ++ [s]) r3 (by omega)
        (by omega) (by omega)
      refine ⟨br2, ?_, by omega⟩
      rw [e1]
      have : total - produced = (total - (produced + 1)) + 1 := by omega
      rw [this, List.replicate_succ, List.append_assoc]
      rfl
    · rw [if_neg hlt]
      have : total - produced = 0 := by omega
      refine ⟨br, ?_, by omega⟩
      rw [this]
      simp

theorem table_repetee_relue (s n : Nat) (hs : s < 256) (hn : n < 2 ^ 64) :
    (fun i => if i < 256 then table_repetee s n i % 2 ^ 64 else 0) = table_repetee s n := by
  funext i
  simp only [table_repetee]
  by_cases h : i = s
  · subst h
    rw [if_pos hs, if_pos rfl, Nat.mod_eq_of_lt hn]
  · rw [if_neg h]
    simp

theorem compress_repete (s n : Nat) (hs : s < 256) (hn1 : 1 ≤ n) (hn2 : n < 2 ^ 64) :
    compress_file (List.replicate n s) =
      some (write_freq_header n (table_repetee s n) ++ List.replicate ((n + 7) / 8) 0) := by
  have hf : compter_frequences_fichier (List.replicate n s) = table_repetee s n := by
    rw [compter_repete, Nat.mod_eq_of_lt hn2]
  have htot : calcul_total (table_repetee s n) 256 = n := by
    rw [calcul_total_repete, if_pos hs, Nat.mod_eq_of_lt hn2]
  rw [compress_file_de _ _ _ _ hf htot (construire_repete s n hs (by omega)),
    if_neg (by omega), if_neg (by simp),
    charge_utile_repete _ s (by rw [generer_codes_feuille]; simp [ecrire]) n]
  rfl

theorem decode_repete (s n : Nat) (hn2 : n < 2 ^ 64) :
    ∃ br2, decode_boucle (Noeud.mk s n Noeud.null Noeud.null 1) n
        (8 * (List.replicate ((n + 7) / 8) 0).length + 1)
        (br_create (List.replicate ((n + 7) / 8) 0)) 0
        (Noeud.mk s n Noeud.null Noeud.null 1) [] = some (List.replicate n s, br2) ∧
      bits_restants br2 + n = 8 * ((n + 7) / 8) := by
  have hb : bits_restants (br_create (List.replicate ((n + 7) / 8) 0)) = 8 * ((n + 7) / 8) := by
    simp [bits_restants, br_create]
  obtain ⟨br2, e1, e2⟩ := decode_boucle_feuille s n n hn2
    (8 * (List.replicate ((n + 7) / 8) 0).length + 1)
    (br_create (List.replicate ((n + 7) / 8) 0)) 0 []
    (by simp [LecteurValide, br_create]) (Nat.zero_le _)
    (by rw [hb]; omega) (by rw [List.length_replicate]; omega)
  refine ⟨br2, ?_, ?_⟩
  · rw [e1]; simp
  · rw [hb] at e2; omega

theorem decompress_repete (s n : Nat) (hs : s < 256) (hn1 : 1 ≤ n) (hn2 : n < 2 ^ 64) :
    decompress_file
      (write_freq_header n (table_repetee s n) ++ List.replicate ((n + 7) / 8) 0) =
      some (List.replicate n s) := by
  have hT : construire_arbre_huffman
      (fun i => if i < 256 then table_repetee s n i % 2 ^ 64 else 0) =
      Noeud.mk s n Noeud.null Noeud.null 1 := by
    rw [table_repetee_relue s n hs hn2]
    exact construire_repete s n hs (by omega)
  obtain ⟨br2, e1, _⟩ := decode_repete s n hn2
  rw [decompress_file_de _ _ _ _ _ (read_write_freq_header n (table_repetee s n) _) hT,
    Nat.mod_eq_of_lt hn2, if_neg (by omega), if_neg (by simp), e1]
  rfl

/-- C5, for inputs shorter than `2^64` bytes: for every byte `s` and every `n` with
`1 ≤ n < 2^64`, compressing the input made of `n` copies of `s` produces the 2060-byte
header (total `n`, frequency of `s` equal to `n`, all other frequencies 0) followed by
exactly `ceil(n/8)` payload bytes that are all `0x00`; the tree is the single leaf of `s`;
decompressing that output yields exactly `n` copies of `s`, and the decoding loop consumes
exactly `n` bits, one per decoded symbol. -/
theorem C5_octet_repete (s n : Nat) (hs : s < 256) (hn1 : 1 ≤ n) (hn2 : n < 2 ^ 64) :
    compress_file (List.replicate n s) =
      some (write_freq_header n (table_repetee s n) ++ List.replicate ((n + 7) / 8) 0) ∧
    (write_freq_header n (table_repetee s n)).length = 2060 ∧
    construire_arbre_huffman (table_repetee s n) = Noeud.mk s n Noeud.null Noeud.null 1 ∧
    decompress_file
      (write_freq_header n (table_repetee s n) ++ List.replicate ((n + 7) / 8) 0) =
      some (List.replicate n s) ∧
    ∃ br2, decode_boucle (Noeud.mk s n Noeud.null Noeud.null 1) n
        (8 * (List.replicate ((n + 7) / 8) 0).length + 1)
        (br_create (List.replicate ((n + 7) / 8) 0)) 0
        (Noeud.mk s n Noeud.null Noeud.null 1) [] = some (List.replicate n s, br2) ∧
      bits_restants br2 + n = 8 * ((n + 7) / 8) :=
  ⟨compress_repete s n hs hn1 hn2, write_freq_header_length _ _,
    construire_repete s n hs (by omega), decompress_repete s n hs hn1 hn2,
    decode_repete s n hn2⟩

theorem C5_octet_repete_witness :
    (65 : Nat) < 256 ∧ 1 ≤ 4 ∧ 4 < 2 ^ 64 ∧
    (compress_file (List.replicate 4 65) =
      some (write_freq_header 4 (table_repetee 65 4) ++ List.replicate ((4 + 7) / 8) 0) ∧
    (write_freq_header 4 (table_repetee 65 4)).length = 2060 ∧
    construire_arbre_huffman (table_repetee 65 4) = Noeud.mk 65 4 Noeud.null Noeud.null 1 ∧
    decompress_file
      (write_freq_header 4 (table_repetee 65 4) ++ List.replicate ((4 + 7) / 8) 0) =
      some (List.replicate 4 65) ∧
    ∃ br2, decode_boucle (Noeud.mk 65 4 Noeud.null Noeud.null 1) 4
        (8 * (List.replicate ((4 + 7) / 8) 0).length + 1)
        (br_create (List.replicate ((4 + 7) / 8) 0)) 0
        (Noeud.mk 65 4 Noeud.null Noeud.null 1) [] = some (List.replicate 4 65, br2) ∧
      bits_restants br2 + 4 = 8 * ((4 + 7) / 8)) :=
  ⟨by decide, by decide, by decide, C5_octet_repete 65 4 (by decide) (by decide) (by decide)⟩

/-- C5 as stated fails for `n = 2^64`: the counter of the byte wraps to zero, so the input
made of `2^64` copies of the byte 65 is compressed to the 2060-byte header of the empty
input, not to a header with total `n` followed by `ceil(n/8)` payload bytes. -/
theorem C5_contre_exemple :
    compress_file (List.replicate (2 ^ 64) 65) =
      some ([72, 85, 70, 49] ++ List.replicate 2056 0) ∧
    compress_file (List.replicate (2 ^ 64) 65) ≠
      some (write_freq_header (2 ^ 64) (table_repetee 65 (2 ^ 64)) ++
        List.replicate ((2 ^ 64 + 7) / 8) 0) := by
  have hf : compter_frequences_fichier (List.replicate (2 ^ 64) 65) = fun _ => 0 := by
    rw [compter_repete, Nat.mod_self]
    funext k
    simp [table_repetee]
  have h1 : compress_file (List.replicate (2 ^ 64) 65) =
      some ([72, 85, 70, 49] ++ List.replicate 2056 0) := by
    rw [compress_file_de _ _ 0 (construire_arbre_huffman (fun _ => 0)) hf
      (calcul_total_zero 256) rfl, if_pos rfl, write_freq_header_zero]
  refine ⟨h1, ?_⟩
  rw [h1]
  intro h
  have h2 := congrArg List.length (Option.some.inj h)
  rw [List.length_append, List.length_append, write_freq_header_length, List.length_replicate,
    List.length_replicate] at h2
  norm_num at h2

/-! ## The budget of the decoding loop -/

theorem br_read_bit_fin (br : BitReader) (hv : LecteurValide br) (hb : bits_restants br = 0) :
    br_read_bit br = (-1, br) := by
  obtain ⟨h1, h2⟩ := hv
  unfold bits_restants at hb
  have hpos : br.bit_pos = -1 := by omega
  have hlen : br.f.length = 0 := by omega
  have hf : br.f = [] := List.length_eq_zero.mp hlen
  unfold br_read_bit
  simp only [hpos, hf]
  rfl

/-- The budget of the decoding loop is never exhausted: each pass reads one bit, and any
budget above the number of bits left gives the same result. -/
theorem decode_boucle_stable (root : Noeud) (total : Nat) (fuel k : Nat) :
    ∀ (br : BitReader) (produced : Nat) (cursor : Noeud) (out : List Nat),
      LecteurValide br → bits_restants br < fuel →
      decode_boucle root total (fuel + k) br produced cursor out =
        decode_boucle root total fuel br produced cursor out := by
  induction fuel with
  | zero => intro br _ _ _ _ h; omega
  | succ fuel ih =>
    intro br produced cursor out hv hb
    have e : fuel + 1 + k = (fuel + k) + 1 := by omega
    rw [e]
    simp only [decode_boucle]
    by_cases hlt : produced < total
    · rw [if_pos hlt, if_pos hlt]
      by_cases hz : bits_restants br = 0
      · rw [br_read_bit_fin br hv hz]
        simp
      · obtain ⟨r1, r2, r3, r4⟩ := br_read_bit_spec br hv (by omega)
        have hnn : ¬ (br_read_bit br).1 < 0 := by omega
        have hlt2 : bits_restants (br_read_bit br).2 < fuel := by omega
        simp only [hnn, if_false, ih _ _ _ _ r3 hlt2]
    · rw [if_neg hlt, if_neg hlt]

/-! ## Absent result, paths and occupied slots -/

/-- The builder returns the null pointer exactly for the all-zero table. -/
theorem construire_null_iff (freq_table : Nat → Nat) :
    construire_arbre_huffman freq_table = Noeud.null ↔ ∀ s, s < 256 → freq_table s = 0 := by
  constructor
  · intro h
    by_contra hn
    have hne : feuilles_de freq_table 256 ≠ [] := by
      intro e
      exact hn ((presents_vide_iff freq_table 256).mp e)
    have hF := construire_bon freq_table hne
    generalize construire_arbre_huffman freq_table = T at hF h
    exact Bon_ne_null hF.1 h
  · intro h
    exact construire_vide freq_table ((presents_vide_iff freq_table 256).mpr h)

/-- C11: assuming allocations succeed, `construire_arbre_huffman` returns the null pointer
if and only if all 256 entries of the frequency table are zero. -/
theorem C11_resultat_absent (freq_table : Nat → Nat) :
    construire_arbre_huffman freq_table = Noeud.null ↔ ∀ s, s < 256 → freq_table s = 0 :=
  construire_null_iff freq_table

theorem table_nulle_vide : ∀ s, s < 256 → (fun _ : Nat => (0 : Nat)) s = 0 :=
  fun _ _ => rfl

theorem C11_resultat_absent_witness :
    (construire_arbre_huffman (fun _ => 0) = Noeud.null ↔
      ∀ s, s < 256 → (fun _ : Nat => (0 : Nat)) s = 0) ∧
    construire_arbre_huffman (fun _ => 0) = Noeud.null ∧
    construire_arbre_huffman table_exemple ≠ Noeud.null :=
  ⟨C11_resultat_absent (fun _ => 0), (C11_resultat_absent (fun _ => 0)).mpr table_nulle_vide,
    fun h => absurd ((C11_resultat_absent table_exemple).mp h 65 (by decide)) (by decide)⟩

theorem Bon_symboles_lt (t : Noeud) (h : Bon t) : ∀ s ∈ symboles t, s < 256 := by
  induction t with
  | null => exact absurd h (by simp [Bon])
  | mk c f l r lf ihl ihr =>
    intro s hs
    simp only [symboles] at hs
    rcases h with ⟨_, _, h3, h4⟩ | ⟨h1, h2, h3⟩
    · rw [if_pos (by omega), List.mem_singleton] at hs
      rw [hs]; exact h4
    · rw [if_neg (by omega), List.mem_append] at hs
      rcases hs with e | e
      · exact ihl h2 s e
      · exact ihr h3 s e

theorem nodup_octets_length (l : List Nat) (hnd : l.Nodup) (hlt : ∀ s ∈ l, s < 256) :
    l.length ≤ 256 := by
  have hsub : l.toFinset ⊆ Finset.range 256 := by
    intro s hs
    rw [List.mem_toFinset] at hs
    exact Finset.mem_range.mpr (hlt s hs)
  have := Finset.card_le_card hsub
  rw [List.toFinset_card_of_nodup hnd, Finset.card_range] at this
  exact this

theorem chemins_profondeurs (t : Noeud) (d : Nat) :
    (chemins t).map (fun p => (p.1, d + p.2.length)) = profondeurs d t := by
  induction t generalizing d with
  | null => rfl
  | mk c f l r lf ihl ihr =>
    simp only [chemins, profondeurs]
    split
    · rfl
    · rw [List.map_append, List.map_map, List.map_map, ← ihl (d + 1), ← ihr (d + 1)]
      congr 1 <;>
      · apply List.map_congr_left
        intro p _
        simp only [Function.comp, List.length_cons, Prod.mk.injEq, true_and]
        omega

theorem chemins_caracteres (t : Noeud) :
    ∀ p ∈ chemins t, ∀ ch ∈ p.2, ch = '0' ∨ ch = '1' := by
  induction t with
  | null => intro p hp; simp [chemins] at hp
  | mk c f l r lf ihl ihr =>
    intro p hp ch hch
    simp only [chemins] at hp
    split at hp
    · rw [List.mem_singleton] at hp
      rw [hp] at hch
      simp at hch
    · rcases List.mem_append.mp hp with hp1 | hp1 <;>
        obtain ⟨q, hq, rfl⟩ := List.mem_map.mp hp1 <;>
        rcases List.mem_cons.mp hch with e | e
      · exact Or.inl e
      · exact ihl q hq ch e
      · exact Or.inr e
      · exact ihr q hq ch e

theorem chemins_non_vides (t : Noeud) (h : t.leaf = 0) : ∀ p ∈ chemins t, p.2 ≠ [] := by
  cases t with
  | null => intro p hp; simp [chemins] at hp
  | mk c f l r lf =>
    have hlf : lf = 0 := h
    intro p hp
    simp only [chemins] at hp
    rw [if_neg (by omega)] at hp
    rcases List.mem_append.mp hp with hp1 | hp1 <;>
      obtain ⟨q, _, rfl⟩ := List.mem_map.mp hp1 <;>
      exact List.cons_ne_nil _ _

/-- C12, for trees whose leaves carry pairwise distinct symbols: for every tree of the data
model (each node a leaf, or a node with two children) with distinct leaf symbols and an
internal root, `generer_codes` assigns to the symbol of each leaf exactly the root-to-leaf
path, `'0'` for a left descent and `'1'` for a right descent, so that the length of the
code is the depth of the leaf; for a tree whose root is itself a leaf it assigns that symbol
the one-character code `"0"`. -/
theorem C12_code_egal_chemin (t : Noeud) (hB : Bon t) (hnd : (symboles t).Nodup) :
    (t.leaf = 0 → ∀ s p, (s, p) ∈ chemins t →
      generer_codes t s = some p ∧ (s, p.length) ∈ profondeurs 0 t) ∧
    (t.leaf ≠ 0 → generer_codes t t.c = some ['0']) := by
  have hlen := nodup_octets_length _ hnd (Bon_symboles_lt t hB)
  constructor
  · intro hlf s p hp
    have h := (generer_codes_spec t hB hnd hlen s).1 p hp
    rw [if_neg (by omega)] at h
    refine ⟨h, ?_⟩
    rw [← chemins_profondeurs]
    exact List.mem_map.mpr ⟨(s, p), hp, by simp⟩
  · intro hlf
    cases t with
    | null => exact absurd hB (by simp [Bon])
    | mk c f l r lf =>
      have hlf2 : lf ≠ 0 := hlf
      have hp : (c, []) ∈ chemins (Noeud.mk c f l r lf) := by
        simp only [chemins]
        rw [if_pos hlf2]
        exact List.mem_singleton.mpr rfl
      have h := (generer_codes_spec _ hB hnd hlen c).1 [] hp
      rw [if_pos hlf] at h
      exact h

set_option maxRecDepth 1000000 in
theorem codes_exemple_interne :
    generer_codes (Noeud.mk 0 5 (Noeud.mk 0 2 (Noeud.mk 65 1 Noeud.null Noeud.null 1)
      (Noeud.mk 66 1 Noeud.null Noeud.null 1) 0) (Noeud.mk 67 3 Noeud.null Noeud.null 1) 0) 66
      = some ['0', '1'] := by
  decide

theorem C12_code_egal_chemin_witness :
    Bon (Noeud.mk 0 5 (Noeud.mk 0 2 (Noeud.mk 65 1 Noeud.null Noeud.null 1)
      (Noeud.mk 66 1 Noeud.null Noeud.null 1) 0) (Noeud.mk 67 3 Noeud.null Noeud.null 1) 0) ∧
    (symboles (Noeud.mk 0 5 (Noeud.mk 0 2 (Noeud.mk 65 1 Noeud.null Noeud.null 1)
      (Noeud.mk 66 1 Noeud.null Noeud.null 1) 0)
      (Noeud.mk 67 3 Noeud.null Noeud.null 1) 0)).Nodup ∧
    (66, ['0', '1']) ∈ chemins (Noeud.mk 0 5 (Noeud.mk 0 2 (Noeud.mk 65 1 Noeud.null Noeud.null 1)
      (Noeud.mk 66 1 Noeud.null Noeud.null 1) 0) (Noeud.mk 67 3 Noeud.null Noeud.null 1) 0) ∧
    generer_codes (Noeud.mk 0 5 (Noeud.mk 0 2 (Noeud.mk 65 1 Noeud.null Noeud.null 1)
      (Noeud.mk 66 1 Noeud.null Noeud.null 1) 0) (Noeud.mk 67 3 Noeud.null Noeud.null 1) 0) 66
      = some ['0', '1'] ∧
    (66, 2) ∈ profondeurs 0 (Noeud.mk 0 5 (Noeud.mk 0 2 (Noeud.mk 65 1 Noeud.null Noeud.null 1)
      (Noeud.mk 66 1 Noeud.null Noeud.null 1) 0) (Noeud.mk 67 3 Noeud.null Noeud.null 1) 0) :=
  have hB : Bon (Noeud.mk 0 5 (Noeud.mk 0 2 (Noeud.mk 65 1 Noeud.null Noeud.null 1)
      (Noeud.mk 66 1 Noeud.null Noeud.null 1) 0) (Noeud.mk 67 3 Noeud.null Noeud.null 1) 0) := by
    simp [Bon]
  have hnd : (symboles (Noeud.mk 0 5 (Noeud.mk 0 2 (Noeud.mk 65 1 Noeud.null Noeud.null 1)
      (Noeud.mk 66 1 Noeud.null Noeud.null 1) 0)
      (Noeud.mk 67 3 Noeud.null Noeud.null 1) 0)).Nodup := by decide
  have hp : (66, ['0', '1']) ∈ chemins (Noeud.mk 0 5
      (Noeud.mk 0 2 (Noeud.mk 65 1 Noeud.null Noeud.null 1)
      (Noeud.mk 66 1 Noeud.null Noeud.null 1) 0) (Noeud.mk 67 3 Noeud.null Noeud.null 1) 0) := by
    decide
  have h := (C12_code_egal_chemin _ hB hnd).1 rfl 66 ['0', '1'] hp
  ⟨hB, hnd, hp, h.1, h.2⟩

set_option maxRecDepth 1000000 in
theorem codes_doublon : generer_codes arbre_doublon 65 = some ['1'] := by
  decide

/-- C12 as stated fails on a tree in which two leaves carry the same symbol: the root is an
internal node, the left leaf has symbol 65 and path `"0"`, yet the slot of 65 holds `"1"`,
the path of the right leaf, because the table has one slot per symbol. -/
theorem C12_contre_exemple :
    arbre_doublon.leaf = 0 ∧ (65, ['0']) ∈ chemins arbre_doublon ∧
    generer_codes arbre_doublon 65 = some ['1'] ∧
    generer_codes arbre_doublon 65 ≠ some ['0'] := by
  refine ⟨rfl, by decide, codes_doublon, ?_⟩
  rw [codes_doublon]
  decide

/-! ## Writing a code string -/

theorem ecrire_bits_cons (bw : BitWriter) (b : Nat) (bits : List Nat) :
    ecrire_bits bw (b :: bits) = ecrire_bits (bw_write_bit bw b).2 bits := rfl

theorem bw_write_bits_valide (s : List Char) (hs : ∀ ch ∈ s, ch = '0' ∨ ch = '1') :
    ∀ bw : BitWriter,
      bw_write_bits_from_string bw s = (0, ecrire_bits bw (s.map bit_de)) := by
  induction s with
  | nil => intro bw; rfl
  | cons ch reste ih =>
    intro bw
    have ih2 := ih (fun x hx => hs x (List.mem_cons_of_mem _ hx))
    simp only [bw_write_bits_from_string, bw_write_bit_code, List.map_cons, ecrire_bits_cons]
    rcases hs ch (List.mem_cons_self _ _) with e | e
    · subst e
      simp only [if_pos trivial, ne_eq, not_true_eq_false, if_false]
      rw [ih2]
      rfl
    · subst e
      rw [if_neg (by decide), if_pos rfl]
      simp only [ne_eq, not_true_eq_false, if_false]
      rw [ih2]
      rfl

theorem bw_write_bits_invalide (s : List Char) (hs : ∃ ch ∈ s, ch ≠ '0' ∧ ch ≠ '1') :
    ∀ bw : BitWriter, (bw_write_bits_from_string bw s).1 = -1 := by
  induction s with
  | nil =>
    obtain ⟨ch, hch, _⟩ := hs
    simp at hch
  | cons c reste ih =>
    intro bw
    simp only [bw_write_bits_from_string, bw_write_bit_code]
    by_cases h0 : c = '0'
    · rw [if_pos h0]
      simp only [ne_eq, not_true_eq_false, if_false]
      apply ih
      obtain ⟨ch, hch, hne⟩ := hs
      rcases List.mem_cons.mp hch with e | e
      · exact absurd (e ▸ h0) hne.1
      · exact ⟨ch, e, hne⟩
    · rw [if_neg h0]
      by_cases h1 : c = '1'
      · rw [if_pos h1]
        simp only [ne_eq, not_true_eq_false, if_false]
        apply ih
        obtain ⟨ch, hch, hne⟩ := hs
        rcases List.mem_cons.mp hch with e | e
        · exact absurd (e ▸ h1) hne.2
        · exact ⟨ch, e, hne⟩
      · rw [if_neg h1]

/-- C19: assuming writes to the sink succeed, `bw_write_bits_from_string` returns an error
(the status `-1`) if and only if the string contains a character other than `'0'` or `'1'`;
when it returns success, the writer it leaves is the one obtained by calling `bw_write_bit`
once per character in order, with bit 0 for `'0'` and bit 1 for `'1'`. -/
theorem C19_ecriture_chaine (bw : BitWriter) (s : List Char) :
    ((bw_write_bits_from_string bw s).1 ≠ 0 ↔ ∃ ch ∈ s, ch ≠ '0' ∧ ch ≠ '1') ∧
    ((bw_write_bits_from_string bw s).1 = 0 ∨ (bw_write_bits_from_string bw s).1 = -1) ∧
    ((bw_write_bits_from_string bw s).1 = 0 →
      (bw_write_bits_from_string bw s).2 = ecrire_bits bw (s.map bit_de)) := by
  by_cases h : ∃ ch ∈ s, ch ≠ '0' ∧ ch ≠ '1'
  · have e := bw_write_bits_invalide s h bw
    refine ⟨⟨fun _ => h, fun _ => by rw [e]; decide⟩, Or.inr e, ?_⟩
    intro h0
    rw [e] at h0
    exact absurd h0 (by decide)
  · have hv : ∀ ch ∈ s, ch = '0' ∨ ch = '1' := by
      intro ch hch
      by_contra hn
      rw [not_or] at hn
      exact h ⟨ch, hch, hn⟩
    have e := bw_write_bits_valide s hv bw
    refine ⟨⟨fun hne => absurd (by rw [e]) hne, fun hex => absurd hex h⟩, Or.inl (by rw [e]), ?_⟩
    intro _
    rw [e]

set_option maxRecDepth 100000 in
theorem C19_ecriture_chaine_witness :
    (bw_write_bits_from_string (bw_create []) ['1', '0', '1']).1 = 0 ∧
    (bw_write_bits_from_string (bw_create []) ['1', '0', '1']).2 =
      ecrire_bits (bw_create []) (['1', '0', '1'].map bit_de) ∧
    ('x' ∈ ['1', 'x', '0'] ∧ 'x' ≠ '0' ∧ 'x' ≠ '1') ∧
    (bw_write_bits_from_string (bw_create []) ['1', 'x', '0']).1 ≠ 0 :=
  have h0 : (bw_write_bits_from_string (bw_create []) ['1', '0', '1']).1 = 0 := by decide
  ⟨h0, (C19_ecriture_chaine (bw_create []) ['1', '0', '1']).2.2 h0,
    ⟨by decide, by decide, by decide⟩,
    (C19_ecriture_chaine (bw_create []) ['1', 'x', '0']).1.mpr
      ⟨'x', by decide, by decide, by decide⟩⟩

/-! ## Occupied slots of the code table -/

theorem presents_iff (freq_table : Nat → Nat) (n s : Nat) :
    s ∈ presents freq_table n ↔ s < n ∧ 0 < freq_table s :=
  ⟨fun h => (presents_nodup freq_table n).2 s h, fun h => presents_mem freq_table n s h.1 h.2⟩

/-- The slots of the table built for a frequency table: the slot of `s` is occupied exactly
when `s` is a byte with a non-zero frequency, and an occupied slot holds a non-empty string
of characters `'0'` and `'1'`. -/
theorem generer_codes_construire (freq_table : Nat → Nat) (s : Nat) :
    (generer_codes (construire_arbre_huffman freq_table) s ≠ none ↔
      s < 256 ∧ 0 < freq_table s) ∧
    (∀ code, generer_codes (construire_arbre_huffman freq_table) s = some code →
      code ≠ [] ∧ ∀ ch ∈ code, ch = '0' ∨ ch = '1') := by
  by_cases hne : feuilles_de freq_table 256 = []
  · rw [construire_vide freq_table hne, generer_codes_null]
    have hz := (presents_vide_iff freq_table 256).mp hne
    refine ⟨⟨fun h => absurd rfl h, ?_⟩, ?_⟩
    · intro h
      have := hz s h.1
      omega
    · intro code h
      exact Option.noConfusion h
  · obtain ⟨hB, _, hperm, hnd, hlen⟩ := construire_bon freq_table hne
    generalize construire_arbre_huffman freq_table = T at hB hperm hnd hlen ⊢
    have hspec := generer_codes_spec T hB hnd hlen s
    have hmem : s ∈ symboles T ↔ s < 256 ∧ 0 < freq_table s := by
      rw [hperm.mem_iff]
      exact presents_iff freq_table 256 s
    by_cases hs : s ∈ symboles T
    · have hs2 := hs
      rw [← chemins_fst] at hs2
      obtain ⟨p, hp, hp2⟩ := List.mem_map.mp hs2
      have hp3 : (s, p.2) ∈ chemins T := by rw [← hp2]; exact hp
      have hcode := hspec.1 p.2 hp3
      refine ⟨⟨fun _ => hmem.mp hs, fun _ => by rw [hcode]; exact Option.noConfusion⟩, ?_⟩
      intro code h
      rw [hcode] at h
      have hc : code = if T.leaf ≠ 0 then ['0'] else p.2 := (Option.some.inj h).symm
      by_cases hlf : T.leaf ≠ 0
      · rw [if_pos hlf] at hc
        rw [hc]
        refine ⟨List.cons_ne_nil _ _, ?_⟩
        intro ch hch
        rw [List.mem_singleton] at hch
        exact Or.inl hch
      · rw [if_neg hlf] at hc
        rw [hc]
        exact ⟨chemins_non_vides T (by omega) (s, p.2) hp3, chemins_caracteres T (s, p.2) hp3⟩
    · have hnone := hspec.2 hs
      refine ⟨⟨fun h => absurd hnone h, fun h => absurd (hmem.mpr h) hs⟩, ?_⟩
      intro code h
      rw [hnone] at h
      exact Option.noConfusion h

theorem compter_aux (input : List Nat) :
    ∀ table : Nat → Nat, (∀ k, table k < 2 ^ 64) →
      List.foldl (fun table b => ecrire table b ((table b + 1) % 2 ^ 64)) table input =
        fun k => (table k + input.count k) % 2 ^ 64 := by
  induction input with
  | nil =>
    intro table ht
    funext k
    simp only [List.foldl_nil, List.count_nil, Nat.add_zero]
    exact (Nat.mod_eq_of_lt (ht k)).symm
  | cons b reste ih =>
    intro table ht
    rw [List.foldl_cons, ih]
    · funext k
      by_cases h : k = b
      · subst h
        simp only [ecrire, if_true, List.count_cons_self]
        omega
      · have hbk : ¬ (b == k) = true := by
          simp only [beq_iff_eq]
          exact fun e => h e.symm
        simp [ecrire, h, List.count_cons, hbk]
    · intro k
      simp only [ecrire]
      split
      · exact Nat.mod_lt _ (by norm_num)
      · exact ht k

/-- Each counter of `compter_frequences_fichier` is the number of occurrences of the byte
modulo `2^64`. -/
theorem compter_count (input : List Nat) (k : Nat) :
    compter_frequences_fichier input k = input.count k % 2 ^ 64 := by
  unfold compter_frequences_fichier
  rw [compter_aux input (fun _ => 0) (fun _ => by norm_num)]
  simp

theorem compress_boucle_reussit (codes : Nat → Option (List Char)) (input : List Nat)
    (h : ∀ b ∈ input, ∃ code, codes b = some code ∧ ∀ ch ∈ code, ch = '0' ∨ ch = '1') :
    ∀ bw : BitWriter, ∃ bw2, compress_boucle codes bw input = some bw2 := by
  induction input with
  | nil => intro bw; exact ⟨bw, rfl⟩
  | cons b reste ih =>
    intro bw
    obtain ⟨code, hc, hv⟩ := h b (List.mem_cons_self _ _)
    simp only [compress_boucle, hc, bw_write_bits_valide code hv]
    simp only [ne_eq, not_true_eq_false, if_false]
    exact ih (fun x hx => h x (List.mem_cons_of_mem _ hx)) _

/-- On an input of fewer than `2^64` bytes, every byte of the input has a code and
`compress_file` succeeds. -/
theorem compress_file_reussit (input : List Nat) (hoct : ∀ b ∈ input, b < 256)
    (hlen : input.length < 2 ^ 64) :
    (∀ b ∈ input, ∃ code,
      generer_codes (construire_arbre_huffman (compter_frequences_fichier input)) b = some code ∧
      ∀ ch ∈ code, ch = '0' ∨ ch = '1') ∧
    ∃ out, compress_file input = some out := by
  have hpos : ∀ b ∈ input, 0 < compter_frequences_fichier input b := by
    intro b hb
    rw [compter_count]
    have h1 : 0 < input.count b := List.count_pos_iff.mpr hb
    have h2 : input.count b ≤ input.length := List.count_le_length b input
    rw [Nat.mod_eq_of_lt (by omega)]
    exact h1
  have hcodes : ∀ b ∈ input, ∃ code,
      generer_codes (construire_arbre_huffman (compter_frequences_fichier input)) b = some code ∧
      ∀ ch ∈ code, ch = '0' ∨ ch = '1' := by
    intro b hb
    have hg := generer_codes_construire (compter_frequences_fichier input) b
    generalize generer_codes (construire_arbre_huffman (compter_frequences_fichier input)) b
      = o at hg ⊢
    cases o with
    | none => exact absurd (hg.1.mpr ⟨hoct b hb, hpos b hb⟩) (by simp)
    | some code => exact ⟨code, rfl, (hg.2 code rfl).2⟩
  refine ⟨hcodes, ?_⟩
  rw [compress_file_de input _ _ _ rfl rfl rfl]
  by_cases ht : calcul_total (compter_frequences_fichier input) 256 = 0
  · rw [if_pos ht]
    exact ⟨_, rfl⟩
  · rw [if_neg ht]
    cases input with
    | nil => exact absurd (calcul_total_zero 256) ht
    | cons b reste =>
      have hb : b ∈ b :: reste := List.mem_cons_self _ _
      have hnn : construire_arbre_huffman (compter_frequences_fichier (b :: reste))
          ≠ Noeud.null := by
        intro e
        have := (construire_null_iff (compter_frequences_fichier (b :: reste))).mp e b (hoct b hb)
        have := hpos b hb
        omega
      rw [if_neg hnn]
      obtain ⟨bw2, e⟩ := compress_boucle_reussit _ (b :: reste) hcodes (bw_create [])
      unfold charge_utile
      rw [e]
      exact ⟨_, rfl⟩

/-- C13, for inputs shorter than `2^64` bytes: for every frequency table, in the table
`generer_codes(construire_arbre_huffman(freq))` the slot of `s` is occupied if and only if
`s` is a byte with `freq[s] > 0`, and every occupied slot holds a non-empty string made of
the characters `'0'` and `'1'`; for an absent root every slot is empty; hence, for an input
of fewer than `2^64` bytes, every byte that occurs in the input has a code and
`compress_file` does not fail. -/
theorem C13_cases_occupees (freq_table : Nat → Nat) (input : List Nat)
    (hoct : ∀ b ∈ input, b < 256) (hlen : input.length < 2 ^ 64) :
    (∀ s, (generer_codes (construire_arbre_huffman freq_table) s ≠ none ↔
        s < 256 ∧ 0 < freq_table s) ∧
      (∀ code, generer_codes (construire_arbre_huffman freq_table) s = some code →
        code ≠ [] ∧ ∀ ch ∈ code, ch = '0' ∨ ch = '1')) ∧
    (∀ s, generer_codes Noeud.null s = none) ∧
    (∀ b ∈ input, ∃ code,
      generer_codes (construire_arbre_huffman (compter_frequences_fichier input)) b = some code ∧
      ∀ ch ∈ code, ch = '0' ∨ ch = '1') ∧
    ∃ out, compress_file input = some out :=
  ⟨generer_codes_construire freq_table, generer_codes_null,
    (compress_file_reussit input hoct hlen).1, (compress_file_reussit input hoct hlen).2⟩

theorem C13_cases_occupees_witness :
    (∀ b ∈ [65, 66], b < 256) ∧ [65, 66].length < 2 ^ 64 ∧
    ((∀ s, (generer_codes (construire_arbre_huffman table_exemple) s ≠ none ↔
        s < 256 ∧ 0 < table_exemple s) ∧
      (∀ code, generer_codes (construire_arbre_huffman table_exemple) s = some code →
        code ≠ [] ∧ ∀ ch ∈ code, ch = '0' ∨ ch = '1')) ∧
    (∀ s, generer_codes Noeud.null s = none) ∧
    (∀ b ∈ [65, 66], ∃ code,
      generer_codes (construire_arbre_huffman (compter_frequences_fichier [65, 66])) b
        = some code ∧
      ∀ ch ∈ code, ch = '0' ∨ ch = '1') ∧
    ∃ out, compress_file [65, 66] = some out) :=
  ⟨by decide, by decide, C13_cases_occupees table_exemple [65, 66] (by decide) (by decide)⟩

theorem compter_deborde :
    compter_frequences_fichier (List.replicate (2 ^ 64) 65 ++ [66]) = table_repetee 66 1 := by
  funext k
  rw [compter_count, List.count_append, List.count_replicate]
  simp only [table_repetee]
  by_cases h65 : k = 65
  · subst h65
    simp
  · have h1 : ¬ ((65 : Nat) == k) = true := by
      simp only [beq_iff_eq]
      exact fun e => h65 e.symm
    by_cases h66 : k = 66
    · subst h66
      simp
    · have h2 : ¬ ((66 : Nat) == k) = true := by
        simp only [beq_iff_eq]
        exact fun e => h66 e.symm
      simp [h1, h2, h66, List.count_cons]

theorem compress_boucle_sans_code (codes : Nat → Option (List Char)) (bw : BitWriter)
    (b : Nat) (n : Nat) (reste : List Nat) (h : codes b = none) :
    compress_boucle codes bw (List.replicate (n + 1) b ++ reste) = none := by
  rw [List.replicate_succ, List.cons_append]
  simp only [compress_boucle, h]

/-- C13 as stated fails on an input of `2^64 + 1` bytes: after `2^64` copies of the byte 65
its counter has wrapped to zero, so the byte 65 occurs in the input, has no code, and
`compress_file` takes the missing-code exit. -/
theorem C13_contre_exemple :
    65 ∈ List.replicate (2 ^ 64) 65 ++ [66] ∧
    (∀ b ∈ List.replicate (2 ^ 64) 65 ++ [66], b < 256) ∧
    generer_codes (construire_arbre_huffman
      (compter_frequences_fichier (List.replicate (2 ^ 64) 65 ++ [66]))) 65 = none ∧
    compress_file (List.replicate (2 ^ 64) 65 ++ [66]) = none := by
  have hT := construire_repete 66 1 (by norm_num) (by norm_num)
  have hc : generer_codes (Noeud.mk 66 1 Noeud.null Noeud.null 1) 65 = none := by
    rw [generer_codes_feuille]
    simp [ecrire]
  have e : (2 : Nat) ^ 64 = (2 ^ 64 - 1) + 1 := by norm_num
  refine ⟨?_, ?_, ?_, ?_⟩
  · rw [e, List.replicate_succ]
    exact List.mem_append_left _ (List.mem_cons_self _ _)
  · intro b hb
    rcases List.mem_append.mp hb with h | h
    · rw [(List.mem_replicate.mp h).2]
      norm_num
    · rw [List.mem_singleton.mp h]
      norm_num
  · rw [compter_deborde, hT]
    exact hc
  · have htot : calcul_total (table_repetee 66 1) 256 = 1 := by
      rw [calcul_total_repete]
      norm_num
    rw [compress_file_de _ _ _ _ compter_deborde htot hT, if_neg (by norm_num),
      if_neg (by simp)]
    unfold charge_utile
    rw [e, compress_boucle_sans_code _ _ 65 _ _ hc]
    rfl

/-! ## Layout of the header -/

theorem write_u64_be_getD (v j : Nat) (hj : j < 8) :
    (write_u64_be v).getD j 0 = v / 2 ^ (8 * (7 - j)) % 256 := by
  rw [write_u64_be_eq]
  interval_cases j <;> rfl

theorem write_freqs_getD (freq_table : Nat → Nat) (n : Nat) :
    ∀ s j, s < n → j < 8 →
      (write_freqs freq_table n).getD (8 * s + j) 0 = (write_u64_be (freq_table s)).getD j 0 := by
  induction n with
  | zero => intro s j hs; omega
  | succ n ih =>
    intro s j hs hj
    simp only [write_freqs]
    by_cases h : s < n
    · rw [List.getD_append _ _ _ _ (by rw [write_freqs_length]; omega)]
      exact ih s j h hj
    · have hsn : s = n := by omega
      subst hsn
      rw [List.getD_append_right _ _ _ _ (by rw [write_freqs_length]; omega), write_freqs_length]
      congr 1
      omega

/-- C14: for every total count `t` and every frequency table `f`, `write_freq_header` emits
exactly 2060 bytes: the 4 bytes `"HUF1"` at offset 0, then `t` as 8 bytes big-endian at
offset 4, then for each symbol `s` in ascending order `0..255` the value `f[s]` as 8 bytes
big-endian at offset `12 + 8*s` (byte `j` of a big-endian field holds the bits
`8*(7-j) .. 8*(7-j)+7` of the value). -/
theorem C14_disposition_entete (t : Nat) (f : Nat → Nat) :
    (write_freq_header t f).length = 2060 ∧
    (write_freq_header t f).take 4 = [72, 85, 70, 49] ∧
    ((write_freq_header t f).drop 4).take 8 = write_u64_be t ∧
    (∀ j, j < 8 → (write_freq_header t f).getD (4 + j) 0 = t / 2 ^ (8 * (7 - j)) % 256) ∧
    (∀ s j, s < 256 → j < 8 →
      (write_freq_header t f).getD (12 + 8 * s + j) 0 = f s / 2 ^ (8 * (7 - j)) % 256) := by
  have hm : magic.length = 4 := rfl
  have hu := write_u64_be_length t
  have e : write_freq_header t f = magic ++ (write_u64_be t ++ write_freqs f 256) := by
    simp [write_freq_header, List.append_assoc]
  refine ⟨write_freq_header_length t f, ?_, ?_, ?_, ?_⟩
  · rw [e, List.take_left' hm]
    rfl
  · rw [e, List.drop_left' hm, List.take_left' hu]
  · intro j hj
    rw [e, List.getD_append_right _ _ _ _ (by rw [hm]; omega), hm,
      List.getD_append _ _ _ _ (by rw [hu]; omega)]
    have : 4 + j - 4 = j := by omega
    rw [this]
    exact write_u64_be_getD t j hj
  · intro s j hs hj
    rw [e, List.getD_append_right _ _ _ _ (by rw [hm]; omega), hm,
      List.getD_append_right _ _ _ _ (by rw [hu]; omega), hu]
    have : 12 + 8 * s + j - 4 - 8 = 8 * s + j := by omega
    rw [this, write_freqs_getD f 256 s j hs hj]
    exact write_u64_be_getD (f s) j hj

theorem C14_disposition_entete_witness :
    (66 : Nat) < 256 ∧ (7 : Nat) < 8 ∧
    (write_freq_header 5 table_exemple).length = 2060 ∧
    (write_freq_header 5 table_exemple).take 4 = [72, 85, 70, 49] ∧
    (write_freq_header 5 table_exemple).getD (4 + 7) 0 = 5 / 2 ^ (8 * (7 - 7)) % 256 ∧
    (write_freq_header 5 table_exemple).getD (12 + 8 * 66 + 7) 0 =
      table_exemple 66 / 2 ^ (8 * (7 - 7)) % 256 :=
  have h := C14_disposition_entete 5 table_exemple
  ⟨by decide, by decide, h.1, h.2.1, h.2.2.2.1 7 (by decide),
    h.2.2.2.2 66 7 (by decide) (by decide)⟩

/-- C15: header round trip. For every 64-bit total `t` and every table `f` of 256 64-bit
frequencies, `read_freq_header` applied to the bytes produced by `write_freq_header(t, f)`
(followed by any further bytes) succeeds, returns exactly `t` and the 256 entries of `f`, and
consumes exactly the 2060 bytes of the header. -/
theorem C15_aller_retour_entete (t : Nat) (f : Nat → Nat) (reste : List Nat)
    (ht : t < 2 ^ 64) (hf : ∀ s, s < 256 → f s < 2 ^ 64) :
    (write_freq_header t f).length = 2060 ∧
    ∃ f2, read_freq_header (write_freq_header t f ++ reste) = some (t, f2, reste) ∧
      ∀ s, s < 256 → f2 s = f s := by
  refine ⟨write_freq_header_length t f, fun i => if i < 256 then f i % 2 ^ 64 else 0, ?_, ?_⟩
  · rw [read_write_freq_header, Nat.mod_eq_of_lt ht]
  · intro s hs
    simp only [if_pos hs]
    exact Nat.mod_eq_of_lt (hf s hs)

theorem table_exemple_bornee : ∀ s, s < 256 → table_exemple s < 2 ^ 64 := by
  intro s _
  simp only [table_exemple]
  split_ifs <;> norm_num

theorem C15_aller_retour_entete_witness :
    (5 : Nat) < 2 ^ 64 ∧ (∀ s, s < 256 → table_exemple s < 2 ^ 64) ∧
    (write_freq_header 5 table_exemple).length = 2060 ∧
    ∃ f2, read_freq_header (write_freq_header 5 table_exemple ++ [1, 2, 3]) =
        some (5, f2, [1, 2, 3]) ∧
      ∀ s, s < 256 → f2 s = table_exemple s :=
  ⟨by decide, table_exemple_bornee,
    C15_aller_retour_entete 5 table_exemple [1, 2, 3] (by decide) table_exemple_bornee⟩

/-! ## Success and failure of `read_freq_header` -/

theorem read_u64_be_some (f : List Nat) (h : 8 ≤ f.length) :
    ∃ v, read_u64_be f = some (v, f.drop 8) := by
  unfold read_u64_be
  rw [if_neg (by omega)]
  exact ⟨_, rfl⟩

theorem read_u64_be_none (f : List Nat) (h : f.length < 8) : read_u64_be f = none := by
  unfold read_u64_be
  rw [if_pos h]

theorem read_freqs_some (f : List Nat) (n : Nat) (h : 8 * n ≤ f.length) :
    ∃ table, read_freqs f n = some (table, f.drop (8 * n)) := by
  induction n with
  | zero => exact ⟨_, rfl⟩
  | succ n ih =>
    obtain ⟨table, e⟩ := ih (by omega)
    obtain ⟨v, e2⟩ := read_u64_be_some (f.drop (8 * n)) (by rw [List.length_drop]; omega)
    simp only [read_freqs, e, e2]
    rw [List.drop_drop]
    exact ⟨_, rfl⟩

theorem read_freqs_none (f : List Nat) (n : Nat) (h : f.length < 8 * n) :
    read_freqs f n = none := by
  induction n with
  | zero => omega
  | succ n ih =>
    by_cases h2 : f.length < 8 * n
    · simp only [read_freqs, ih h2]
    · obtain ⟨table, e⟩ := read_freqs_some f n (by omega)
      have e2 := read_u64_be_none (f.drop (8 * n)) (by rw [List.length_drop]; omega)
      simp only [read_freqs, e, e2]

/-- The header is read successfully exactly when the file holds 2060 bytes or more and
starts with the tag. -/
theorem read_freq_header_reussit_ssi (f : List Nat) :
    (∃ r, read_freq_header f = some r) ↔ 2060 ≤ f.length ∧ f.take 4 = magic := by
  unfold read_freq_header
  by_cases h4 : f.length < 4
  · rw [if_pos h4]
    constructor
    · rintro ⟨r, hr⟩
      exact Option.noConfusion hr
    · intro h; omega
  · rw [if_neg h4]
    by_cases hm : f.take 4 = magic
    · rw [if_neg (by simp [hm])]
      by_cases h12 : (f.drop 4).length < 8
      · rw [read_u64_be_none _ h12]
        constructor
        · rintro ⟨r, hr⟩
          exact Option.noConfusion hr
        · intro h
          rw [List.length_drop] at h12
          omega
      · obtain ⟨v, e⟩ := read_u64_be_some (f.drop 4) (by omega)
        rw [e]
        simp only
        by_cases hfr : ((f.drop 4).drop 8).length < 8 * 256
        · rw [read_freqs_none _ 256 hfr]
          constructor
          · rintro ⟨r, hr⟩
            exact Option.noConfusion hr
          · intro h
            rw [List.length_drop, List.length_drop] at hfr
            omega
        · obtain ⟨table, e2⟩ := read_freqs_some ((f.drop 4).drop 8) 256 (by omega)
          rw [e2]
          simp only
          constructor
          · intro _
            rw [List.length_drop, List.length_drop] at hfr
            exact ⟨by omega, hm⟩
          · intro _
            exact ⟨_, rfl⟩
    · rw [if_pos hm]
      constructor
      · rintro ⟨r, hr⟩
        exact Option.noConfusion hr
      · intro h
        exact absurd h.2 hm

theorem read_freq_header_echoue (f : List Nat)
    (h : ¬ (2060 ≤ f.length ∧ f.take 4 = magic)) : read_freq_header f = none := by
  cases hr : read_freq_header f with
  | none => rfl
  | some r => exact absurd ((read_freq_header_reussit_ssi f).mp ⟨r, hr⟩) h

/-- C16: `read_freq_header` succeeds if and only if the input holds at least 2060 bytes and
its first four bytes are exactly `"HUF1"`; it fails whenever one of the four tag bytes
differs, and whenever the input ends before the tag, the total count or any of the 256
frequencies has been fully read, that is whenever the input has fewer than 2060 bytes. -/
theorem C16_lecture_entete (f : List Nat) :
    ((∃ r, read_freq_header f = some r) ↔
      2060 ≤ f.length ∧ f.take 4 = [72, 85, 70, 49]) ∧
    ((∃ i, i < 4 ∧ f[i]? ≠ [72, 85, 70, 49][i]?) → read_freq_header f = none) ∧
    (f.length < 2060 → read_freq_header f = none) := by
  refine ⟨read_freq_header_reussit_ssi f, ?_, ?_⟩
  · rintro ⟨i, hi, hne⟩
    apply read_freq_header_echoue
    rintro ⟨_, hm⟩
    apply hne
    have := congrArg (fun l : List Nat => l[i]?) hm
    simp only [List.getElem?_take, if_pos hi] at this
    exact this
  · intro h
    apply read_freq_header_echoue
    rintro ⟨h2, _⟩
    omega

theorem write_freq_header_tag (t : Nat) (f : Nat → Nat) :
    (write_freq_header t f).take 4 = [72, 85, 70, 49] := by
  have hm : magic.length = 4 := rfl
  have e : write_freq_header t f = magic ++ (write_u64_be t ++ write_freqs f 256) := by
    simp [write_freq_header, List.append_assoc]
  rw [e, List.take_left' hm]
  rfl

theorem C16_lecture_entete_witness :
    ((1 : Nat) < 4 ∧ ([72, 0, 70, 49, 9] : List Nat)[1]? ≠ [72, 85, 70, 49][1]?) ∧
    read_freq_header [72, 0, 70, 49, 9] = none ∧
    ([72, 85, 70, 49, 9] : List Nat).length < 2060 ∧
    read_freq_header [72, 85, 70, 49, 9] = none ∧
    ∃ r, read_freq_header (write_freq_header 5 table_exemple) = some r :=
  ⟨⟨by decide, by decide⟩,
    (C16_lecture_entete [72, 0, 70, 49, 9]).2.1 ⟨1, by decide, by decide⟩,
    by decide,
    (C16_lecture_entete [72, 85, 70, 49, 9]).2.2 (by decide),
    (C16_lecture_entete (write_freq_header 5 table_exemple)).1.mpr
      ⟨by rw [write_freq_header_length], write_freq_header_tag 5 table_exemple⟩⟩

/-! ## Bits written one by one -/

theorem ecrire_bits_append (bw : BitWriter) (l : List Nat) (b : Nat) :
    ecrire_bits bw (l ++ [b]) = (bw_write_bit (ecrire_bits bw l) b).2 := by
  simp [ecrire_bits, List.foldl_append]

theorem un_bit_le (b : Nat) : un_bit b ≤ 1 := by
  unfold un_bit
  split <;> omega

theorem somme_msb_append (l : List Nat) (b : Nat) :
    ∀ j, somme_msb j (l ++ [b]) = somme_msb j l + un_bit b * 2 ^ (7 - (j + l.length)) := by
  induction l with
  | nil => intro j; simp [somme_msb]
  | cons a l ih =>
    intro j
    have e : j + 1 + l.length = j + (l.length + 1) := by omega
    show un_bit a * 2 ^ (7 - j) + somme_msb (j + 1) (l ++ [b]) = _
    rw [ih (j + 1), e, somme_msb, List.length_cons]
    omega

theorem somme_msb_multiple (l : List Nat) :
    ∀ j, j + l.length ≤ 8 → ∃ a, somme_msb j l = 2 ^ (8 - (j + l.length)) * a := by
  induction l with
  | nil => intro j _; exact ⟨0, by simp [somme_msb]⟩
  | cons b l ih =>
    intro j hj
    simp only [List.length_cons] at hj
    obtain ⟨a, ha⟩ := ih (j + 1) (by omega)
    refine ⟨un_bit b * 2 ^ l.length + a, ?_⟩
    simp only [somme_msb, ha, List.length_cons]
    have e1 : j + 1 + l.length = j + (l.length + 1) := by omega
    have e2 : 7 - j = (8 - (j + (l.length + 1))) + l.length := by omega
    rw [e1, e2, pow_add]
    ring

/-- One more bit on a writer whose buffer holds `c` pending bits: the new bit lands at
position `7 - c`, below all the pending ones. -/
theorem buffer_ou (pending : List Nat) (b : Nat) (hc : pending.length < 8) :
    somme_msb 0 pending ||| ((un_bit b <<< (7 - pending.length)) % 256) =
      somme_msb 0 (pending ++ [b]) := by
  obtain ⟨a, ha⟩ := somme_msb_multiple pending 0 (by omega)
  have hb := un_bit_le b
  have hlt : un_bit b * 2 ^ (7 - pending.length) < 2 ^ (8 - (0 + pending.length)) := by
    have e : 8 - (0 + pending.length) = (7 - pending.length) + 1 := by omega
    rw [e, pow_succ]
    have : 0 < 2 ^ (7 - pending.length) := Nat.pow_pos (by norm_num)
    nlinarith
  have h256 : un_bit b * 2 ^ (7 - pending.length) < 256 := by
    have h7 : (2 : Nat) ^ (7 - pending.length) ≤ 2 ^ 7 :=
      Nat.pow_le_pow_right (by norm_num) (by omega)
    have : un_bit b * 2 ^ (7 - pending.length) ≤ 1 * 2 ^ 7 := Nat.mul_le_mul hb h7
    omega
  rw [somme_msb_append, Nat.zero_add, Nat.shiftLeft_eq, Nat.mod_eq_of_lt h256, ha,
    ← Nat.mul_add_lt_is_or hlt]

theorem bw_write_bit_etat (bw : BitWriter) (b : Nat) :
    (bw_write_bit bw b).2 =
      if bw.bit_count + 1 = 8 then
        { f := bw.f ++ [bw.buffer ||| ((un_bit b <<< (7 - bw.bit_count)) % 256)],
          buffer := 0, bit_count := 0 }
      else
        { f := bw.f, buffer := bw.buffer ||| ((un_bit b <<< (7 - bw.bit_count)) % 256),
          bit_count := bw.bit_count + 1 } := by
  simp only [bw_write_bit, un_bit]
  split <;> rfl

theorem etat_apres_pas (l : List Nat) (b : Nat) (bw : BitWriter) (h : EtatApres l bw) :
    EtatApres (l ++ [b]) (bw_write_bit bw b).2 := by
  obtain ⟨h1, h2, h3, h4⟩ := h
  have hq : 8 * (l.length / 8) ≤ l.length := Nat.mul_div_le _ _
  have hpl : (l.drop (8 * (l.length / 8))).length = l.length % 8 := by
    rw [List.length_drop]
    omega
  have hbuf : bw.buffer ||| ((un_bit b <<< (7 - bw.bit_count)) % 256) =
      somme_msb 0 (l.drop (8 * (l.length / 8)) ++ [b]) := by
    rw [h4, h1, ← hpl]
    exact buffer_ou _ b (by rw [hpl]; omega)
  have hdrop : (l ++ [b]).drop (8 * (l.length / 8)) = l.drop (8 * (l.length / 8)) ++ [b] :=
    List.drop_append_of_le_length hq
  have hanc : ∀ i, i < l.length / 8 →
      ((l ++ [b]).drop (8 * i)).take 8 = (l.drop (8 * i)).take 8 := by
    intro i hi
    rw [List.drop_append_of_le_length (by omega),
      List.take_append_of_le_length (by rw [List.length_drop]; omega)]
  rw [bw_write_bit_etat, hbuf]
  unfold EtatApres
  rw [List.length_append, List.length_singleton]
  by_cases h8 : bw.bit_count + 1 = 8
  · rw [if_pos h8]
    have hq2 : (l.length + 1) / 8 = l.length / 8 + 1 := by omega
    simp only [hq2]
    refine ⟨by omega, by rw [List.length_append, h2, List.length_singleton], ?_, ?_⟩
    · intro i hi
      by_cases hi2 : i < l.length / 8
      · rw [List.getD_append _ _ _ _ (by omega), h3 i hi2, hanc i hi2]
      · have hi3 : i = l.length / 8 := by omega
        subst hi3
        rw [List.getD_append_right _ _ _ _ (by omega), h2, Nat.sub_self, hdrop,
          List.take_of_length_le (by rw [List.length_append, hpl, List.length_singleton]; omega)]
        rfl
    · rw [List.drop_eq_nil_of_le (by rw [List.length_append, List.length_singleton]; omega)]
      rfl
  · rw [if_neg h8]
    have hq2 : (l.length + 1) / 8 = l.length / 8 := by omega
    simp only [hq2]
    refine ⟨by omega, h2, ?_, ?_⟩
    · intro i hi
      rw [h3 i hi, hanc i hi]
    · rw [hdrop]

/-- The state of a fresh writer after any sequence of bits. -/
theorem etat_apres_ecrire (bits : List Nat) : EtatApres bits (ecrire_bits (bw_create []) bits) := by
  induction bits using List.reverseRecOn with
  | nil =>
    refine ⟨rfl, rfl, ?_, rfl⟩
    intro i hi
    simp at hi
  | append_singleton l b ih =>
    rw [ecrire_bits_append]
    exact etat_apres_pas l b _ ih

theorem somme_msb_somme (l : List Nat) :
    ∀ k, somme_msb k l =
      ∑ j ∈ Finset.range l.length, un_bit (l.getD j 0) * 2 ^ (7 - (k + j)) := by
  induction l with
  | nil => intro k; simp [somme_msb]
  | cons b l ih =>
    intro k
    rw [List.length_cons, Finset.sum_range_succ', somme_msb, ih (k + 1)]
    simp only [List.getD_cons_succ, List.getD_cons_zero, Nat.add_zero]
    rw [Nat.add_comm]
    congr 1
    apply Finset.sum_congr rfl
    intro j _
    have : k + 1 + j = k + (j + 1) := by omega
    rw [this]

theorem getD_tranche (bits : List Nat) (i j : Nat) (hj : j < 8) :
    ((bits.drop (8 * i)).take 8).getD j 0 = bits.getD (8 * i + j) 0 := by
  rw [List.getD_eq_getElem?_getD, List.getD_eq_getElem?_getD, List.getElem?_take, if_pos hj,
    List.getElem?_drop]

/-- C17: for every sequence of bits `b_0..b_(n-1)` written one by one with `bw_write_bit`
to a fresh writer (no flush), the sink holds exactly `floor(n/8)` bytes, byte `i` being the
sum over `j` in `0..7` of `b_(8i+j) * 2^(7-j)` (first bit written in the most significant
position), and the pending bit count of the writer is `n mod 8`, within `0..7`. -/
theorem C17_bits_ecrits (bits : List Nat) :
    (ecrire_bits (bw_create []) bits).f.length = bits.length / 8 ∧
    (∀ i, i < bits.length / 8 →
      (ecrire_bits (bw_create []) bits).f.getD i 0 =
        ∑ j ∈ Finset.range 8, un_bit (bits.getD (8 * i + j) 0) * 2 ^ (7 - j)) ∧
    (ecrire_bits (bw_create []) bits).bit_count = bits.length % 8 ∧
    (ecrire_bits (bw_create []) bits).bit_count < 8 := by
  obtain ⟨h1, h2, h3, _⟩ := etat_apres_ecrire bits
  refine ⟨h2, ?_, h1, by rw [h1]; exact Nat.mod_lt _ (by norm_num)⟩
  intro i hi
  have hlen : ((bits.drop (8 * i)).take 8).length = 8 := by
    rw [List.length_take, List.length_drop]
    omega
  rw [h3 i hi, somme_msb_somme, hlen]
  apply Finset.sum_congr rfl
  intro j hj
  rw [getD_tranche bits i j (Finset.mem_range.mp hj), Nat.zero_add]

/-! ## Flushing the pending bits -/

/-- C18: the flush of a writer holding the single pending bit `1` writes the byte `0`, where
the pending bits in write order from the most significant position downward give `128`:
`bw_write_bit` has already put the bit at position 7 and `bw_write_flush` shifts the buffer
left again by `8 - bit_count`. The flush does write one byte and empty the writer, and it
writes nothing when no bit is pending. -/
theorem C18_vidange_bit_un :
    ecrire_bits (bw_create []) [1] = { f := [], buffer := 128, bit_count := 1 } ∧
    bw_write_flush (ecrire_bits (bw_create []) [1]) = { f := [0], buffer := 0, bit_count := 0 } ∧
    (∑ j ∈ Finset.range 1, un_bit ([1].getD j 0) * 2 ^ (7 - j)) = 128 ∧
    bw_write_flush (bw_create []) = bw_create [] := by
  refine ⟨rfl, rfl, by decide, rfl⟩

/-! ## Bits read one by one -/

theorem br_read_bit_recharge (br : BitReader) (b : Nat) (reste : List Nat)
    (hp : br.bit_pos = -1) (hf : br.f = b :: reste) :
    br_read_bit br = (((b >>> 7 &&& 1 : Nat) : Int), { f := reste, buffer := b, bit_pos := 6 }) := by
  unfold br_read_bit
  simp only [hp, hf]
  rfl

theorem br_read_bit_courant (br : BitReader) (r : Nat) (hr : r ≤ 7) (hp : br.bit_pos = (r : Int)) :
    br_read_bit br =
      (((br.buffer >>> r &&& 1 : Nat) : Int), { br with bit_pos := (r : Int) - 1 }) := by
  unfold br_read_bit
  have hneg : ¬ (br.bit_pos < 0) := by omega
  simp only [if_neg hneg]
  rw [hp, Int.toNat_ofNat]

theorem br_read_bit_vide (br : BitReader) (hp : br.bit_pos = -1) (hf : br.f = []) :
    br_read_bit br = (-1, br) := by
  unfold br_read_bit
  simp only [hp, hf]
  rfl

/-- The reader after `m` reads of a file of at least `m` bits, and the bit the next read
returns when the file has more than `m` bits. -/
theorem apres_lectures_etat (B : List Nat) (m : Nat) (hm : m ≤ 8 * B.length) :
    (apres_lectures m (br_create B)).f = B.drop ((m + 7) / 8) ∧
    (apres_lectures m (br_create B)).bit_pos = (if m % 8 = 0 then -1 else 7 - ((m % 8 : Nat) : Int)) ∧
    (m % 8 ≠ 0 → (apres_lectures m (br_create B)).buffer = B.getD (m / 8) 0) := by
  induction m with
  | zero => exact ⟨rfl, rfl, fun h => absurd rfl h⟩
  | succ m ih =>
    obtain ⟨h1, h2, h3⟩ := ih (by omega)
    simp only [apres_lectures]
    by_cases h0 : m % 8 = 0
    · rw [if_pos h0] at h2
      have hq : (m + 7) / 8 = m / 8 := by omega
      have hlt : m / 8 < B.length := by omega
      rw [hq, List.drop_eq_getElem_cons hlt] at h1
      rw [br_read_bit_recharge _ _ _ h2 h1]
      have e1 : (m + 1 + 7) / 8 = m / 8 + 1 := by omega
      have e2 : (m + 1) % 8 = 1 := by omega
      have e3 : (m + 1) / 8 = m / 8 := by omega
      refine ⟨by rw [e1], ?_, ?_⟩
      · rw [e2]; rfl
      · intro _
        rw [e3, List.getD_eq_getElem _ _ hlt]
    · rw [if_neg h0] at h2
      have hp : (apres_lectures m (br_create B)).bit_pos = ((7 - m % 8 : Nat) : Int) := by
        rw [h2]; omega
      rw [br_read_bit_courant _ (7 - m % 8) (by omega) hp]
      have e1 : (m + 1 + 7) / 8 = (m + 7) / 8 := by omega
      refine ⟨by rw [e1]; exact h1, ?_, ?_⟩
      · show ((7 - m % 8 : Nat) : Int) - 1 = _
        by_cases h7 : m % 8 = 7
        · have : (m + 1) % 8 = 0 := by omega
          rw [if_pos this]; omega
        · have : (m + 1) % 8 ≠ 0 := by omega
          rw [if_neg this]; omega
      · intro hne
        have e3 : (m + 1) / 8 = m / 8 := by omega
        rw [e3]
        exact h3 h0

theorem apres_lectures_bit (B : List Nat) (m : Nat) (hm : m < 8 * B.length) :
    (br_read_bit (apres_lectures m (br_create B))).1 =
      ((B.getD (m / 8) 0 >>> (7 - m % 8) &&& 1 : Nat) : Int) := by
  obtain ⟨h1, h2, h3⟩ := apres_lectures_etat B m (by omega)
  by_cases h0 : m % 8 = 0
  · rw [if_pos h0] at h2
    have hq : (m + 7) / 8 = m / 8 := by omega
    have hlt : m / 8 < B.length := by omega
    rw [hq, List.drop_eq_getElem_cons hlt] at h1
    rw [br_read_bit_recharge _ _ _ h2 h1, h0, List.getD_eq_getElem _ _ hlt]
  · rw [if_neg h0] at h2
    have hp : (apres_lectures m (br_create B)).bit_pos = ((7 - m % 8 : Nat) : Int) := by
      rw [h2]; omega
    rw [br_read_bit_courant _ (7 - m % 8) (by omega) hp, h3 h0]

theorem apres_lectures_fin (B : List Nat) (k : Nat) :
    apres_lectures (8 * B.length + k) (br_create B) = apres_lectures (8 * B.length) (br_create B) ∧
    br_read_bit (apres_lectures (8 * B.length + k) (br_create B)) =
      (-1, apres_lectures (8 * B.length) (br_create B)) := by
  obtain ⟨h1, h2, _⟩ := apres_lectures_etat B (8 * B.length) (le_refl _)
  have hq : (8 * B.length + 7) / 8 = B.length := by omega
  have h0 : 8 * B.length % 8 = 0 := by omega
  rw [hq, List.drop_length] at h1
  rw [if_pos h0] at h2
  have hfin := br_read_bit_vide _ h2 h1
  induction k with
  | zero => exact ⟨rfl, hfin⟩
  | succ k ih =>
    have e : 8 * B.length + (k + 1) = (8 * B.length + k) + 1 := by omega
    have hs : apres_lectures (8 * B.length + (k + 1)) (br_create B) =
        apres_lectures (8 * B.length) (br_create B) := by
      rw [e]
      simp only [apres_lectures]
      rw [ih.2]
    exact ⟨hs, by rw [hs]; exact hfin⟩

/-- C20: for every byte sequence `B` read through a fresh reader, the `m`-th call of
`br_read_bit` (counted from 0) returns bit `7 - m mod 8` of byte `B[m div 8]` for every
`m < 8 * |B|` (each byte is delivered most significant bit first), and every call with
`m ≥ 8 * |B|` returns the end-of-stream signal `-1`. -/
theorem C20_lecture_bits (B : List Nat) (m : Nat) :
    (m < 8 * B.length →
      (br_read_bit (apres_lectures m (br_create B))).1 =
        ((B.getD (m / 8) 0 / 2 ^ (7 - m % 8) % 2 : Nat) : Int)) ∧
    (8 * B.length ≤ m → (br_read_bit (apres_lectures m (br_create B))).1 = -1) := by
  constructor
  · intro hm
    rw [apres_lectures_bit B m hm, Nat.shiftRight_eq_div_pow, Nat.and_one_is_mod]
  · intro hm
    obtain ⟨k, rfl⟩ := Nat.exists_eq_add_of_le hm
    rw [(apres_lectures_fin B k).2]

set_option maxRecDepth 100000 in
/-- The sixteen bits of the file `[0xA5, 0x01]` in reading order, then the end of stream. -/
theorem lecture_exemple :
    (List.range 18).map (fun m => (br_read_bit (apres_lectures m (br_create [165, 1]))).1) =
      [1, 0, 1, 0, 0, 1, 0, 1, 0, 0, 0, 0, 0, 0, 0, 1, -1, -1] := by
  decide

/-! ## Frame of the two queue operations -/

/-- C26: `inserer_tas` and `extraire_min` change the contents of the queue only by the node
concerned. After a successful `inserer_tas` of `n` the multiset of queued nodes is the
previous one plus `n` and the size is one larger; after `extraire_min` on a non-empty queue
the multiset is the previous one minus the returned node, which was in it, and the size is
one smaller; `extraire_min` on an empty queue leaves the queue unchanged. -/
theorem C26_contenu_du_tas (tas : TasMin) (n : Noeud) :
    ((inserer_tas tas n).1 = 0 →
      contenu (inserer_tas tas n).2 = n ::ₘ contenu tas ∧
      taille_tas (inserer_tas tas n).2 = taille_tas tas + 1) ∧
    (taille_tas tas ≠ 0 →
      (extraire_min tas).1 ∈ contenu tas ∧
      contenu (extraire_min tas).2 = (contenu tas).erase (extraire_min tas).1 ∧
      taille_tas (extraire_min tas).2 + 1 = taille_tas tas) ∧
    (taille_tas tas = 0 → (extraire_min tas).2 = tas) := by
  refine ⟨?_, ?_, ?_⟩
  · intro h
    have hn : n ≠ Noeud.null := by
      intro e
      rw [inserer_tas_code, if_pos e] at h
      exact absurd h (by decide)
    exact ⟨inserer_tas_contenu tas n hn, inserer_tas_taille tas n hn⟩
  · intro h
    have hc := extraire_min_contenu tas h
    have ht := extraire_min_taille tas
    unfold taille_tas at h ⊢
    refine ⟨?_, ?_, by omega⟩
    · rw [hc]; exact Multiset.mem_cons_self _ _
    · rw [hc, Multiset.erase_cons_head]
  · intro h
    unfold taille_tas at h
    simp [extraire_min, h]

/-! ## Leaves of the returned tree -/

theorem feuilles_freq_table (freq_table : Nat → Nat) (t : Noeud)
    (h : FeuillesTable freq_table t) :
    feuilles_freq t = (symboles t).map (fun s => (s, freq_table s)) := by
  induction t with
  | null => rfl
  | mk c f l r lf ihl ihr =>
    simp only [feuilles_freq, symboles]
    simp only [FeuillesTable] at h
    by_cases hlf : lf ≠ 0
    · rw [if_pos hlf] at h
      rw [if_pos hlf, if_pos hlf, h]
      rfl
    · rw [if_neg hlf] at h
      rw [if_neg hlf, if_neg hlf, ihl h.1, ihr h.2, List.map_append]

theorem Bon_symboles_non_vide (t : Noeud) (h : Bon t) : symboles t ≠ [] := by
  induction t with
  | null => exact absurd h (by simp [Bon])
  | mk c f l r lf ihl ihr =>
    simp only [symboles]
    rcases h with ⟨_, _, h3, _⟩ | ⟨h1, h2, _⟩
    · rw [if_pos (by omega)]
      exact List.cons_ne_nil _ _
    · rw [if_neg (by omega)]
      intro e
      exact ihl h2 (List.append_eq_nil.mp e).1

/-- A well-shaped tree with a single leaf symbol is that leaf. -/
theorem Bon_un_symbole (t : Noeud) (h : Bon t) (s : Nat) (hs : symboles t = [s]) :
    t = Noeud.mk s t.freq Noeud.null Noeud.null 1 := by
  cases t with
  | null => exact absurd h (by simp [Bon])
  | mk c f l r lf =>
    rcases h with ⟨h1, h2, h3, _⟩ | ⟨h1, h2, h3⟩
    · subst h1 h2 h3
      simp only [symboles] at hs
      rw [if_pos (by decide)] at hs
      have : c = s := by simpa using hs
      subst this
      rfl
    · exfalso
      simp only [symboles] at hs
      rw [if_neg (by omega)] at hs
      have h4 := congrArg List.length hs
      rw [List.length_append, List.length_singleton] at h4
      have hl := List.length_pos.mpr (Bon_symboles_non_vide l h2)
      have hr := List.length_pos.mpr (Bon_symboles_non_vide r h3)
      omega

theorem liste_un_element (l : List Nat) (s : Nat) (hnd : l.Nodup) (hs : s ∈ l)
    (hall : ∀ x ∈ l, x = s) : l = [s] := by
  cases l with
  | nil => exact absurd hs (List.not_mem_nil s)
  | cons a l =>
    have ha : a = s := hall a (List.mem_cons_self _ _)
    subst ha
    cases l with
    | nil => rfl
    | cons b l =>
      exfalso
      have hb : b = a := hall b (List.mem_cons_of_mem _ (List.mem_cons_self _ _))
      subst hb
      exact (List.nodup_cons.mp hnd).1 (List.mem_cons_self _ _)

theorem FeuillesTable_racine (freq_table : Nat → Nat) (t : Noeud)
    (h : FeuillesTable freq_table t) (hlf : t.leaf ≠ 0) : t.freq = freq_table t.c := by
  cases t with
  | null => exact absurd rfl hlf
  | mk c f l r lf =>
    have hlf2 : lf ≠ 0 := hlf
    simp only [FeuillesTable] at h
    rw [if_pos hlf2] at h
    exact h

/-- The leaves of the returned tree, with their frequencies, and the single-symbol case. -/
theorem construire_feuilles (freq_table : Nat → Nat)
    (hnz : ∃ s, s < 256 ∧ 0 < freq_table s) :
    (feuilles_freq (construire_arbre_huffman freq_table)).Perm
      ((symboles_presents freq_table).map (fun s => (s, freq_table s))) ∧
    (∀ s, s < 256 → (∀ k, k < 256 → k ≠ s → freq_table k = 0) →
      construire_arbre_huffman freq_table =
        Noeud.mk s (freq_table s) Noeud.null Noeud.null 1) := by
  have hF := construire_bon freq_table (feuilles_de_non_vide freq_table hnz)
  generalize construire_arbre_huffman freq_table = T at hF
  obtain ⟨hB, hT, hP, hN, _⟩ := hF
  constructor
  · rw [feuilles_freq_table freq_table T hT]
    exact (hP.trans (presents_perm freq_table 256)).map _
  · intro s hs hz
    obtain ⟨s0, hs0, hf0⟩ := hnz
    have e0 : s0 = s := by
      by_contra hne
      have := hz s0 hs0 hne
      omega
    subst e0
    have hmem : s0 ∈ symboles T := hP.mem_iff.mpr (presents_mem freq_table 256 s0 hs hf0)
    have hall : ∀ x ∈ symboles T, x = s0 := by
      intro x hx
      have hx2 := (presents_iff freq_table 256 x).mp (hP.mem_iff.mp hx)
      by_contra hne
      have := hz x hx2.1 hne
      omega
    have hsym := liste_un_element (symboles T) s0 hN hmem hall
    have hT1 := Bon_un_symbole T hB s0 hsym
    have hfr : T.freq = freq_table T.c := FeuillesTable_racine freq_table T hT (by rw [hT1]; exact Nat.one_ne_zero)
    have hc : T.c = s0 := by rw [hT1]; rfl
    rw [hT1, hfr, hc]

/-- C24: for every frequency table with at least one non-zero entry, the leaves of the tree
returned by `construire_arbre_huffman` are exactly the symbols `s` with `freq[s] > 0`, each
in exactly one leaf, whose frequency is `freq[s]`; when exactly one entry is non-zero the
returned root is that single leaf, with no internal node above it. -/
theorem C24_feuilles_de_la_table (freq_table : Nat → Nat)
    (hnz : ∃ s, s < 256 ∧ 0 < freq_table s) :
    (feuilles_freq (construire_arbre_huffman freq_table)).Perm
      ((symboles_presents freq_table).map (fun s => (s, freq_table s))) ∧
    (∀ s, s < 256 → (∀ k, k < 256 → k ≠ s → freq_table k = 0) →
      construire_arbre_huffman freq_table =
        Noeud.mk s (freq_table s) Noeud.null Noeud.null 1) :=
  construire_feuilles freq_table hnz

theorem C24_feuilles_de_la_table_witness :
    (∃ s, s < 256 ∧ 0 < table_exemple s) ∧
    (feuilles_freq (construire_arbre_huffman table_exemple)).Perm
      ((symboles_presents table_exemple).map (fun s => (s, table_exemple s))) ∧
    (∀ s, s < 256 → (∀ k, k < 256 → k ≠ s → table_exemple k = 0) →
      construire_arbre_huffman table_exemple =
        Noeud.mk s (table_exemple s) Noeud.null Noeud.null 1) :=
  ⟨⟨65, by decide, by decide⟩, C24_feuilles_de_la_table table_exemple ⟨65, by decide, by decide⟩⟩

/-! ## Depth of the leaves and writes to the buffer -/

theorem chemins_hauteur (t : Noeud) : ∀ p ∈ chemins t, p.2.length ≤ hauteur t := by
  induction t with
  | null => intro p hp; simp [chemins] at hp
  | mk c f l r lf ihl ihr =>
    intro p hp
    simp only [chemins, hauteur] at hp ⊢
    by_cases hlf : lf ≠ 0
    · rw [if_pos hlf] at hp
      rw [if_pos hlf]
      rw [List.mem_singleton.mp hp]
      exact Nat.le_refl _
    · rw [if_neg hlf] at hp
      rw [if_neg hlf]
      rcases List.mem_append.mp hp with h | h
      · obtain ⟨q, hq, rfl⟩ := List.mem_map.mp h
        have := ihl q hq
        have := Nat.le_max_left (hauteur l) (hauteur r)
        simp only [List.length_cons]
        omega
      · obtain ⟨q, hq, rfl⟩ := List.mem_map.mp h
        have := ihr q hq
        have := Nat.le_max_right (hauteur l) (hauteur r)
        simp only [List.length_cons]
        omega

theorem ecritures_tampon_le (t : Noeud) :
    ∀ depth, ∀ i ∈ ecritures_tampon t depth, i ≤ depth + hauteur t := by
  induction t with
  | null => intro depth i hi; simp [ecritures_tampon] at hi
  | mk c f l r lf ihl ihr =>
    intro depth i hi
    simp only [ecritures_tampon, hauteur] at hi ⊢
    by_cases hlf : lf ≠ 0
    · rw [if_pos hlf] at hi
      rw [if_pos hlf]
      split at hi
      · simp at hi
      · rw [List.mem_singleton.mp hi]
        exact Nat.le_refl _
    · rw [if_neg hlf] at hi
      rw [if_neg hlf]
      have hL := Nat.le_max_left (hauteur l) (hauteur r)
      have hR := Nat.le_max_right (hauteur l) (hauteur r)
      rcases List.mem_cons.mp hi with h | h
      · omega
      · rcases List.mem_append.mp h with h | h
        · have := ihl (depth + 1) i h
          omega
        · rcases List.mem_cons.mp h with h | h
          · omega
          · have := ihr (depth + 1) i h
            omega

/-- The returned tree has height at most 255. -/
theorem construire_hauteur (freq_table : Nat → Nat) :
    hauteur (construire_arbre_huffman freq_table) ≤ 255 := by
  by_cases hne : feuilles_de freq_table 256 = []
  · rw [construire_vide freq_table hne]
    decide
  · have hF := construire_bon freq_table hne
    generalize construire_arbre_huffman freq_table = T at hF
    have := hauteur_lt_symboles T hF.1
    omega

/-- C28: for every frequency table, every leaf of the tree returned by
`construire_arbre_huffman` has depth at most 255, so every code has at most 255 characters,
and every index that `generer_codes_rec` writes in its 512-character buffer is within
bounds. -/
theorem C28_profondeur_bornee (freq_table : Nat → Nat) :
    (∀ p ∈ profondeurs 0 (construire_arbre_huffman freq_table), p.2 ≤ 255) ∧
    (∀ s code, generer_codes (construire_arbre_huffman freq_table) s = some code →
      code.length ≤ 255) ∧
    (∀ i ∈ ecritures_tampon (construire_arbre_huffman freq_table) 0, i < 512) := by
  have hh := construire_hauteur freq_table
  refine ⟨?_, ?_, ?_⟩
  · intro p hp
    rw [← chemins_profondeurs] at hp
    obtain ⟨q, hq, rfl⟩ := List.mem_map.mp hp
    have := chemins_hauteur _ q hq
    simp only [Nat.zero_add]
    omega
  · intro s code hc
    by_cases hne : feuilles_de freq_table 256 = []
    · rw [construire_vide freq_table hne, generer_codes_null] at hc
      exact absurd hc (by simp)
    · have hF := construire_bon freq_table hne
      generalize construire_arbre_huffman freq_table = T at hF hc hh
      obtain ⟨hB, _, _, hN, hL⟩ := hF
      have hspec := generer_codes_spec T hB hN hL s
      by_cases hs : s ∈ symboles T
      · rw [← chemins_fst] at hs
        obtain ⟨q, hq, rfl⟩ := List.mem_map.mp hs
        have h1 := hspec.1 q.2 hq
        rw [hc] at h1
        have h2 := chemins_hauteur T q hq
        have h3 := Option.some.inj h1
        rw [h3]
        split
        · simp
        · omega
      · rw [hspec.2 hs] at hc
        exact absurd hc (by simp)
  · intro i hi
    have := ecritures_tampon_le _ 0 i hi
    omega

/-! ## The bits that a reader delivers -/

theorem bits_octet_length (b n : Nat) : (bits_octet b n).length = n := by
  induction n with
  | zero => rfl
  | succ n ih => simp [bits_octet, ih]

theorem bits_octet_lt (b n : Nat) : ∀ x ∈ bits_octet b n, x < 2 := by
  induction n with
  | zero => intro x hx; simp [bits_octet] at hx
  | succ n ih =>
    intro x hx
    simp only [bits_octet, List.mem_cons] at hx
    rcases hx with h | h
    · rw [h, Nat.and_one_is_mod]
      exact Nat.mod_lt _ (by norm_num)
    · exact ih x h

theorem bits_fichier_length (B : List Nat) : (bits_fichier B).length = 8 * B.length := by
  induction B with
  | nil => rfl
  | cons b B ih =>
    simp only [bits_fichier, List.length_append, bits_octet_length, ih, List.length_cons]
    omega

theorem bits_fichier_lt (B : List Nat) : ∀ x ∈ bits_fichier B, x < 2 := by
  induction B with
  | nil => intro x hx; simp [bits_fichier] at hx
  | cons b B ih =>
    intro x hx
    simp only [bits_fichier, List.mem_append] at hx
    rcases hx with h | h
    · exact bits_octet_lt b 8 x h
    · exact ih x h

theorem bits_fichier_append (B C : List Nat) :
    bits_fichier (B ++ C) = bits_fichier B ++ bits_fichier C := by
  induction B with
  | nil => rfl
  | cons b B ih =>
    show bits_octet b 8 ++ bits_fichier (B ++ C) = _
    rw [ih, bits_fichier, List.append_assoc]

theorem flux_length (br : BitReader) : (flux br).length = bits_restants br := by
  simp only [flux, bits_restants, List.length_append, bits_octet_length, bits_fichier_length]
  omega

theorem flux_lt (br : BitReader) : ∀ x ∈ flux br, x < 2 := by
  intro x hx
  simp only [flux, List.mem_append] at hx
  rcases hx with h | h
  · exact bits_octet_lt _ _ x h
  · exact bits_fichier_lt _ x h

theorem flux_br_create (B : List Nat) : flux (br_create B) = bits_fichier B := rfl

theorem lecteur_valide_create (B : List Nat) : LecteurValide (br_create B) := by
  constructor <;> simp [br_create]

/-- A read on a reader with no bit left fails and leaves the reader unchanged. -/
theorem br_read_bit_flux_vide (br : BitReader) (hv : LecteurValide br) (h : flux br = []) :
    br_read_bit br = (-1, br) := by
  apply br_read_bit_fin br hv
  rw [← flux_length, h]
  rfl

/-- A read on a reader with a bit left returns that bit and leaves the following ones. -/
theorem br_read_bit_flux (br : BitReader) (hv : LecteurValide br) (b : Nat) (reste : List Nat)
    (h : flux br = b :: reste) :
    (br_read_bit br).1 = (b : Int) ∧ flux (br_read_bit br).2 = reste ∧
      LecteurValide (br_read_bit br).2 := by
  obtain ⟨h1, h2⟩ := hv
  by_cases hneg : br.bit_pos < 0
  · have hp : br.bit_pos = -1 := by omega
    cases hf : br.f with
    | nil =>
      exfalso
      simp [flux, hp, hf, bits_octet, bits_fichier] at h
    | cons tmp r =>
      rw [br_read_bit_recharge br tmp r hp hf]
      simp only [flux, hp, hf, bits_fichier] at h
      have h' : bits_octet tmp 8 ++ bits_fichier r = b :: reste := by simpa [bits_octet] using h
      have e8 : bits_octet tmp 8 = ((tmp >>> 7) &&& 1) :: bits_octet tmp 7 := rfl
      rw [e8, List.cons_append] at h'
      obtain ⟨hb, hr⟩ := List.cons.inj h'
      refine ⟨by rw [← hb], ?_, ?_⟩
      · rw [← hr]; rfl
      · constructor <;> simp
  · obtain ⟨r, hr⟩ : ∃ r : Nat, br.bit_pos = (r : Int) := ⟨br.bit_pos.toNat, by omega⟩
    have hr7 : r ≤ 7 := by omega
    rw [br_read_bit_courant br r hr7 hr]
    have e : (br.bit_pos + 1).toNat = r + 1 := by omega
    simp only [flux, e, bits_octet, List.cons_append] at h
    obtain ⟨hb, hrest⟩ := List.cons.inj h
    refine ⟨by rw [← hb], ?_, ?_⟩
    · rw [← hrest]
      simp only [flux]
      have e2 : ((r : Int) - 1 + 1).toNat = r := by omega
      rw [e2]
    · constructor
      · show (-1 : Int) ≤ (r : Int) - 1
        omega
      · show (r : Int) - 1 ≤ 7
        omega

/-! ## Reading several bits -/

theorem valeur_boucle (bits : List Nat) (hb : ∀ x ∈ bits, x < 2) :
    ∀ (k v : Nat), v < 2 ^ k → k + bits.length ≤ 64 →
      bits.foldl (fun v b => ((v <<< 1) ||| b) % 2 ^ 64) v =
        bits.foldl (fun v b => 2 * v + b) v ∧
      bits.foldl (fun v b => 2 * v + b) v < 2 ^ (k + bits.length) := by
  induction bits with
  | nil => intro k v hv _; exact ⟨rfl, hv⟩
  | cons b bits ih =>
    intro k v hv hk
    simp only [List.length_cons] at hk
    have hb2 : b < 2 := hb b (List.mem_cons_self _ _)
    have hor : (v <<< 1) ||| b = 2 * v + b := by
      have hb1 : b < 2 ^ 1 := by omega
      rw [Nat.shiftLeft_eq, Nat.mul_comm, ← Nat.mul_add_lt_is_or hb1, pow_one]
    have hlt : 2 * v + b < 2 ^ (k + 1) := by
      rw [pow_succ]; omega
    have h64 : 2 * v + b < 2 ^ 64 :=
      lt_of_lt_of_le hlt (Nat.pow_le_pow_right (by norm_num) (by omega))
    simp only [List.foldl_cons, List.length_cons]
    rw [hor, Nat.mod_eq_of_lt h64]
    have := ih (fun x hx => hb x (List.mem_cons_of_mem _ hx)) (k + 1) (2 * v + b) hlt (by omega)
    have e : k + 1 + bits.length = k + (bits.length + 1) := by omega
    rw [e] at this
    exact this

theorem valeur_msb_lt (bits : List Nat) (hb : ∀ x ∈ bits, x < 2) (h : bits.length ≤ 64) :
    bits.foldl (fun v b => ((v <<< 1) ||| b) % 2 ^ 64) 0 = valeur_msb bits ∧
    valeur_msb bits < 2 ^ bits.length := by
  have := valeur_boucle bits hb 0 0 (by norm_num) (by omega)
  rw [Nat.zero_add] at this
  exact this

/-- The loop of `br_read_bits` with enough bits left: it assembles the next `n` bits and
leaves the following ones. -/
theorem br_read_bits_boucle_flux (n : Nat) :
    ∀ (br : BitReader) (value : Nat), LecteurValide br → n ≤ (flux br).length →
      (br_read_bits_boucle n br value).1 =
        some (((flux br).take n).foldl (fun v b => ((v <<< 1) ||| b) % 2 ^ 64) value) ∧
      flux (br_read_bits_boucle n br value).2 = (flux br).drop n ∧
      LecteurValide (br_read_bits_boucle n br value).2 := by
  induction n with
  | zero => intro br value hv _; exact ⟨rfl, rfl, hv⟩
  | succ n ih =>
    intro br value hv hn
    cases hfl : flux br with
    | nil => rw [hfl] at hn; simp at hn
    | cons b reste =>
      obtain ⟨h1, h2, h3⟩ := br_read_bit_flux br hv b reste hfl
      have hnn : ¬ ((br_read_bit br).1 < 0) := by rw [h1]; omega
      have htn : (br_read_bit br).1.toNat = b := by rw [h1]; rfl
      rw [hfl, List.length_cons] at hn
      have := ih (br_read_bit br).2 (((value <<< 1) ||| b) % 2 ^ 64) h3 (by rw [h2]; omega)
      rw [h2] at this
      simp only [br_read_bits_boucle, if_neg hnn, htn, List.take_succ_cons, List.foldl_cons,
        List.drop_succ_cons]
      exact this

/-- The loop of `br_read_bits` with too few bits left fails. -/
theorem br_read_bits_boucle_fin (n : Nat) :
    ∀ (br : BitReader) (value : Nat), LecteurValide br → (flux br).length < n →
      (br_read_bits_boucle n br value).1 = none := by
  induction n with
  | zero => intro br value _ h; omega
  | succ n ih =>
    intro br value hv hn
    cases hfl : flux br with
    | nil =>
      simp only [br_read_bits_boucle, br_read_bit_flux_vide br hv hfl]
      rfl
    | cons b reste =>
      obtain ⟨h1, h2, h3⟩ := br_read_bit_flux br hv b reste hfl
      have hnn : ¬ ((br_read_bit br).1 < 0) := by rw [h1]; omega
      rw [hfl, List.length_cons] at hn
      simp only [br_read_bits_boucle, if_neg hnn]
      exact ih _ _ h3 (by rw [h2]; omega)

theorem br_read_bits_reussit (br : BitReader) (count : Nat) (hv : LecteurValide br)
    (h1 : 1 ≤ count) (h64 : count ≤ 64) (hn : count ≤ (flux br).length) :
    (br_read_bits br count).1 =
      (if valeur_msb ((flux br).take count) < 2 ^ 63
        then (valeur_msb ((flux br).take count) : Int)
        else (valeur_msb ((flux br).take count) : Int) - 2 ^ 64) ∧
    flux (br_read_bits br count).2 = (flux br).drop count := by
  obtain ⟨h2, h3, _⟩ := br_read_bits_boucle_flux count br 0 hv hn
  have hlen : ((flux br).take count).length ≤ 64 := by
    rw [List.length_take]; omega
  have hval := (valeur_msb_lt ((flux br).take count)
    (fun x hx => flux_lt br x (List.mem_of_mem_take hx)) hlen).1
  rw [hval] at h2
  have hc : ¬ ((count : Int) < 1 ∨ (count : Int) > 64) := by omega
  unfold br_read_bits
  rw [if_neg hc, Int.toNat_ofNat]
  generalize br_read_bits_boucle count br 0 = R at h2 h3
  obtain ⟨v, r⟩ := R
  simp only at h2 h3
  subst h2
  exact ⟨rfl, h3⟩

theorem br_read_bits_echoue (br : BitReader) (count : Int) (hv : LecteurValide br)
    (h : count < 1 ∨ count > 64 ∨ ((flux br).length : Int) < count) :
    (br_read_bits br count).1 = -1 := by
  unfold br_read_bits
  by_cases hc : count < 1 ∨ count > 64
  · rw [if_pos hc]
  · rw [if_neg hc]
    have h2 := br_read_bits_boucle_fin count.toNat br 0 hv (by omega)
    generalize br_read_bits_boucle count.toNat br 0 = R at h2
    obtain ⟨v, r⟩ := R
    simp only at h2
    subst h2
    rfl

theorem bits_fichier_uns : bits_fichier (List.replicate 8 255) = List.replicate 64 1 := by
  decide

theorem valeur_msb_uns : valeur_msb (List.replicate 64 1) = 2 ^ 64 - 1 := by
  decide

/-- C21: for a count in `1..63` and a reader with at least that many bits left,
`br_read_bits` returns the unsigned value of the next bits assembled most significant bit
first (the bits 1, 0, 1 give 5), which is not `-1`, and it returns `-1` when the count is
outside `1..64` or fewer bits are left. With the count 64 the returned `long long` is the
two's complement reading of the 64 bits: on 64 bits equal to 1 it is `-1`, the error value,
although 64 bits were available. -/
theorem C21_lecture_de_bits :
    (∀ (br : BitReader) (count : Nat), LecteurValide br → 1 ≤ count → count ≤ 63 →
      count ≤ bits_restants br →
      (br_read_bits br count).1 = (valeur_msb ((flux br).take count) : Int) ∧
      (br_read_bits br count).1 ≠ -1 ∧
      flux (br_read_bits br count).2 = (flux br).drop count) ∧
    (∀ (br : BitReader) (count : Int), LecteurValide br →
      count < 1 ∨ count > 64 ∨ (bits_restants br : Int) < count →
      (br_read_bits br count).1 = -1) ∧
    (br_read_bits (br_create [160]) 3).1 = 5 ∧
    (bits_restants (br_create (List.replicate 8 255)) = 64 ∧
      flux (br_create (List.replicate 8 255)) = List.replicate 64 1 ∧
      (br_read_bits (br_create (List.replicate 8 255)) 64).1 = -1) := by
  refine ⟨?_, ?_, by decide, ?_, bits_fichier_uns, ?_⟩
  · intro br count hv h1 h63 hn
    rw [← flux_length] at hn
    obtain ⟨h2, h3⟩ := br_read_bits_reussit br count hv h1 (by omega) hn
    have hlen : ((flux br).take count).length ≤ 63 := by
      rw [List.length_take]; omega
    have hlt := (valeur_msb_lt ((flux br).take count)
      (fun x hx => flux_lt br x (List.mem_of_mem_take hx)) (by omega)).2
    have h63 : valeur_msb ((flux br).take count) < 2 ^ 63 :=
      lt_of_lt_of_le hlt (Nat.pow_le_pow_right (by norm_num) hlen)
    rw [if_pos h63] at h2
    refine ⟨h2, ?_, h3⟩
    rw [h2]
    omega
  · intro br count hv h
    rw [← flux_length] at h
    exact br_read_bits_echoue br count hv h
  · rfl
  · have h := (br_read_bits_reussit (br_create (List.replicate 8 255)) 64
      (lecteur_valide_create _) (by norm_num) (by norm_num)
      (by rw [flux_br_create, bits_fichier_length]; simp)).1
    rw [flux_br_create, bits_fichier_uns, List.take_of_length_le (by simp), valeur_msb_uns] at h
    rw [show ((64 : Nat) : Int) = 64 from rfl] at h
    rw [h]
    norm_num

/-! ## The decoding loop as a walk on the bits -/

theorem marche_zero (root : Noeud) (bits : List Nat) (cursor : Noeud) (out : List Nat) :
    marche root bits 0 cursor out = some (out, bits) := by
  cases bits <;> rfl

/-- The decoding loop of `decompress_file` on a reader is the tree walk on the bits that the
reader has still to deliver. -/
theorem decode_boucle_marche (root : Noeud) (total : Nat) (htot : total < 2 ^ 64) (fuel : Nat) :
    ∀ (br : BitReader) (produced : Nat) (cursor : Noeud) (out : List Nat),
      LecteurValide br → (flux br).length < fuel → produced ≤ total →
      (decode_boucle root total fuel br produced cursor out).map (fun r => (r.1, flux r.2)) =
        marche root (flux br) (total - produced) cursor out := by
  induction fuel with
  | zero => intro br _ _ _ _ h; omega
  | succ fuel ih =>
    intro br produced cursor out hv hfuel hp
    simp only [decode_boucle]
    by_cases hlt : produced < total
    · rw [if_pos hlt]
      obtain ⟨k, hk⟩ : ∃ k, total - produced = k + 1 := ⟨total - produced - 1, by omega⟩
      rw [hk]
      cases hfl : flux br with
      | nil =>
        rw [br_read_bit_flux_vide br hv hfl]
        rfl
      | cons b reste =>
        obtain ⟨h1, h2, h3⟩ := br_read_bit_flux br hv b reste hfl
        have hnn : ¬ ((br_read_bit br).1 < 0) := by rw [h1]; omega
        have hz : ((br_read_bit br).1 = 0) = (b = 0) := by
          rw [h1]
          exact propext Int.natCast_eq_zero
        rw [hfl, List.length_cons] at hfuel
        simp only [if_neg hnn, hz, marche]
        have hav : (if b = 0 then if cursor.left ≠ Noeud.null then cursor.left else cursor
            else if cursor.right ≠ Noeud.null then cursor.right else cursor) =
            avancer cursor b := rfl
        rw [hav]
        by_cases hlf : (avancer cursor b).leaf ≠ 0
        · rw [if_pos hlf, if_pos hlf]
          have hm : (produced + 1) % 2 ^ 64 = produced + 1 := Nat.mod_eq_of_lt (by omega)
          rw [hm, ih _ _ _ _ h3 (by rw [h2]; omega) (by omega), h2]
          have : total - (produced + 1) = k := by omega
          rw [this]
        · rw [if_neg hlf, if_neg hlf]
          rw [ih _ _ _ _ h3 (by rw [h2]; omega) hp, h2, hk]
    · rw [if_neg hlt]
      have : total - produced = 0 := by omega
      rw [this, marche_zero]
      rfl

/-- The symbols written by the tree walk are the first ones that the bits decode to, and the
walk fails exactly when the bits decode to fewer symbols than asked. -/
theorem marche_parcours (root : Noeud) (bits : List Nat) :
    ∀ (n : Nat) (cursor : Noeud) (out : List Nat),
      (marche root bits n cursor out).map Prod.fst =
        if n ≤ (parcours root cursor bits).length
        then some (out ++ (parcours root cursor bits).take n) else none := by
  induction bits with
  | nil =>
    intro n cursor out
    cases n with
    | zero => simp [marche, parcours]
    | succ n => simp [marche, parcours]
  | cons b bits ih =>
    intro n cursor out
    cases n with
    | zero => simp [marche]
    | succ n =>
      simp only [marche, parcours]
      by_cases hlf : (avancer cursor b).leaf ≠ 0
      · rw [if_pos hlf, if_pos hlf, ih]
        simp only [List.length_cons, Nat.add_le_add_iff_right, List.take_succ_cons,
          List.append_assoc, List.singleton_append]
      · rw [if_neg hlf, if_neg hlf, ih]

theorem parcours_prefixe (root : Noeud) (bits extra : List Nat) :
    ∀ cursor, parcours root cursor bits <+: parcours root cursor (bits ++ extra) := by
  induction bits with
  | nil => intro cursor; exact List.nil_prefix
  | cons b bits ih =>
    intro cursor
    simp only [List.cons_append, parcours]
    by_cases hlf : (avancer cursor b).leaf ≠ 0
    · rw [if_pos hlf, if_pos hlf]
      exact (List.prefix_cons_inj _).mpr (ih root)
    · rw [if_neg hlf, if_neg hlf]
      exact ih _

theorem read_u64_be_lt (f reste : List Nat) (v : Nat) (h : read_u64_be f = some (v, reste)) :
    v < 2 ^ 64 := by
  unfold read_u64_be at h
  split at h
  · exact Option.noConfusion h
  · rename_i hlen
    have hv : (f.take 8).foldl (fun v b => ((v <<< 8) ||| b) % 2 ^ 64) 0 = v :=
      congrArg Prod.fst (Option.some.inj h)
    rw [← hv]
    have hne : f.take 8 ≠ [] := by
      intro e
      have h8 : (f.take 8).length = 0 := by rw [e]; rfl
      rw [List.length_take] at h8
      omega
    obtain ⟨l, x, hl⟩ : ∃ l x, f.take 8 = l ++ [x] :=
      ⟨(f.take 8).dropLast, (f.take 8).getLast hne, (List.dropLast_append_getLast hne).symm⟩
    rw [hl, List.foldl_append]
    exact Nat.mod_lt _ (by norm_num)

theorem read_freq_header_total (f reste : List Nat) (total : Nat) (table : Nat → Nat)
    (h : read_freq_header f = some (total, table, reste)) : total < 2 ^ 64 := by
  unfold read_freq_header at h
  split at h
  · exact Option.noConfusion h
  · split at h
    · exact Option.noConfusion h
    · cases hr : read_u64_be (f.drop 4) with
      | none => rw [hr] at h; exact Option.noConfusion h
      | some r =>
        obtain ⟨v, r2⟩ := r
        rw [hr] at h
        simp only at h
        cases hq : read_freqs r2 256 with
        | none => rw [hq] at h; exact Option.noConfusion h
        | some q =>
          obtain ⟨tb, r3⟩ := q
          rw [hq] at h
          simp only [Option.some.injEq, Prod.mk.injEq] at h
          rw [← h.1]
          exact read_u64_be_lt _ _ _ hr

/-- The result of `decompress_file` on a file with a valid header, a positive total and a
non-null tree, by the symbols that the bits after the header decode to. -/
theorem decompress_file_parcours (input reste : List Nat) (total : Nat)
    (freq_table : Nat → Nat) (T : Noeud)
    (hh : read_freq_header input = some (total, freq_table, reste))
    (hT : construire_arbre_huffman freq_table = T) (h0 : 0 < total) (hne : T ≠ Noeud.null) :
    decompress_file input =
      if total ≤ (parcours T T (bits_fichier reste)).length
      then some ((parcours T T (bits_fichier reste)).take total) else none := by
  have htot := read_freq_header_total input reste total freq_table hh
  rw [decompress_file_de input reste total freq_table T hh hT, if_neg (by omega), if_neg hne]
  have h1 := decode_boucle_marche T total htot (8 * reste.length + 1) (br_create reste) 0 T []
    (lecteur_valide_create reste) (by rw [flux_br_create, bits_fichier_length]; omega)
    (Nat.zero_le _)
  have h2 := congrArg (Option.map Prod.fst) h1
  rw [Option.map_map, marche_parcours, flux_br_create, Nat.sub_zero, List.nil_append] at h2
  rw [← h2]
  rfl

/-- C22: for every compressed file with a valid header whose total `T` is positive and whose
frequency table has a non-zero entry, `decompress_file` succeeds with exactly `T` output
bytes, the first `T` symbols that the tree walk decodes, when the bits after the header
decode to at least `T` symbols, and fails when they decode to fewer; what follows the
`T`-th symbol is ignored, so any bytes added at the end of the file leave the result
unchanged. -/
theorem C22_decompression (input reste : List Nat) (total : Nat) (freq_table : Nat → Nat)
    (hh : read_freq_header input = some (total, freq_table, reste)) (h0 : 0 < total)
    (hnz : ∃ s, s < 256 ∧ 0 < freq_table s) :
    (total ≤ (parcours (construire_arbre_huffman freq_table)
        (construire_arbre_huffman freq_table) (bits_fichier reste)).length →
      (∃ out, decompress_file input = some out ∧ out.length = total ∧
        out = (parcours (construire_arbre_huffman freq_table)
          (construire_arbre_huffman freq_table) (bits_fichier reste)).take total) ∧
      ∀ input2 extra, read_freq_header input2 = some (total, freq_table, reste ++ extra) →
        decompress_file input2 = decompress_file input) ∧
    ((parcours (construire_arbre_huffman freq_table)
        (construire_arbre_huffman freq_table) (bits_fichier reste)).length < total →
      decompress_file input = none) := by
  have hne : construire_arbre_huffman freq_table ≠ Noeud.null := by
    intro e
    obtain ⟨s, hs, hf⟩ := hnz
    have := (construire_null_iff freq_table).mp e s hs
    omega
  have hd := decompress_file_parcours input reste total freq_table _ hh rfl h0 hne
  have hd2 := fun input2 extra
      (h2 : read_freq_header input2 = some (total, freq_table, reste ++ extra)) =>
    decompress_file_parcours input2 (reste ++ extra) total freq_table _ h2 rfl h0 hne
  generalize construire_arbre_huffman freq_table = T at hd hd2
  constructor
  · intro hle
    rw [if_pos hle] at hd
    refine ⟨⟨_, hd, by rw [List.length_take]; omega, rfl⟩, ?_⟩
    intro input2 extra h2
    rw [hd2 input2 extra h2, hd, bits_fichier_append]
    obtain ⟨t, ht⟩ := parcours_prefixe T (bits_fichier reste) (bits_fichier extra) T
    rw [← ht, if_pos (by rw [List.length_append]; omega), List.take_append_of_le_length hle]
  · intro hlt
    rw [if_neg (by omega)] at hd
    exact hd

theorem C22_decompression_witness :
    read_freq_header (write_freq_header 5 table_exemple ++ [45]) =
      some (5 % 2 ^ 64, (fun i => if i < 256 then table_exemple i % 2 ^ 64 else 0), [45]) ∧
    0 < 5 % 2 ^ 64 ∧
    (∃ s, s < 256 ∧ 0 < (fun i => if i < 256 then table_exemple i % 2 ^ 64 else 0) s) ∧
    ((5 % 2 ^ 64 ≤ (parcours
        (construire_arbre_huffman (fun i => if i < 256 then table_exemple i % 2 ^ 64 else 0))
        (construire_arbre_huffman (fun i => if i < 256 then table_exemple i % 2 ^ 64 else 0))
        (bits_fichier [45])).length →
      (∃ out, decompress_file (write_freq_header 5 table_exemple ++ [45]) = some out ∧
        out.length = 5 % 2 ^ 64 ∧
        out = (parcours
          (construire_arbre_huffman (fun i => if i < 256 then table_exemple i % 2 ^ 64 else 0))
          (construire_arbre_huffman (fun i => if i < 256 then table_exemple i % 2 ^ 64 else 0))
          (bits_fichier [45])).take (5 % 2 ^ 64)) ∧
      ∀ input2 extra, read_freq_header input2 =
          some (5 % 2 ^ 64, (fun i => if i < 256 then table_exemple i % 2 ^ 64 else 0),
            [45] ++ extra) →
        decompress_file input2 = decompress_file (write_freq_header 5 table_exemple ++ [45])) ∧
    ((parcours
        (construire_arbre_huffman (fun i => if i < 256 then table_exemple i % 2 ^ 64 else 0))
        (construire_arbre_huffman (fun i => if i < 256 then table_exemple i % 2 ^ 64 else 0))
        (bits_fichier [45])).length < 5 % 2 ^ 64 →
      decompress_file (write_freq_header 5 table_exemple ++ [45]) = none)) :=
  ⟨read_write_freq_header 5 table_exemple [45], by decide, ⟨65, by decide, by decide⟩,
    C22_decompression _ [45] (5 % 2 ^ 64) _ (read_write_freq_header 5 table_exemple [45])
      (by decide) ⟨65, by decide, by decide⟩⟩

/-! ## Decoding the bits of the codes -/

theorem avancer_gauche (c f : Nat) (l r : Noeud) (lf : Nat) (hl : l ≠ Noeud.null) :
    avancer (Noeud.mk c f l r lf) (bit_de '0') = l := by
  simp [avancer, bit_de, Noeud.left, hl]

theorem avancer_droite (c f : Nat) (l r : Noeud) (lf : Nat) (hr : r ≠ Noeud.null) :
    avancer (Noeud.mk c f l r lf) (bit_de '1') = r := by
  simp [avancer, bit_de, Noeud.right, hr]

theorem chemins_feuille (t : Noeud) (hB : Bon t) (hlf : t.leaf ≠ 0) :
    chemins t = [(t.c, [])] := by
  cases t with
  | null => exact absurd hB (by simp [Bon])
  | mk c f l r lf =>
    have hlf2 : lf ≠ 0 := hlf
    simp only [chemins, if_pos hlf2, Noeud.c]

/-- From an internal node, the bits of the path of a leaf lead the walk to that leaf: its
symbol is written and the walk goes on from the root with the following bits. -/
theorem marche_chemin (root : Noeud) (t : Noeud) :
    Bon t → t.leaf = 0 → ∀ p ∈ chemins t, ∀ (suite : List Nat) (n : Nat) (out : List Nat),
      marche root (p.2.map bit_de ++ suite) (n + 1) t out =
        marche root suite n root (out ++ [p.1]) := by
  induction t with
  | null => intro hB; exact absurd hB (by simp [Bon])
  | mk c f l r lf ihl ihr =>
    intro hB hlf p hp suite n out
    have hlf0 : lf = 0 := hlf
    subst hlf0
    rcases hB with ⟨_, _, h3, _⟩ | ⟨_, hBl, hBr⟩
    · exact absurd h3 (by decide)
    · simp only [chemins] at hp
      rw [if_neg (by decide)] at hp
      rcases List.mem_append.mp hp with h | h
      · obtain ⟨q, hq, rfl⟩ := List.mem_map.mp h
        simp only [List.map_cons, List.cons_append, marche]
        rw [avancer_gauche c f l r 0 (Bon_ne_null hBl)]
        by_cases hl : l.leaf ≠ 0
        · rw [if_pos hl]
          rw [chemins_feuille l hBl hl, List.mem_singleton] at hq
          subst hq
          rfl
        · rw [if_neg hl]
          exact ihl hBl (by omega) q hq suite n out
      · obtain ⟨q, hq, rfl⟩ := List.mem_map.mp h
        simp only [List.map_cons, List.cons_append, marche]
        rw [avancer_droite c f l r 0 (Bon_ne_null hBr)]
        by_cases hr : r.leaf ≠ 0
        · rw [if_pos hr]
          rw [chemins_feuille r hBr hr, List.mem_singleton] at hq
          subst hq
          rfl
        · rw [if_neg hr]
          exact ihr hBr (by omega) q hq suite n out

/-- The bits of the code of a symbol of the tree make the walk write that symbol. -/
theorem marche_code (T : Noeud) (hB : Bon T) (hnd : (symboles T).Nodup)
    (hlen : (symboles T).length ≤ 256) (s : Nat) (hs : s ∈ symboles T)
    (suite : List Nat) (n : Nat) (out : List Nat) :
    marche T (((generer_codes T s).getD []).map bit_de ++ suite) (n + 1) T out =
      marche T suite n T (out ++ [s]) := by
  rw [← chemins_fst] at hs
  obtain ⟨p, hp, rfl⟩ := List.mem_map.mp hs
  rw [(generer_codes_spec T hB hnd hlen p.1).1 p.2 hp]
  by_cases hlf : T.leaf ≠ 0
  · rw [if_pos hlf]
    rw [chemins_feuille T hB hlf, List.mem_singleton] at hp
    subst hp
    cases T with
    | null => exact absurd hB (by simp [Bon])
    | mk c f l r lf =>
      rcases hB with ⟨h1, h2, h3, _⟩ | ⟨h1, _, _⟩
      · subst h1 h2 h3
        rfl
      · exact absurd h1 hlf
  · rw [if_neg hlf]
    exact marche_chemin T T hB (by omega) p hp suite n out

theorem marche_codes (T : Noeud) (hB : Bon T) (hnd : (symboles T).Nodup)
    (hlen : (symboles T).length ≤ 256) (p : List Nat) (ss : List Nat) :
    (∀ s ∈ ss, s ∈ symboles T) → ∀ out : List Nat,
      marche T (bits_des_codes (generer_codes T) ss ++ p) ss.length T out =
        some (out ++ ss, p) := by
  induction ss with
  | nil =>
    intro _ out
    simp [bits_des_codes, marche_zero]
  | cons s ss ih =>
    intro h out
    simp only [bits_des_codes, List.length_cons, List.append_assoc]
    rw [marche_code T hB hnd hlen s (h s (List.mem_cons_self _ _)),
      ih (fun x hx => h x (List.mem_cons_of_mem _ hx))]
    simp

/-- The decoding loop on a reader that delivers the bits of the codes of `ss` and then the
bits `p`. -/
theorem decode_boucle_codes (T : Noeud) (hB : Bon T) (hnd : (symboles T).Nodup)
    (hlen : (symboles T).length ≤ 256) (ss p : List Nat) (hss : ∀ s ∈ ss, s ∈ symboles T)
    (hn : ss.length < 2 ^ 64) (br : BitReader) (hv : LecteurValide br)
    (hbr : flux br = bits_des_codes (generer_codes T) ss ++ p) :
    ∃ br2, decode_boucle T ss.length (bits_restants br + 1) br 0 T [] = some (ss, br2) ∧
      flux br2 = p := by
  have h1 := decode_boucle_marche T ss.length hn (bits_restants br + 1) br 0 T [] hv
    (by rw [flux_length]; omega) (Nat.zero_le _)
  rw [hbr, Nat.sub_zero, marche_codes T hB hnd hlen p ss hss, List.nil_append] at h1
  cases hd : decode_boucle T ss.length (bits_restants br + 1) br 0 T [] with
  | none => rw [hd] at h1; exact Option.noConfusion h1
  | some r =>
    rw [hd] at h1
    simp only [Option.map_some', Option.some.injEq, Prod.mk.injEq] at h1
    exact ⟨r.2, by rw [← h1.1], h1.2⟩

/-- C25: bit-level decoding inverts encoding. For every frequency table with a non-zero
entry, every sequence of symbols `ss` of non-zero frequency (its length being a 64-bit
count) and every trailing bits `p`, the tree walk of `decompress_file` with target count
the length of `ss`, run with the tree built from the table on a reader that delivers the
bits of the codes of `ss` followed by `p`, writes exactly `ss` and leaves exactly the bits
`p` unread. -/
theorem C25_decodage_inverse (freq_table : Nat → Nat)
    (hnz : ∃ s, s < 256 ∧ 0 < freq_table s) (ss p : List Nat)
    (hss : ∀ s ∈ ss, s < 256 ∧ 0 < freq_table s) (hn : ss.length < 2 ^ 64)
    (br : BitReader) (hv : LecteurValide br)
    (hbr : flux br =
      bits_des_codes (generer_codes (construire_arbre_huffman freq_table)) ss ++ p) :
    ∃ br2, decode_boucle (construire_arbre_huffman freq_table) ss.length
        (bits_restants br + 1) br 0 (construire_arbre_huffman freq_table) [] = some (ss, br2) ∧
      flux br2 = p := by
  have hF := construire_bon freq_table (feuilles_de_non_vide freq_table hnz)
  generalize construire_arbre_huffman freq_table = T at hF hbr
  obtain ⟨hB, _, hP, hN, hL⟩ := hF
  exact decode_boucle_codes T hB hN hL ss p
    (fun s hs => hP.mem_iff.mpr ((presents_iff freq_table 256 s).mpr (hss s hs))) hn br hv hbr

theorem flux_exemple :
    flux (br_create [45]) =
      bits_des_codes (generer_codes (construire_arbre_huffman table_exemple)) [65, 67] ++
        [0, 1, 1, 0, 1] := by
  have h := codes_exemple
  generalize generer_codes (construire_arbre_huffman table_exemple) = codes at h
  simp only [bits_des_codes, h.1, h.2.2]
  decide

theorem C25_decodage_inverse_witness :
    (∃ s, s < 256 ∧ 0 < table_exemple s) ∧
    (∀ s ∈ [65, 67], s < 256 ∧ 0 < table_exemple s) ∧ [65, 67].length < 2 ^ 64 ∧
    LecteurValide (br_create [45]) ∧
    flux (br_create [45]) =
      bits_des_codes (generer_codes (construire_arbre_huffman table_exemple)) [65, 67] ++
        [0, 1, 1, 0, 1] ∧
    ∃ br2, decode_boucle (construire_arbre_huffman table_exemple) [65, 67].length
        (bits_restants (br_create [45]) + 1) (br_create [45]) 0
        (construire_arbre_huffman table_exemple) [] = some ([65, 67], br2) ∧
      flux br2 = [0, 1, 1, 0, 1] :=
  ⟨⟨65, by decide, by decide⟩, by decide, by decide, lecteur_valide_create [45], flux_exemple,
    C25_decodage_inverse table_exemple ⟨65, by decide, by decide⟩ [65, 67] [0, 1, 1, 0, 1]
      (by decide) (by decide) (br_create [45]) (lecteur_valide_create [45]) flux_exemple⟩

/-! ## Length of the compressed file -/

theorem somme_par_symbole (x : List Nat) (hoct : ∀ b ∈ x, b < 256) (g : Nat → Nat) :
    (x.map g).sum = ∑ s ∈ Finset.range 256, x.count s * g s := by
  rw [Finset.sum_list_map_count]
  simp only [smul_eq_mul]
  apply Finset.sum_subset
  · intro s hs
    exact Finset.mem_range.mpr (hoct s (List.mem_toFinset.mp hs))
  · intro s _ hs
    rw [List.count_eq_zero_of_not_mem (fun h => hs (List.mem_toFinset.mpr h)), Nat.zero_mul]

theorem calcul_total_somme (freq_table : Nat → Nat) (n : Nat) :
    calcul_total freq_table n = (∑ s ∈ Finset.range n, freq_table s) % 2 ^ 64 := by
  induction n with
  | zero => rfl
  | succ n ih =>
    simp only [calcul_total]
    rw [Finset.sum_range_succ, ih, Nat.mod_add_mod]

theorem compter_exact (x : List Nat) (hlen : x.length < 2 ^ 64) (k : Nat) :
    compter_frequences_fichier x k = x.count k := by
  rw [compter_count]
  have := List.count_le_length k x
  exact Nat.mod_eq_of_lt (by omega)

/-- The total computed by `compress_file` is the length of the input. -/
theorem calcul_total_longueur (x : List Nat) (hoct : ∀ b ∈ x, b < 256)
    (hlen : x.length < 2 ^ 64) :
    calcul_total (compter_frequences_fichier x) 256 = x.length := by
  rw [calcul_total_somme]
  have h := somme_par_symbole x hoct (fun _ => 1)
  simp only [Nat.mul_one, List.map_const', List.sum_replicate, smul_eq_mul] at h
  have e : ∑ s ∈ Finset.range 256, compter_frequences_fichier x s = x.length := by
    rw [h]
    exact Finset.sum_congr rfl (fun s _ => compter_exact x hlen s)
  rw [e]
  exact Nat.mod_eq_of_lt hlen

theorem ecrire_bits_concat (bw : BitWriter) (a b : List Nat) :
    ecrire_bits bw (a ++ b) = ecrire_bits (ecrire_bits bw a) b := by
  simp [ecrire_bits, List.foldl_append]

/-- The encoding loop writes the bits of the codes of the input bytes, in order. -/
theorem compress_boucle_bits (codes : Nat → Option (List Char)) (input : List Nat)
    (h : ∀ b ∈ input, ∃ code, codes b = some code ∧ ∀ ch ∈ code, ch = '0' ∨ ch = '1') :
    ∀ bw : BitWriter,
      compress_boucle codes bw input = some (ecrire_bits bw (bits_des_codes codes input)) := by
  induction input with
  | nil => intro bw; rfl
  | cons b reste ih =>
    intro bw
    obtain ⟨code, hc, hv⟩ := h b (List.mem_cons_self _ _)
    simp only [compress_boucle, bits_des_codes, hc, bw_write_bits_valide code hv,
      Option.getD_some]
    simp only [ne_eq, not_true_eq_false, if_false]
    rw [ih (fun x hx => h x (List.mem_cons_of_mem _ hx)), ecrire_bits_concat]

theorem bits_des_codes_length (codes : Nat → Option (List Char)) (input : List Nat) :
    (bits_des_codes codes input).length =
      (input.map (fun s => ((codes s).getD []).length)).sum := by
  induction input with
  | nil => rfl
  | cons b reste ih =>
    simp only [bits_des_codes, List.length_append, List.length_map, ih, List.map_cons,
      List.sum_cons]

/-- The flush after `n` bits written to a fresh writer leaves `ceil(n/8)` bytes. -/
theorem flush_longueur (bits : List Nat) :
    (bw_write_flush (ecrire_bits (bw_create []) bits)).f.length = (bits.length + 7) / 8 := by
  obtain ⟨h1, h2, _, _⟩ := etat_apres_ecrire bits
  unfold bw_write_flush
  by_cases h : (ecrire_bits (bw_create []) bits).bit_count = 0
  · rw [if_pos h, h2]
    omega
  · rw [if_neg h]
    simp only [List.length_append, List.length_singleton, h2]
    omega

theorem compter_hors_octets (x : List Nat) (hoct : ∀ b ∈ x, b < 256) (k : Nat)
    (hk : ¬ k < 256) : compter_frequences_fichier x k = 0 := by
  rw [compter_count, List.count_eq_zero_of_not_mem (fun h => hk (hoct k h))]
  rfl

/-- The file written by `compress_file` for an input of fewer than `2^64` bytes. -/
theorem compress_file_longueur (x : List Nat) (hoct : ∀ b ∈ x, b < 256)
    (hlen : x.length < 2 ^ 64) :
    ∃ reste, compress_file x =
        some (write_freq_header x.length (compter_frequences_fichier x) ++ reste) ∧
      reste.length = (∑ s ∈ Finset.range 256, compter_frequences_fichier x s *
        ((generer_codes (construire_arbre_huffman (compter_frequences_fichier x)) s).getD
          []).length + 7) / 8 := by
  have htot := calcul_total_longueur x hoct hlen
  obtain ⟨hcodes, _⟩ := compress_file_reussit x hoct hlen
  rw [compress_file_de x _ _ _ rfl htot rfl]
  have hsum : (bits_des_codes (generer_codes (construire_arbre_huffman
      (compter_frequences_fichier x))) x).length =
      ∑ s ∈ Finset.range 256, compter_frequences_fichier x s *
        ((generer_codes (construire_arbre_huffman (compter_frequences_fichier x)) s).getD
          []).length := by
    rw [bits_des_codes_length, somme_par_symbole x hoct]
    exact Finset.sum_congr rfl (fun s _ => by rw [compter_exact x hlen s])
  generalize generer_codes (construire_arbre_huffman (compter_frequences_fichier x)) = codes
    at hcodes hsum
  cases x with
  | nil =>
    refine ⟨[], ?_, ?_⟩
    · simp only [List.length_nil, if_true, List.append_nil]
    · rw [← hsum]
      simp [bits_des_codes]
  | cons b r =>
    have hb : b ∈ b :: r := List.mem_cons_self _ _
    have hnn : construire_arbre_huffman (compter_frequences_fichier (b :: r)) ≠ Noeud.null := by
      intro e
      have h1 := (construire_null_iff (compter_frequences_fichier (b :: r))).mp e b (hoct b hb)
      rw [compter_exact (b :: r) hlen b] at h1
      have h2 : 0 < (b :: r).count b := List.count_pos_iff.mpr hb
      omega
    refine ⟨(bw_write_flush (ecrire_bits (bw_create [])
      (bits_des_codes codes (b :: r)))).f, ?_, ?_⟩
    · rw [if_neg (by simp), if_neg hnn]
      unfold charge_utile
      rw [compress_boucle_bits codes _ hcodes]
      rfl
    · rw [flush_longueur, hsum]

/-- C27, for inputs shorter than `2^64` bytes: with `f` the frequency table of the input `x`
and `c` its code table, the output of `compress_file` has exactly
`2060 + ceil((sum over the symbols s of f[s] * length(c[s])) / 8)` bytes, and the total
field of its header, as `read_freq_header` reads it back, is the length of `x`. -/
theorem C27_longueur_sortie (x : List Nat) (hoct : ∀ b ∈ x, b < 256)
    (hlen : x.length < 2 ^ 64) :
    ∃ out reste, compress_file x = some out ∧
      out.length = 2060 + (∑ s ∈ Finset.range 256, compter_frequences_fichier x s *
        ((generer_codes (construire_arbre_huffman (compter_frequences_fichier x)) s).getD
          []).length + 7) / 8 ∧
      read_freq_header out = some (x.length, compter_frequences_fichier x, reste) := by
  obtain ⟨reste, h1, h2⟩ := compress_file_longueur x hoct hlen
  refine ⟨_, reste, h1, ?_, ?_⟩
  · rw [List.length_append, write_freq_header_length, h2]
  · rw [read_write_freq_header, Nat.mod_eq_of_lt hlen]
    have e : (fun i => if i < 256 then compter_frequences_fichier x i % 2 ^ 64 else 0) =
        compter_frequences_fichier x := by
      funext i
      by_cases hi : i < 256
      · rw [if_pos hi, compter_count, Nat.mod_mod]
      · rw [if_neg hi, compter_hors_octets x hoct i hi]
    rw [e]

theorem C27_longueur_sortie_witness :
    (∀ b ∈ [65, 66], b < 256) ∧ [65, 66].length < 2 ^ 64 ∧
    ∃ out reste, compress_file [65, 66] = some out ∧
      out.length = 2060 + (∑ s ∈ Finset.range 256, compter_frequences_fichier [65, 66] s *
        ((generer_codes (construire_arbre_huffman (compter_frequences_fichier [65, 66]))
          s).getD []).length + 7) / 8 ∧
      read_freq_header out =
        some ([65, 66].length, compter_frequences_fichier [65, 66], reste) :=
  ⟨by decide, by decide, C27_longueur_sortie [65, 66] (by decide) (by decide)⟩

/-- C27 fails at `2^64` bytes: the input made of `2^64` copies of the byte 65 is not empty,
yet the total field of the header that `compress_file` writes for it is 0. -/
theorem C27_contre_exemple :
    List.replicate (2 ^ 64) 65 ≠ [] ∧ (∀ b ∈ List.replicate (2 ^ 64) 65, b < 256) ∧
    (List.replicate (2 ^ 64) 65).length = 2 ^ 64 ∧
    ∃ out table reste, compress_file (List.replicate (2 ^ 64) 65) = some out ∧
      read_freq_header out = some (0, table, reste) := by
  have hf : compter_frequences_fichier (List.replicate (2 ^ 64) 65) = fun _ => 0 := by
    rw [compter_repete, Nat.mod_self]
    funext k
    simp [table_repetee]
  refine ⟨?_, ?_, List.length_replicate _ _, ?_⟩
  · intro e
    have := congrArg List.length e
    rw [List.length_replicate] at this
    exact absurd this (by norm_num)
  · intro b hb
    rw [(List.mem_replicate.mp hb).2]
    norm_num
  · refine ⟨write_freq_header 0 (fun _ => 0) ++ [], _, [], ?_,
      read_write_freq_header 0 (fun _ => 0) []⟩
    rw [compress_file_de _ _ 0 (construire_arbre_huffman (fun _ => 0)) hf
      (calcul_total_zero 256) rfl, if_pos rfl, List.append_nil]

/-! ## More frequent symbols have codes that are no longer -/

theorem echanger_involutif (a b : Nat) : Function.Involutive (echanger_symboles a b) := by
  intro s
  unfold echanger_symboles
  split_ifs <;> omega

theorem echanger_perm (a b : Nat) (l : List Nat) (hnd : l.Nodup) (ha : a ∈ l) (hb : b ∈ l) :
    (l.map (echanger_symboles a b)).Perm l := by
  have hmem : ∀ x, x ∈ l → echanger_symboles a b x ∈ l := by
    intro x hx
    unfold echanger_symboles
    split_ifs
    · exact hb
    · exact ha
    · exact hx
  rw [List.perm_ext_iff_of_nodup (hnd.map (echanger_involutif a b).injective) hnd]
  intro x
  constructor
  · intro hx
    obtain ⟨y, hy, rfl⟩ := List.mem_map.mp hx
    exact hmem y hy
  · intro hx
    exact List.mem_map.mpr ⟨echanger_symboles a b x, hmem x hx, echanger_involutif a b x⟩

theorem Bon_plein (t : Noeud) (h : Bon t) : Plein t := by
  induction t with
  | null => exact absurd h (by simp [Bon])
  | mk c f l r lf ihl ihr =>
    rcases h with ⟨h1, h2, _, _⟩ | ⟨_, h2, h3⟩
    · exact Or.inl ⟨h1, h2⟩
    · exact Or.inr ⟨ihl h2, ihr h3⟩

/-- The weighted path length of a well-shaped tree as a sum over its leaves with their
paths. -/
theorem longueur_chemins (g : Nat → Nat) (t : Noeud) (h : Bon t) :
    ∀ d, longueur_ponderee g d t =
      ((chemins t).map (fun p => g p.1 * (d + p.2.length))).sum := by
  induction t with
  | null => exact absurd h (by simp [Bon])
  | mk c f l r lf ihl ihr =>
    intro d
    simp only [longueur_ponderee, chemins]
    rcases h with ⟨h1, h2, h3, _⟩ | ⟨h1, h2, h3⟩
    · rw [if_pos ⟨h1, h2⟩, if_pos (by omega)]
      simp
    · rw [if_neg (by simp [Bon_ne_null h2]), if_neg (by simp [h1]), ihl h2, ihr h3,
        List.map_append, List.sum_append, List.map_map, List.map_map]
      have e : ∀ ch : Char, ((fun p : Nat × List Char => g p.1 * (d + p.2.length)) ∘
          (fun p => (p.1, ch :: p.2))) =
          fun p : Nat × List Char => g p.1 * (d + 1 + p.2.length) := by
        intro ch
        funext p
        simp only [Function.comp, List.length_cons]
        have : d + (p.2.length + 1) = d + 1 + p.2.length := by omega
        rw [this]
      rw [e, e]

/-- The tree returned by `construire_arbre_huffman` costs no more than any depth assignment
with Kraft sum one over the frequencies of the table. -/
theorem construire_optimal_affectation (freq_table : Nat → Nat)
    (htot : total_table freq_table 256 < 2 ^ 64) (hne : feuilles_de freq_table 256 ≠ [])
    (A : Multiset (Nat × Nat))
    (hA1 : A.map Prod.fst = ((presents freq_table 256 : Multiset Nat)).map freq_table)
    (hA2 : kraftD (A.map Prod.snd) = 1) :
    cout 0 (construire_arbre_huffman freq_table) ≤ coutA A := by
  have h0 : InvOpt freq_table (coutA A) (feuilles_de freq_table 256 : Multiset Noeud) := by
    refine ⟨InvSomme_init freq_table, A, ?_, hA2, ?_⟩
    · rw [hA1, feuilles_de_freq]
    · rw [feuilles_de_cout, zero_add]
  have := construire_regle freq_table (InvOpt freq_table (coutA A))
    (InvOpt_null freq_table _)
    (fun F a b h ha hb => InvOpt_step freq_table _ htot F a b h ha hb) h0 hne
  obtain ⟨_, A2, _, _, hc⟩ := this
  simp only [Multiset.map_singleton, Multiset.sum_singleton] at hc
  omega

/-- Exchanging the symbols of two leaves changes the sum over the leaves only by the terms of
these two leaves. -/
theorem somme_echange (L : List (Nat × List Char)) (hnd : (L.map Prod.fst).Nodup)
    (g : Nat → Nat) (w : List Char → Nat) (a b : Nat) (pa pb : List Char)
    (ha : (a, pa) ∈ L) (hb : (b, pb) ∈ L) (hab : a ≠ b) :
    (L.map (fun p => g (echanger_symboles a b p.1) * w p.2)).sum + g a * w pa + g b * w pb =
      (L.map (fun p => g p.1 * w p.2)).sum + g b * w pa + g a * w pb := by
  have hne : (b, pb) ≠ (a, pa) := fun e => hab (congrArg Prod.fst e).symm
  obtain ⟨s1, t1, rfl⟩ := List.append_of_mem ha
  have hb2 : (b, pb) ∈ s1 ++ t1 := by
    rcases List.mem_append.mp hb with h | h
    · exact List.mem_append_left _ h
    · rcases List.mem_cons.mp h with h | h
      · exact absurd h hne
      · exact List.mem_append_right _ h
  obtain ⟨s2, t2, e2⟩ := List.append_of_mem hb2
  have hperm : (s1 ++ (a, pa) :: t1).Perm ((a, pa) :: (b, pb) :: (s2 ++ t2)) := by
    refine List.perm_middle.trans (List.Perm.cons _ ?_)
    rw [e2]
    exact List.perm_middle
  generalize s2 ++ t2 = R at hperm
  generalize s1 ++ (a, pa) :: t1 = L at hperm hnd
  have hnd2 := (hperm.map Prod.fst).nodup_iff.mp hnd
  simp only [List.map_cons, List.nodup_cons, List.mem_cons, not_or] at hnd2
  obtain ⟨⟨_, haR⟩, hbR, _⟩ := hnd2
  have hR : R.map (fun p => g (echanger_symboles a b p.1) * w p.2) =
      R.map (fun p => g p.1 * w p.2) := by
    apply List.map_congr_left
    intro p hp
    have h1 : p.1 ≠ a := fun e => haR (e ▸ List.mem_map_of_mem Prod.fst hp)
    have h2 : p.1 ≠ b := fun e => hbR (e ▸ List.mem_map_of_mem Prod.fst hp)
    simp only [echanger_symboles, if_neg h1, if_neg h2]
  rw [(hperm.map _).sum_eq, (hperm.map (fun p => g p.1 * w p.2)).sum_eq]
  simp only [List.map_cons, List.sum_cons, hR]
  have ea : echanger_symboles a b a = b := by simp [echanger_symboles]
  have eb : echanger_symboles a b b = a := by
    simp only [echanger_symboles, if_neg (Ne.symm hab), if_true]
  rw [ea, eb]
  omega

/-- In a tree of least cost, a leaf of greater frequency is not deeper. -/
theorem plus_frequent_moins_profond (freq_table : Nat → Nat)
    (htot : total_table freq_table 256 < 2 ^ 64) (a b : Nat) (hb : b < 256)
    (hab : freq_table b < freq_table a) (hb0 : 0 < freq_table b) (pa pb : List Char)
    (hpa : (a, pa) ∈ chemins (construire_arbre_huffman freq_table))
    (hpb : (b, pb) ∈ chemins (construire_arbre_huffman freq_table)) :
    pa.length ≤ pb.length := by
  have hne := feuilles_de_non_vide freq_table ⟨b, hb, hb0⟩
  have hF := construire_bon freq_table hne
  have hopt := construire_optimal_affectation freq_table htot hne
  generalize construire_arbre_huffman freq_table = T at hF hopt hpa hpb
  obtain ⟨hB, hT, hP, hN, _⟩ := hF
  have haT : a ∈ symboles T := by
    rw [← chemins_fst]; exact List.mem_map_of_mem Prod.fst hpa
  have hbT : b ∈ symboles T := by
    rw [← chemins_fst]; exact List.mem_map_of_mem Prod.fst hpb
  have h1 := hopt (affectation (freq_table ∘ echanger_symboles a b) 0 T)
    (by
      rw [affectation_fst, Bon_feuilles T hB, ← Multiset.map_map, Multiset.map_coe]
      congr 1
      exact Multiset.coe_eq_coe.mpr ((echanger_perm a b _ hN haT hbT).trans hP))
    (by rw [affectation_kraft _ _ _ (Bon_plein T hB), pow_zero])
  rw [affectation_cout, ← Bon_longueur freq_table 0 T hB hT, longueur_chemins _ T hB,
    longueur_chemins _ T hB] at h1
  have h2 := somme_echange (chemins T) (by rw [chemins_fst]; exact hN) freq_table
    (fun q => 0 + q.length) a b pa pb hpa hpb (by intro e; subst e; omega)
  simp only [Function.comp] at h1
  by_contra hlt
  have hlt2 : pb.length < pa.length := by omega
  obtain ⟨u, hu⟩ := Nat.exists_eq_add_of_lt hab
  obtain ⟨v, hv⟩ := Nat.exists_eq_add_of_lt hlt2
  simp only [Nat.zero_add] at h1 h2
  rw [hu, hv] at h2
  have h3 : (freq_table b + u + 1) * (pb.length + v + 1) + freq_table b * pb.length =
      freq_table b * (pb.length + v + 1) + (freq_table b + u + 1) * pb.length +
        (u + 1) * (v + 1) := by ring
  have h4 : 0 < (u + 1) * (v + 1) := Nat.mul_pos (by omega) (by omega)
  omega

/-- C23: more frequent symbols never get longer codes. For every frequency table whose
entries sum to less than `2^64` and every two symbols `a`, `b` with
`freq[a] > freq[b] > 0`, the code that `generer_codes(construire_arbre_huffman(freq))`
assigns to `a` is no longer than the code it assigns to `b`. -/
theorem C23_codes_et_frequences (freq_table : Nat → Nat)
    (htot : total_table freq_table 256 < 2 ^ 64) (a b : Nat) (ha : a < 256) (hb : b < 256)
    (hab : freq_table b < freq_table a) (hb0 : 0 < freq_table b) :
    ∃ ca cb, generer_codes (construire_arbre_huffman freq_table) a = some ca ∧
      generer_codes (construire_arbre_huffman freq_table) b = some cb ∧
      ca.length ≤ cb.length := by
  have hne := feuilles_de_non_vide freq_table ⟨b, hb, hb0⟩
  have hF := construire_bon freq_table hne
  have hprof := plus_frequent_moins_profond freq_table htot a b hb hab hb0
  generalize construire_arbre_huffman freq_table = T at hF hprof
  obtain ⟨hB, _, hP, hN, hL⟩ := hF
  have haT : a ∈ symboles T :=
    hP.mem_iff.mpr (presents_mem freq_table 256 a ha (by omega))
  have hbT : b ∈ symboles T := hP.mem_iff.mpr (presents_mem freq_table 256 b hb hb0)
  rw [← chemins_fst] at haT hbT
  obtain ⟨⟨a2, pa⟩, hpa, rfl⟩ := List.mem_map.mp haT
  obtain ⟨⟨b2, pb⟩, hpb, rfl⟩ := List.mem_map.mp hbT
  refine ⟨_, _, (generer_codes_spec T hB hN hL a2).1 pa hpa,
    (generer_codes_spec T hB hN hL b2).1 pb hpb, ?_⟩
  by_cases hlf : T.leaf ≠ 0
  · rw [if_pos hlf, if_pos hlf]
  · rw [if_neg hlf, if_neg hlf]
    exact hprof pa pb hpa hpb

theorem C23_codes_et_frequences_witness :
    total_table table_exemple 256 < 2 ^ 64 ∧ 67 < 256 ∧ 65 < 256 ∧
    table_exemple 65 < table_exemple 67 ∧ 0 < table_exemple 65 ∧
    ∃ ca cb, generer_codes (construire_arbre_huffman table_exemple) 67 = some ca ∧
      generer_codes (construire_arbre_huffman table_exemple) 65 = some cb ∧
      ca.length ≤ cb.length :=
  ⟨table_exemple_total, by decide, by decide, by decide, by decide,
    C23_codes_et_frequences table_exemple table_exemple_total 67 65 (by decide) (by decide)
      (by decide) (by decide)⟩

end Huffman
